import Mathlib

/-!
# Schema-migration engine (`cmd/migrate/main.go`)

A shallow embedding of the migration command.  The database is a pair of an
abstract state, holding everything but the ledger, and the ledger table
`schema_migrations`; the file system, the meaning of SQL scripts and the possible
failures of the driver calls are collected in an environment record that is fixed
during a run.  The text of a migration file is handed to the server as it is: a
script acts on the connection of its transaction, it may write the ledger table and it
may end the transaction on its own.

Go strings are modelled by Lean strings.  Go compares and splits strings
byte-wise on their UTF-8 encoding; on well-formed UTF-8 this agrees with the
character-wise operations used here (UTF-8 preserves code point order and the
separator `_` is a single byte).

# Value objects (`internal/shared/domain`)

The namespace `Domain` embeds `email.go` and `money.go`.  `int64` values are
integers in the `int64` range and arithmetic wraps around modulo `2^64`;
`float64` values are IEEE 754 binary64 numbers with products rounded to the
nearest value (ties to even).  The lower-case table of Unicode for characters
outside ASCII is a parameter of `NewEmail`, and the implementation-dependent
result of converting an unrepresentable `float64` to `int64` is a parameter of
`NewMoney` and `Multiply`.
-/

namespace Migrate

/-! ## Strings -/

/-- Lexicographic `a <= b` on character lists, the order of Go's string comparison. -/
def lexLe : List Char → List Char → Bool
  | [], _ => true
  | _ :: _, [] => false
  | a :: as, b :: bs => decide (a < b) || (decide (a = b) && lexLe as bs)

/-- Go's `a <= b` on strings. -/
def strLe (a b : String) : Bool := lexLe a.data b.data

/-- The relation handed to the sort: `a` may stand before `b`. -/
def StrLe (a b : String) : Prop := strLe a b = true

instance : DecidableRel StrLe := fun a b => inferInstanceAs (Decidable (strLe a b = true))

/-- Relation of `sort.Reverse(sort.StringSlice(files))`: descending order. -/
def StrGe (a b : String) : Prop := strLe b a = true

instance : DecidableRel StrGe := fun a b => inferInstanceAs (Decidable (strLe b a = true))

/-- Model of `sort.Strings(files)`: ascending byte-wise order. -/
def sortStrings (files : List String) : List String :=
  List.insertionSort StrLe files

/-- Model of `sort.Sort(sort.Reverse(sort.StringSlice(files)))`. -/
def sortReverse (files : List String) : List String :=
  List.insertionSort StrGe files

/-- Model of `strings.HasSuffix(s, suffix)`. -/
def hasSuffix (s suffix : String) : Bool :=
  suffix.data.isSuffixOf s.data

/-- Model of `strings.Split(s, sep)` for a one-character separator, on character lists.
The result is never empty: the empty input gives one empty part. -/
def splitOnChar (sep : Char) : List Char → List (List Char)
  | [] => [[]]
  | c :: cs =>
    if c = sep then [] :: splitOnChar sep cs
    else
      match splitOnChar sep cs with
      | [] => [[c]]
      | p :: ps => (c :: p) :: ps

/-- The version token of a file name: `parts[0]` of `strings.Split(filename, "_")`,
with the source's fallback to the whole name when there are no parts. -/
def getVersionFromFilename (filename : String) : String :=
  match splitOnChar '_' filename.data with
  | p :: _ => String.mk p
  | [] => filename

/-- Whether the character list `long` is `short` followed by at least one more character:
`short` is a proper initial segment of `long`. -/
def extendsList : List Char → List Char → Bool
  | [], _ => false
  | _ :: _, [] => true
  | a :: as, b :: bs => decide (a = b) && extendsList as bs

/-- Whether the string `long` properly extends the string `short`. -/
def strictlyExtends (long short : String) : Bool := extendsList long.data short.data

/-- The characters of a file name before its first `_`. -/
def tokenChars (l : List Char) : List Char := l.takeWhile (fun c => decide (c ≠ '_'))

/-! ## File system -/

/-- One entry of a directory listing: `entry.Name()` and `entry.IsDir()`. -/
structure DirEntry where
  name : String
  isDir : Bool
deriving DecidableEq

/-- Outcome of `os.ReadDir(migrationsDir)`. -/
inductive ReadDir where
  | entries (es : List DirEntry)
  | notExist
  | failure
deriving DecidableEq

/-- Error values returned by the migration functions. -/
inductive Err where
  | readDir
  | query
  | readFile
  | beginTx
  | execSQL
  | ledgerWrite
  | commit
  | applyFailed (file : String) (cause : Err)
  | rollbackFailed (file : String) (cause : Err)
deriving DecidableEq

/-! ## Database -/

/-- Database state: everything in the database apart from the ledger table (`schema`)
and the version column of the ledger table `schema_migrations` (`ledger`).  The
`applied_at` column is not modelled. -/
structure DB (S : Type) where
  schema : S
  ledger : List String
deriving DecidableEq

/-- What the server holds for the connection of a `*sql.Tx`.  `active base work`: the
transaction begun by `db.Begin()` is in progress; `base` is the committed state, to
which a rollback returns, and `work` is the state that the statements of the
transaction see and change.  `ended db`: a script has ended the transaction (for
instance with a `COMMIT` of its own); no transaction is in progress, the database state
is `db` and every further statement on the connection takes effect at once. -/
inductive Tx (S : Type) where
  | active (base work : DB S)
  | ended (db : DB S)
deriving DecidableEq

/-- The database state that the statements on the connection see. -/
def Tx.view {S : Type} : Tx S → DB S
  | .active _ work => work
  | .ended db => db

/-- The connection after a statement has changed the state it sees to `d`. -/
def Tx.write {S : Type} (tx : Tx S) (d : DB S) : Tx S :=
  match tx with
  | .active base _ => .active base d
  | .ended _ => .ended d

/-- What the server answers to the text of a script: the connection afterwards and
whether it reported an error. -/
structure ExecResult (S : Type) where
  tx : Tx S
  failed : Bool
deriving DecidableEq

/-- The environment of a run.  `dir` is the result of reading the migrations
directory, `readFile` the content of a file in it (`none`: the read fails).  `exec` is
the server executing the text of a script on the connection of the transaction.  The
source hands the text of the file to `tx.Exec` as it is, so a script is free to change
the ledger table as well as everything else in the database, and to end the transaction
it runs in; `exec` is therefore an arbitrary function on connections.  The remaining
fields say which driver calls fail: the ledger query, `db.Begin` and `tx.Commit` for the
transaction of a file, and the ledger statements for a version. -/
structure Env (S : Type) where
  dir : ReadDir
  readFile : String → Option String
  exec : String → Tx S → ExecResult S
  queryFails : Bool
  beginFails : String → Bool
  insertFails : String → Bool
  deleteFails : String → Bool
  commitFails : String → Bool

/-- Model of `db.Begin()` for the transaction of `file`. -/
def dbBegin {S : Type} (env : Env S) (db : DB S) (file : String) : Option (Tx S) :=
  if env.beginFails file then none else some (.active db db)

/-- Model of `tx.Exec(string(content))`: the server executes the text of the script on
the connection of the transaction. -/
def txExec {S : Type} (env : Env S) (tx : Tx S) (content : String) : ExecResult S :=
  env.exec content tx

/-- Model of `INSERT INTO schema_migrations (version) VALUES ($1)`: it fails on a
version that is already recorded (primary key). -/
def txInsert {S : Type} (env : Env S) (tx : Tx S) (version : String) : Option (Tx S) :=
  if env.insertFails version then none
  else if version ∈ tx.view.ledger then none
  else some (tx.write ⟨tx.view.schema, tx.view.ledger ++ [version]⟩)

/-- Model of `DELETE FROM schema_migrations WHERE version = $1`. -/
def txDelete {S : Type} (env : Env S) (tx : Tx S) (version : String) : Option (Tx S) :=
  if env.deleteFails version then none
  else some (tx.write ⟨tx.view.schema, tx.view.ledger.filter (fun v => v ≠ version)⟩)

/-- Model of `tx.Commit()`: what the connection sees is the database state afterwards.
On a connection whose transaction a script has ended the server has nothing left to
commit and the statement succeeds all the same. -/
def txCommit {S : Type} (env : Env S) (tx : Tx S) (file : String) : Option (DB S) :=
  if env.commitFails file then none else some tx.view

/-- Model of the deferred `tx.Rollback()` after an error: a transaction in progress is
undone and the database keeps its committed state; when a script has ended the
transaction there is nothing to undo and the database stays as the connection left
it. -/
def txRollback {S : Type} : Tx S → DB S
  | .active base _ => base
  | .ended db => db

/-- Result of one transactional step: the returned error (`none` is Go's `nil`)
and the database state afterwards. -/
structure Step (S : Type) where
  err : Option Err
  db : DB S
deriving DecidableEq

/-- Lines written to the log by `migrateUp` and `migrateDown`. -/
inductive LogEvent where
  | noFiles
  | skipApplied (file : String)
  | applying (file : String)
  | applied (file : String)
  | skipNonApplied (file : String)
  | rollingBack (file : String)
  | rolledBack (file : String)
deriving DecidableEq

/-- Result of a run: returned error, database state afterwards, log. -/
structure Run (S : Type) where
  err : Option Err
  db : DB S
  log : List LogEvent
deriving DecidableEq

/-! ## The migration functions -/

/-- Model of `getMigrationFiles(suffix)`. -/
def getMigrationFiles {S : Type} (env : Env S) (suffix : String) : List String × Option Err :=
  match env.dir with
  | .notExist => ([], none)
  | .failure => ([], some .readDir)
  | .entries es =>
    (sortStrings ((es.filter (fun e => !e.isDir && hasSuffix e.name suffix)).map DirEntry.name),
      none)

/-- Model of `getAppliedMigrations`: the versions recorded in the ledger. -/
def getAppliedMigrations {S : Type} (env : Env S) (db : DB S) : List String × Option Err :=
  if env.queryFails then ([], some .query) else (db.ledger, none)

/-- Model of `applyMigration(db, filename, version)`. -/
def applyMigration {S : Type} (env : Env S) (db : DB S) (filename version : String) : Step S :=
  match env.readFile filename with
  | none => ⟨some .readFile, db⟩
  | some content =>
    match dbBegin env db filename with
    | none => ⟨some .beginTx, db⟩
    | some tx =>
      if (txExec env tx content).failed then
        ⟨some .execSQL, txRollback (txExec env tx content).tx⟩
      else
        match txInsert env (txExec env tx content).tx version with
        | none => ⟨some .ledgerWrite, txRollback (txExec env tx content).tx⟩
        | some tx2 =>
          match txCommit env tx2 filename with
          | none => ⟨some .commit, txRollback tx2⟩
          | some db2 => ⟨none, db2⟩

/-- Model of `rollbackMigration(db, filename, version)`. -/
def rollbackMigration {S : Type} (env : Env S) (db : DB S) (filename version : String) : Step S :=
  match env.readFile filename with
  | none => ⟨some .readFile, db⟩
  | some content =>
    match dbBegin env db filename with
    | none => ⟨some .beginTx, db⟩
    | some tx =>
      if (txExec env tx content).failed then
        ⟨some .execSQL, txRollback (txExec env tx content).tx⟩
      else
        match txDelete env (txExec env tx content).tx version with
        | none => ⟨some .ledgerWrite, txRollback (txExec env tx content).tx⟩
        | some tx2 =>
          match txCommit env tx2 filename with
          | none => ⟨some .commit, txRollback tx2⟩
          | some db2 => ⟨none, db2⟩

/-- The loop of `migrateUp` over the sorted files; `applied` is the map read before
the loop and is not refreshed. -/
def upLoop {S : Type} (env : Env S) (applied : List String) : List String → DB S → Run S
  | [], db => ⟨none, db, []⟩
  | file :: rest, db =>
    if getVersionFromFilename file ∈ applied then
      let r := upLoop env applied rest db
      ⟨r.err, r.db, .skipApplied file :: r.log⟩
    else
      let st := applyMigration env db file (getVersionFromFilename file)
      match st.err with
      | some e => ⟨some (.applyFailed file e), st.db, [.applying file]⟩
      | none =>
        let r := upLoop env applied rest st.db
        ⟨r.err, r.db, .applying file :: .applied file :: r.log⟩

/-- Model of `migrateUp`. -/
def migrateUp {S : Type} (env : Env S) (db : DB S) : Run S :=
  match getMigrationFiles env ".up.sql" with
  | (_, some e) => ⟨some e, db, []⟩
  | (files, none) =>
    if files.length = 0 then ⟨none, db, [.noFiles]⟩
    else
      match getAppliedMigrations env db with
      | (_, some e) => ⟨some e, db, []⟩
      | (applied, none) => upLoop env applied files db

/-- The loop of `migrateDown` over the reverse-sorted files: it stops at the first
file whose version is applied. -/
def downLoop {S : Type} (env : Env S) (applied : List String) : List String → DB S → Run S
  | [], db => ⟨none, db, []⟩
  | file :: rest, db =>
    if getVersionFromFilename file ∉ applied then
      let r := downLoop env applied rest db
      ⟨r.err, r.db, .skipNonApplied file :: r.log⟩
    else
      let st := rollbackMigration env db file (getVersionFromFilename file)
      match st.err with
      | some e => ⟨some (.rollbackFailed file e), st.db, [.rollingBack file]⟩
      | none => ⟨none, st.db, [.rollingBack file, .rolledBack file]⟩

/-- Model of `migrateDown`. -/
def migrateDown {S : Type} (env : Env S) (db : DB S) : Run S :=
  match getMigrationFiles env ".down.sql" with
  | (_, some e) => ⟨some e, db, []⟩
  | (files, none) =>
    if files.length = 0 then ⟨none, db, [.noFiles]⟩
    else
      match getAppliedMigrations env db with
      | (_, some e) => ⟨some e, db, []⟩
      | (applied, none) => downLoop env applied (sortReverse files) db

/-! ## The command -/

/-- The database server as the command finds it: the schema state and the ledger table
`schema_migrations`, `none` when the table does not exist. -/
structure Server (S : Type) where
  schema : S
  ledger : Option (List String)
deriving DecidableEq

/-- Which of the calls made by `main` before the migration fail: `sql.Open`, `db.Ping` and
the statement of `createMigrationsTable`. -/
structure ConnEnv where
  openFails : Bool
  pingFails : Bool
  createTableFails : Bool
deriving DecidableEq

/-- The fatal errors of `main` (`log.Fatalf`). -/
inductive Fatal where
  | connect
  | ping
  | createTable
  | migrateUp (e : Err)
  | migrateDown (e : Err)
  | invalidDirection (direction : String)
deriving DecidableEq

/-- What a run of `main` did: the fatal error it ended with (`none`: exit status zero),
whether `sql.Open` returned a handle, whether `db.Ping` was called, the server state
afterwards and the log of the migration function. -/
structure MainRun (S : Type) where
  fatal : Option Fatal
  opened : Bool
  pinged : Bool
  server : Server S
  log : List LogEvent
deriving DecidableEq

/-- Model of `createMigrationsTable`: `CREATE TABLE IF NOT EXISTS schema_migrations`.  On
success the table exists, empty if it was absent and untouched otherwise (`some`); on
failure nothing changes (`none`). -/
def createMigrationsTable {S : Type} (conn : ConnEnv) (srv : Server S) : Option (DB S) :=
  if conn.createTableFails then none
  else
    match srv.ledger with
    | none => some ⟨srv.schema, []⟩
    | some l => some ⟨srv.schema, l⟩

/-- Model of `main` after flag parsing: `direction` is the value of the `-direction` flag
(`up` when the flag is not given). -/
def main {S : Type} (env : Env S) (conn : ConnEnv) (direction : String) (srv : Server S) :
    MainRun S :=
  if conn.openFails then ⟨some .connect, false, false, srv, []⟩
  else if conn.pingFails then ⟨some .ping, true, true, srv, []⟩
  else
    match createMigrationsTable conn srv with
    | none => ⟨some .createTable, true, true, srv, []⟩
    | some db =>
      if direction = "up" then
        match (migrateUp env db).err with
        | some e =>
          ⟨some (.migrateUp e), true, true,
            ⟨(migrateUp env db).db.schema, some (migrateUp env db).db.ledger⟩,
            (migrateUp env db).log⟩
        | none =>
          ⟨none, true, true,
            ⟨(migrateUp env db).db.schema, some (migrateUp env db).db.ledger⟩,
            (migrateUp env db).log⟩
      else if direction = "down" then
        match (migrateDown env db).err with
        | some e =>
          ⟨some (.migrateDown e), true, true,
            ⟨(migrateDown env db).db.schema, some (migrateDown env db).db.ledger⟩,
            (migrateDown env db).log⟩
        | none =>
          ⟨none, true, true,
            ⟨(migrateDown env db).db.schema, some (migrateDown env db).db.ledger⟩,
            (migrateDown env db).log⟩
      else ⟨some (.invalidDirection direction), true, true, ⟨db.schema, some db.ledger⟩, []⟩

/-! ## Reading a run -/

/-- Files whose version is not in the applied map: the pending ones. -/
def pending (applied : List String) (files : List String) : List String :=
  files.filter (fun f => getVersionFromFilename f ∉ applied)

/-- Files visited by a run, in the order of the log: each file that was skipped or
handed to `applyMigration` or `rollbackMigration`. -/
def visited : List LogEvent → List String
  | [] => []
  | .skipApplied f :: l => f :: visited l
  | .applying f :: l => f :: visited l
  | .skipNonApplied f :: l => f :: visited l
  | .rollingBack f :: l => f :: visited l
  | _ :: l => visited l

/-- Files handed to `applyMigration` or `rollbackMigration`, in the order of the log. -/
def attempted : List LogEvent → List String
  | [] => []
  | .applying f :: l => f :: attempted l
  | .rollingBack f :: l => f :: attempted l
  | _ :: l => attempted l

/-- Files reported as successfully applied, in the order of the log. -/
def appliedFiles : List LogEvent → List String
  | [] => []
  | .applied f :: l => f :: appliedFiles l
  | _ :: l => appliedFiles l

/-- Files reported as successfully rolled back, in the order of the log. -/
def rolledBackFiles : List LogEvent → List String
  | [] => []
  | .rolledBack f :: l => f :: rolledBackFiles l
  | _ :: l => rolledBackFiles l

/-- The log of an up run in which no apply fails. -/
def upLog (applied : List String) : List String → List LogEvent
  | [] => []
  | f :: rest =>
    if getVersionFromFilename f ∈ applied then .skipApplied f :: upLog applied rest
    else .applying f :: .applied f :: upLog applied rest

/-- The database after applying the given files in order, each in its own transaction. -/
def applyAll {S : Type} (env : Env S) : List String → DB S → DB S
  | [], db => db
  | f :: rest, db => applyAll env rest (applyMigration env db f (getVersionFromFilename f)).db

/-- The database after the scripts of the given files were executed in order, each once,
each in a transaction of its own on the state left by the one before, the version of the
file being recorded behind it; `none` when a file cannot be read or the server reports
an error for a script. -/
def execAll {S : Type} (env : Env S) : List String → DB S → Option (DB S)
  | [], db => some db
  | f :: rest, db =>
    match env.readFile f with
    | none => none
    | some content =>
      if (env.exec content (.active db db)).failed then none
      else
        execAll env rest
          ⟨(env.exec content (.active db db)).tx.view.schema,
            db.ledger ++ [getVersionFromFilename f]⟩

/-- The script `content` stays inside the transaction it is executed in: run on a
connection whose transaction is in progress, it leaves that transaction in progress and
the committed state as it is (it holds no `COMMIT` or `ROLLBACK` of its own). -/
def staysInTransaction {S : Type} (env : Env S) (content : String) : Prop :=
  ∀ base work : DB S, ∃ w : DB S, (env.exec content (.active base work)).tx = .active base w

/-- The script `content` is plain: it stays inside the transaction it is executed in and
leaves the rows of the ledger table as they are. -/
def plainScript {S : Type} (env : Env S) (content : String) : Prop :=
  ∀ base work : DB S, ∃ s : S,
    (env.exec content (.active base work)).tx = .active base ⟨s, work.ledger⟩

/-- The script of the file `f`, if the file can be read, stays inside its transaction. -/
def staysFile {S : Type} (env : Env S) (f : String) : Prop :=
  ∀ content, env.readFile f = some content → staysInTransaction env content

/-- The script of the file `f`, if the file can be read, is plain. -/
def plainFile {S : Type} (env : Env S) (f : String) : Prop :=
  ∀ content, env.readFile f = some content → plainScript env content

/-- The sorted up files of an environment. -/
def upFiles {S : Type} (env : Env S) : List String := (getMigrationFiles env ".up.sql").1

/-- The sorted down files of an environment, before the reversal in `migrateDown`. -/
def downFiles {S : Type} (env : Env S) : List String := (getMigrationFiles env ".down.sql").1

/-- The environment `env` with another result of reading the migrations directory. -/
def Env.withDir {S : Type} (env : Env S) (d : ReadDir) : Env S :=
  ⟨d, env.readFile, env.exec, env.queryFails, env.beginFails, env.insertFails,
    env.deleteFails, env.commitFails⟩

/-! ## Concrete environments used in the examples -/

/-- State of the examples apart from the ledger: the names of the tables that exist. -/
abbrev Tables := List String

/-- One statement of the example scripts on the state the connection sees: `+t` creates
table `t`, `-t` drops it if it exists, `CLEAR` deletes every row of the ledger table (`DELETE FROM
schema_migrations`); every other statement is answered with an error (`none`). -/
def tablesStmt (stmt : List Char) (d : DB Tables) : Option (DB Tables) :=
  match stmt with
  | '+' :: t => some ⟨d.schema ++ [String.mk t], d.ledger⟩
  | '-' :: t => some ⟨d.schema.erase (String.mk t), d.ledger⟩
  | _ => if stmt = "CLEAR".data then some ⟨d.schema, []⟩ else none

/-- The statements of an example script, executed in order on the connection `tx`.  The
statement `COMMIT` ends the transaction: what the connection sees becomes the committed
state.  At the first statement that is answered with an error the server stops and the
connection is `back`: the transaction as it was, to be undone by the rollback, or, behind
a `COMMIT`, the state committed there. -/
def tablesRun : List (List Char) → Tx Tables → Tx Tables → ExecResult Tables
  | [], _, tx => ⟨tx, false⟩
  | stmt :: rest, back, tx =>
    if stmt = "COMMIT".data then tablesRun rest (.ended tx.view) (.ended tx.view)
    else
      match tablesStmt stmt tx.view with
      | none => ⟨back, true⟩
      | some d => tablesRun rest back (tx.write d)

/-- Script semantics of the examples: the statements of a script are separated by `;`. -/
def tablesExec (content : String) (tx : Tx Tables) : ExecResult Tables :=
  tablesRun (splitOnChar ';' content.data) tx tx

/-- Whether no statement of the example script is `COMMIT` or `CLEAR`. -/
def simpleScript (content : String) : Bool :=
  (splitOnChar ';' content.data).all
    (fun stmt => decide (stmt ≠ "COMMIT".data) && decide (stmt ≠ "CLEAR".data))

/-- Example environment: a directory holding the given files (name, content), all
readable, with no failing driver call. -/
def dirEnv (files : List (String × String)) : Env Tables :=
  ⟨.entries (files.map fun p => ⟨p.1, false⟩), fun n => files.lookup n, tablesExec,
    false, fun _ => false, fun _ => false, fun _ => false, fun _ => false⟩

/-- Example database: no tables, empty ledger. -/
def emptyDB : DB Tables := ⟨[], []⟩

/-- Example directory of the spec: two versions, each with an up and a down file. -/
def pairEnv : Env Tables :=
  dirEnv [("001_create_users.up.sql", "+users"), ("001_create_users.down.sql", "-users"),
    ("002_add_index.up.sql", "+idx"), ("002_add_index.down.sql", "-idx")]

/-- Example directory in which two up files share the version token `001`. -/
def dupEnv : Env Tables :=
  dirEnv [("001_a.up.sql", "+a"), ("001_b.up.sql", "+b"), ("002_c.up.sql", "+c")]

/-- Example directory with the unpadded version tokens `1` and `10`. -/
def unpaddedEnv : Env Tables :=
  dirEnv [("1_a.up.sql", "+a"), ("10_b.up.sql", "+b")]

/-- Example directory with down files for the equal-width versions `001`, `002`, `003`. -/
def tripleDownEnv : Env Tables :=
  dirEnv [("001_a.down.sql", "-a"), ("002_b.down.sql", "-b"), ("003_c.down.sql", "-c")]

/-- Example database in which `001`, `002`, `003` are applied. -/
def tripleDB : DB Tables := ⟨["a", "b", "c"], ["001", "002", "003"]⟩

/-- Example directory with down files for the unpadded versions `1`, `10`, `100`. -/
def unpaddedDownEnv : Env Tables :=
  dirEnv [("1_a.down.sql", "-a"), ("10_b.down.sql", "-b"), ("100_c.down.sql", "-c")]

/-- Example database in which `1`, `10`, `100` are applied. -/
def unpaddedDB : DB Tables := ⟨["a", "b", "c"], ["1", "10", "100"]⟩

/-- Example directory whose second up file holds a script that fails. -/
def failEnv : Env Tables :=
  dirEnv [("001_a.up.sql", "+a"), ("002_b.up.sql", "FAIL"), ("003_c.up.sql", "+c")]

/-- Example directory whose only up file commits on its own and fails afterwards. -/
def commitEnv : Env Tables :=
  dirEnv [("001_x.up.sql", "+x;COMMIT;FAIL"), ("001_x.down.sql", "-x;COMMIT;FAIL")]

/-- Example directory whose up file `001_x` and down file `002_y` delete the rows of the
ledger table. -/
def clearEnv : Env Tables :=
  dirEnv [("001_x.up.sql", "+x;CLEAR"), ("002_y.down.sql", "-y;CLEAR")]

/-- Example directory in which the down file of `001` does not undo its up file. -/
def mismatchEnv : Env Tables :=
  dirEnv [("001_create_users.up.sql", "+users"), ("001_create_users.down.sql", "-other")]

/-- Example directory listing in which `migrations` holds a subdirectory and files of
both directions, listed in no particular order. -/
def mixedEntries : List DirEntry :=
  [⟨"010_c.up.sql", false⟩, ⟨"001_a.down.sql", false⟩, ⟨"old.up.sql", true⟩,
    ⟨"002_b.up.sql", false⟩, ⟨"README.md", false⟩, ⟨"001_a.up.sql", false⟩]

/-- Example directory with the equal-width versions `010`, `001`, `002`, listed in this
order. -/
def shuffledEnv : Env Tables :=
  dirEnv [("010_c.up.sql", "+c"), ("001_a.up.sql", "+a"), ("002_b.up.sql", "+b")]

/-- The entries of `shuffledEnv` in another listing order. -/
def otherListing : List DirEntry :=
  [⟨"002_b.up.sql", false⟩, ⟨"010_c.up.sql", false⟩, ⟨"001_a.up.sql", false⟩]

/-- Example: every call before the migration succeeds. -/
def okConn : ConnEnv := ⟨false, false, false⟩

/-- Example server: no tables at all, the ledger table does not exist yet. -/
def freshServer : Server Tables := ⟨[], none⟩

end Migrate

namespace Domain

/-! ## Errors of the shared domain package -/

/-- The error values of the package: `ErrInvalidEmail`, `ErrInvalidMoney`,
`ErrNegativeMoney`. -/
inductive DomainError where
  | ErrInvalidEmail
  | ErrInvalidMoney
  | ErrNegativeMoney
deriving DecidableEq

/-! ## Library functions used by `NewEmail` -/

/-- Model of `unicode.IsSpace`: the white space characters of Unicode. -/
def isSpace (c : Char) : Bool :=
  decide ((9 ≤ c.toNat ∧ c.toNat ≤ 13) ∨ c.toNat = 32 ∨ c.toNat = 133 ∨ c.toNat = 160 ∨
    c.toNat = 5760 ∨ (8192 ≤ c.toNat ∧ c.toNat ≤ 8202) ∨ c.toNat = 8232 ∨ c.toNat = 8233 ∨
    c.toNat = 8239 ∨ c.toNat = 8287 ∨ c.toNat = 12288)

/-- Model of `strings.TrimSpace` on character lists: leading and trailing white space is
removed. -/
def trimSpace (l : List Char) : List Char :=
  (l.dropWhile isSpace).rdropWhile isSpace

/-- Model of `unicode.ToLower` on one character.  On ASCII the letters `A` to `Z` are
mapped to `a` to `z`; outside ASCII the mapping is the lower-case table of the Unicode
library, which is not part of the repository and is taken as the parameter `u`. -/
def toLowerRune (u : Char → Char) (c : Char) : Char :=
  if c.toNat < 128 then c.toLower else u c

/-- Model of `strings.ToLower`. -/
def ToLower (u : Char → Char) (s : String) : String :=
  String.mk (s.data.map (toLowerRune u))

/-- Model of `strings.TrimSpace`. -/
def TrimSpace (s : String) : String :=
  String.mk (trimSpace s.data)

/-! ## The pattern of `emailRegex` -/

/-- A character range `lo-hi` of a character class. -/
def inRange (lo hi c : Char) : Bool :=
  decide (lo.toNat ≤ c.toNat ∧ c.toNat ≤ hi.toNat)

/-- The class `[a-zA-Z0-9._%+\-]`. -/
def isLocalChar (c : Char) : Bool :=
  inRange 'a' 'z' c || inRange 'A' 'Z' c || inRange '0' '9' c ||
    decide (c = '.') || decide (c = '_') || decide (c = '%') || decide (c = '+') ||
    decide (c = '-')

/-- The class `[a-zA-Z0-9.\-]`. -/
def isDomainChar (c : Char) : Bool :=
  inRange 'a' 'z' c || inRange 'A' 'Z' c || inRange '0' '9' c ||
    decide (c = '.') || decide (c = '-')

/-- The class `[a-zA-Z]`. -/
def isLetter (c : Char) : Bool :=
  inRange 'a' 'z' c || inRange 'A' 'Z' c

/-- One item of a pattern: a character class repeated `min` times, or `min` times or
more when `more` is set. -/
structure Atom where
  cls : Char → Bool
  min : Nat
  more : Bool

/-- Whether the text matches the items one after the other, from its first to its last
character (the pattern is anchored by `^` and `$`): the text is cut into consecutive
pieces, one for each item, and each piece consists of characters of the class of its
item and has an admissible length. -/
def matchAtoms : List Atom → List Char → Bool
  | [], s => s.isEmpty
  | a :: rest, s =>
    (List.range (s.length + 1)).any fun i =>
      decide (a.min ≤ i) && (a.more || decide (i = a.min)) && (s.take i).all a.cls &&
        matchAtoms rest (s.drop i)

/-- The pattern `^[a-zA-Z0-9._%+\-]+@[a-zA-Z0-9.\-]+\.[a-zA-Z]{2,}$`. -/
def emailRegex : List Atom :=
  [⟨isLocalChar, 1, true⟩, ⟨fun c => decide (c = '@'), 1, false⟩, ⟨isDomainChar, 1, true⟩,
    ⟨fun c => decide (c = '.'), 1, false⟩, ⟨isLetter, 2, true⟩]

/-- Model of `emailRegex.MatchString`. -/
def MatchString (pattern : List Atom) (s : String) : Bool :=
  matchAtoms pattern s.data

/-! ## Email -/

/-- An `Email` value object; `Email{}` has the empty value. -/
structure Email where
  value : String
deriving DecidableEq

/-- Model of `NewEmail`: the returned value and error (`none` is `nil`). -/
def NewEmail (u : Char → Char) (email : String) : Email × Option DomainError :=
  let normalized := TrimSpace (ToLower u email)
  if normalized = "" then (⟨""⟩, some .ErrInvalidEmail)
  else if !MatchString emailRegex normalized then (⟨""⟩, some .ErrInvalidEmail)
  else (⟨normalized⟩, none)

/-- Model of `Email.String`. -/
def Email.String (e : Email) : String := e.value

/-- Model of `Email.Equals`. -/
def Email.Equals (e other : Email) : Bool := decide (e.value = other.value)

/-- Model of `Email.IsEmpty`. -/
def Email.IsEmpty (e : Email) : Bool := decide (e.value = "")

/-! ## Machine numbers -/

/-- The values of Go's `int64`. -/
abbrev I64 : Type := { x : Int // -9223372036854775808 ≤ x ∧ x ≤ 9223372036854775807 }

/-- The `int64` value of an integer result: arithmetic wraps around modulo `2^64`. -/
def wrap64 (x : Int) : I64 :=
  ⟨(x + 9223372036854775808) % 18446744073709551616 - 9223372036854775808, by omega⟩

/-- Number of binary digits of `n`, counted with at most `fuel` halvings. -/
def bitLengthAux : Nat → Nat → Nat
  | 0, _ => 0
  | fuel + 1, n => if n = 0 then 0 else bitLengthAux fuel (n / 2) + 1

/-- Number of binary digits of a natural number. -/
def bitLength (n : Nat) : Nat := bitLengthAux n n

/-- A value of Go's `float64` (IEEE 754 binary64): not a number, an infinity, or the
finite number `(-1)^neg * m * 2^e`. -/
inductive F64 where
  | nan
  | inf (neg : Bool)
  | fin (neg : Bool) (m : Nat) (e : Int)
deriving DecidableEq

/-- The `float64` nearest to the exact value `(-1)^neg * m * 2^e`, ties to the even
significand: 53 significant bits, smallest exponent `-1074`, overflow to infinity. -/
def F64.round (neg : Bool) (m : Nat) (e : Int) : F64 :=
  if m = 0 then .fin neg 0 0
  else
    let ulp : Int := max (e + bitLength m - 53) (-1074)
    if ulp ≤ e then
      if 971 < ulp then .inf neg else .fin neg (m * 2 ^ (e - ulp).toNat) ulp
    else
      let sh : Nat := (ulp - e).toNat
      let q : Nat := m / 2 ^ sh
      let r : Nat := m % 2 ^ sh
      let up : Bool := decide (2 ^ sh < 2 * r) || (decide (2 * r = 2 ^ sh) && decide (q % 2 = 1))
      let q1 : Nat := if up then q + 1 else q
      if q1 = 2 ^ 53 then
        (if 971 < ulp + 1 then .inf neg else .fin neg (2 ^ 52) (ulp + 1))
      else if 971 < ulp then .inf neg else .fin neg q1 ulp

/-- Model of the `float64` product `x * y`. -/
def F64.mul : F64 → F64 → F64
  | .nan, _ => .nan
  | _, .nan => .nan
  | .inf s, .inf t => .inf (xor s t)
  | .inf s, .fin t m _ => if m = 0 then .nan else .inf (xor s t)
  | .fin s m _, .inf t => if m = 0 then .nan else .inf (xor s t)
  | .fin s m e, .fin t n f => F64.round (xor s t) (m * n) (e + f)

/-- Model of the comparison `x < 0` on `float64`. -/
def F64.ltZero : F64 → Bool
  | .nan => false
  | .inf neg => neg
  | .fin neg m _ => neg && decide (m ≠ 0)

/-- Model of the conversion `float64(x)` of an `int64`. -/
def F64.ofInt64 (x : I64) : F64 :=
  F64.round (decide (x.val < 0)) x.val.natAbs 0

/-- The integer obtained from a finite `float64` by discarding the fraction. -/
def F64.trunc : F64 → Option Int
  | .nan => none
  | .inf _ => none
  | .fin neg m e =>
    let mag : Nat := if 0 ≤ e then m * 2 ^ e.toNat else m / 2 ^ (-e).toNat
    some (if neg then -(mag : Int) else (mag : Int))

/-- Model of the conversion `int64(x)` of a `float64`: the fraction is discarded; when
the result is not an `int64` value (also for infinities and not-a-number) the result is
implementation-dependent and given by `impl`. -/
def F64.toInt64 (impl : F64 → Int) (x : F64) : I64 :=
  match x.trunc with
  | none => wrap64 (impl x)
  | some v =>
    if h : -9223372036854775808 ≤ v ∧ v ≤ 9223372036854775807 then ⟨v, h⟩
    else wrap64 (impl x)

/-- The `float64` constant `100`. -/
def F64.hundred : F64 := .fin false 100 0

/-! ## Money -/

/-- A `Money` value: the amount in cents; `Money{}` has zero cents. -/
structure Money where
  cents : I64
deriving DecidableEq

/-- Model of `NewMoney`. -/
def NewMoney (impl : F64 → Int) (dollars : F64) : Money × Option DomainError :=
  if dollars.ltZero then (⟨wrap64 0⟩, some .ErrNegativeMoney)
  else (⟨F64.toInt64 impl (dollars.mul F64.hundred)⟩, none)

/-- Model of `NewMoneyFromCents`. -/
def NewMoneyFromCents (cents : I64) : Money × Option DomainError :=
  if cents.val < 0 then (⟨wrap64 0⟩, some .ErrNegativeMoney)
  else (⟨cents⟩, none)

/-- Model of `Zero`. -/
def Zero : Money := ⟨wrap64 0⟩

/-- Model of `Money.Cents`. -/
def Money.Cents (m : Money) : Int := m.cents.val

/-- Model of `Money.Add`. -/
def Money.Add (m other : Money) : Money :=
  ⟨wrap64 (m.cents.val + other.cents.val)⟩

/-- Model of `Money.Subtract`. -/
def Money.Subtract (m other : Money) : Money × Option DomainError :=
  if (wrap64 (m.cents.val - other.cents.val)).val < 0 then (⟨wrap64 0⟩, some .ErrNegativeMoney)
  else (⟨wrap64 (m.cents.val - other.cents.val)⟩, none)

/-- Model of `Money.Multiply`. -/
def Money.Multiply (impl : F64 → Int) (m : Money) (factor : F64) : Money :=
  ⟨F64.toInt64 impl ((F64.ofInt64 m.cents).mul factor)⟩

/-- Model of `Money.IsZero`. -/
def Money.IsZero (m : Money) : Bool := decide (m.cents.val = 0)

/-- Model of `Money.IsGreaterThan`. -/
def Money.IsGreaterThan (m other : Money) : Bool := decide (other.cents.val < m.cents.val)

/-- Model of `Money.IsLessThan`. -/
def Money.IsLessThan (m other : Money) : Bool := decide (m.cents.val < other.cents.val)

/-- Model of `Money.Equals`. -/
def Money.Equals (m other : Money) : Bool := decide (m.cents.val = other.cents.val)

/-- Whether the `float64` with significand `m` and value `m / 2^k` is a `float64` nearest
to the decimal number `num / den`: the significand has 53 bits and the distance is at
most half a unit in the last place. -/
def nearestTo (m k num den : Nat) : Bool :=
  decide (2 ^ 52 ≤ m ∧ m < 2 ^ 53 ∧
    2 * ((m : Int) * den - (num : Int) * 2 ^ k).natAbs ≤ den)

end Domain

namespace UserManagement

open Domain

/-! ## Users (`internal/features/user-management`) -/

/-- Model of the shared `ID`: a UUID, taken as its 128-bit number; `uuid.Nil` is 0. -/
structure ID where
  value : Nat
deriving DecidableEq

/-- The functions of the UUID library used by the code, which are not part of the
repository: `UUID.String` and `uuid.Parse` (`none`: the parse fails). -/
structure UuidLib where
  str : Nat → String
  parse : String → Option Nat

/-- Model of `ID.String`. -/
def ID.String (lib : UuidLib) (id : ID) : String := lib.str id.value

/-- Model of `ParseID`: `none` stands for the error of `uuid.Parse`. -/
def ParseID (lib : UuidLib) (s : String) : Option ID :=
  match lib.parse s with
  | none => none
  | some parsed => some ⟨parsed⟩

/-- Model of `User`; the two times are instants on an abstract clock. -/
structure User where
  id : ID
  email : Email
  firstName : String
  lastName : String
  createdAt : Nat
  updatedAt : Nat
deriving DecidableEq

/-- Model of `NewUser`; `newID` is the result of `NewID()` and `now` the result of
`time.Now().UTC()`. -/
def NewUser (newID : ID) (now : Nat) (email : Email) (firstName lastName : String) : User :=
  ⟨newID, email, firstName, lastName, now, now⟩

/-- Model of `Reconstitute`. -/
def Reconstitute (id : ID) (email : Email) (firstName lastName : String)
    (createdAt updatedAt : Nat) : User :=
  ⟨id, email, firstName, lastName, createdAt, updatedAt⟩

/-- Model of `User.FullName`. -/
def User.FullName (u : User) : String := u.firstName ++ " " ++ u.lastName

/-- Model of `User.UpdateProfile`; `now` is the result of `time.Now().UTC()`. -/
def User.UpdateProfile (now : Nat) (u : User) (firstName lastName : String) : User :=
  ⟨u.id, u.email, firstName, lastName, u.createdAt, now⟩

/-- Model of `User.ChangeEmail`; `now` is the result of `time.Now().UTC()`. -/
def User.ChangeEmail (now : Nat) (u : User) (newEmail : Email) : User :=
  ⟨u.id, newEmail, u.firstName, u.lastName, u.createdAt, now⟩

/-! ## The application service -/

/-- The errors returned by the service: the package errors and the wrapped errors of
`fmt.Errorf`, with the error of the repository as a string. -/
inductive ServiceError where
  | ErrUserNotFound
  | ErrEmailAlreadyExists
  | ErrInvalidInput
  | invalidEmail (cause : DomainError)
  | checkEmailFailed (cause : String)
  | saveFailed (cause : String)
  | listFailed (cause : String)
deriving DecidableEq

/-- The answers of a `UserRepository` to the calls made by the service.  An error is
`none` for `nil`. -/
structure UserRepository where
  Save : User → Option String
  ExistsByEmail : String → Bool × Option String
  List : Int → Int → List User × Option String

/-- A call made to the repository, with its arguments. -/
inductive RepoCall where
  | Save (user : User)
  | ExistsByEmail (email : String)
  | List (offset limit : Int)
deriving DecidableEq

/-- Model of `CreateUserCommand`. -/
structure CreateUserCommand where
  Email : String
  FirstName : String
  LastName : String

/-- Model of `ListUsersQuery`. -/
structure ListUsersQuery where
  Offset : Int
  Limit : Int

/-- What a use case returned and did: the value (`none` for `nil`), the error (`none`
for `nil`) and the calls made to the repository, in order. -/
structure Outcome (α : Type) where
  value : Option α
  err : Option ServiceError
  calls : List RepoCall

/-- Model of `UserService.CreateUser`.  `u` is the lower-case table of Unicode used by
`NewEmail`, `newID` and `now` are what `NewID()` and `time.Now().UTC()` return inside
`NewUser`. -/
def CreateUser (u : Char → Char) (repo : UserRepository) (newID : ID) (now : Nat)
    (cmd : CreateUserCommand) : Outcome User :=
  match NewEmail u cmd.Email with
  | (_, some err) => ⟨none, some (.invalidEmail err), []⟩
  | (email, none) =>
    match repo.ExistsByEmail email.String with
    | (_, some err) => ⟨none, some (.checkEmailFailed err), [.ExistsByEmail email.String]⟩
    | (exists_, none) =>
      if exists_ then ⟨none, some .ErrEmailAlreadyExists, [.ExistsByEmail email.String]⟩
      else if cmd.FirstName = "" ∨ cmd.LastName = "" then
        ⟨none, some .ErrInvalidInput, [.ExistsByEmail email.String]⟩
      else
        match repo.Save (NewUser newID now email cmd.FirstName cmd.LastName) with
        | some err =>
          ⟨none, some (.saveFailed err),
            [.ExistsByEmail email.String,
              .Save (NewUser newID now email cmd.FirstName cmd.LastName)]⟩
        | none =>
          ⟨some (NewUser newID now email cmd.FirstName cmd.LastName), none,
            [.ExistsByEmail email.String,
              .Save (NewUser newID now email cmd.FirstName cmd.LastName)]⟩

/-- The limit `ListUsers` passes on: 10 for a limit that is not positive, at most 100. -/
def pageLimit (limit : Int) : Int :=
  let l1 := if limit ≤ 0 then 10 else limit
  if l1 > 100 then 100 else l1

/-- The offset `ListUsers` passes on: 0 for a negative offset. -/
def pageOffset (offset : Int) : Int :=
  if offset < 0 then 0 else offset

/-- Model of `UserService.ListUsers`. -/
def ListUsers (repo : UserRepository) (query : ListUsersQuery) : Outcome (List User) :=
  match repo.List (pageOffset query.Offset) (pageLimit query.Limit) with
  | (_, some err) =>
    ⟨none, some (.listFailed err), [.List (pageOffset query.Offset) (pageLimit query.Limit)]⟩
  | (users, none) =>
    ⟨some users, none, [.List (pageOffset query.Offset) (pageLimit query.Limit)]⟩

/-! ## The GORM repository -/

/-- Model of `UserModel`, the row of the table `users`. -/
structure UserModel where
  ID : Nat
  Email : String
  FirstName : String
  LastName : String
  CreatedAt : Nat
  UpdatedAt : Nat
deriving DecidableEq

/-- The error of `toDomain`: the one of `ParseID` or the one of `NewEmail`. -/
inductive ToDomainError where
  | parseID
  | email (cause : DomainError)
deriving DecidableEq

/-- Model of `toModel`; when `uuid.Parse` fails its error is dropped and the row gets
`uuid.Nil`. -/
def toModel (lib : UuidLib) (user : User) : UserModel :=
  ⟨(match lib.parse (user.id.String lib) with
      | some id => id
      | none => 0),
    user.email.String, user.firstName, user.lastName, user.createdAt, user.updatedAt⟩

/-- Model of `toDomain`. -/
def toDomain (u : Char → Char) (lib : UuidLib) (model : UserModel) :
    Option User × Option ToDomainError :=
  match ParseID lib (lib.str model.ID) with
  | none => (none, some .parseID)
  | some id =>
    match NewEmail u model.Email with
    | (_, some err) => (none, some (.email err))
    | (email, none) =>
      (some (Reconstitute id email model.FirstName model.LastName model.CreatedAt
        model.UpdatedAt), none)

/-- Example: a UUID library that writes the number in decimal and parses nothing else
than what it wrote for 0 to 9. -/
def toyUuid : UuidLib :=
  ⟨fun n => String.mk (Nat.toDigits 10 n),
    fun s => (List.range 10).find? (fun n => String.mk (Nat.toDigits 10 n) = s)⟩

/-- Example: a repository that holds `taken@example.com`, saves every user and lists
nothing. -/
def toyRepo : UserRepository :=
  ⟨fun _ => none, fun e => (decide (e = "taken@example.com"), none), fun _ _ => ([], none)⟩

end UserManagement

namespace Migrate

/-! ## The order on strings -/

theorem lexLe_refl : ∀ a : List Char, lexLe a a = true := by
  intro a
  induction a with
  | nil => rfl
  | cons x xs ih => simp [lexLe, ih]

theorem lexLe_total : ∀ a b : List Char, lexLe a b = true ∨ lexLe b a = true := by
  intro a
  induction a with
  | nil => intro b; left; rfl
  | cons x xs ih =>
    intro b
    cases b with
    | nil => right; rfl
    | cons y ys =>
      simp only [lexLe, Bool.or_eq_true, Bool.and_eq_true, decide_eq_true_eq]
      rcases lt_trichotomy x y with h | h | h
      · exact Or.inl (Or.inl h)
      · rcases ih ys with h1 | h1
        · exact Or.inl (Or.inr ⟨h, h1⟩)
        · exact Or.inr (Or.inr ⟨h.symm, h1⟩)
      · exact Or.inr (Or.inl h)

theorem lexLe_trans : ∀ a b c : List Char, lexLe a b = true → lexLe b c = true → lexLe a c = true := by
  intro a
  induction a with
  | nil => intro b c _ _; rfl
  | cons x xs ih =>
    intro b c hab hbc
    cases b with
    | nil => simp [lexLe] at hab
    | cons y ys =>
      cases c with
      | nil => simp [lexLe] at hbc
      | cons z zs =>
        simp only [lexLe, Bool.or_eq_true, Bool.and_eq_true, decide_eq_true_eq] at hab hbc ⊢
        rcases hab with h1 | ⟨h1, h2⟩
        · rcases hbc with h3 | ⟨h3, _⟩
          · exact Or.inl (lt_trans h1 h3)
          · exact Or.inl (h3 ▸ h1)
        · rcases hbc with h3 | ⟨h3, h4⟩
          · exact Or.inl (h1 ▸ h3)
          · exact Or.inr ⟨h1.trans h3, ih ys zs h2 h4⟩

theorem lexLe_antisymm : ∀ a b : List Char, lexLe a b = true → lexLe b a = true → a = b := by
  intro a
  induction a with
  | nil =>
    intro b _ hba
    cases b with
    | nil => rfl
    | cons y ys => simp [lexLe] at hba
  | cons x xs ih =>
    intro b hab hba
    cases b with
    | nil => simp [lexLe] at hab
    | cons y ys =>
      simp only [lexLe, Bool.or_eq_true, Bool.and_eq_true, decide_eq_true_eq] at hab hba
      rcases hab with h1 | ⟨h1, h2⟩
      · rcases hba with h3 | ⟨h3, _⟩
        · exact absurd h1 (lt_asymm h3)
        · exact absurd h1 (h3 ▸ lt_irrefl _)
      · rcases hba with h3 | ⟨_, h4⟩
        · exact absurd h3 (h1 ▸ lt_irrefl _)
        · rw [h1, ih ys h2 h4]

theorem lexLe_iff_not_lt : ∀ a b : List Char, lexLe a b = true ↔ ¬ List.lt b a := by
  intro a
  induction a with
  | nil =>
    intro b
    simp only [lexLe, true_iff]
    intro h
    cases h
  | cons x xs ih =>
    intro b
    cases b with
    | nil =>
      simp only [lexLe, Bool.false_eq_true, false_iff, not_not]
      exact List.lt.nil x xs
    | cons y ys =>
      simp only [lexLe, Bool.or_eq_true, Bool.and_eq_true, decide_eq_true_eq, ih ys]
      constructor
      · rintro (h | ⟨rfl, h⟩) hlt
        · cases hlt with
          | head _ _ h2 => exact lt_asymm h h2
          | tail _ h3 _ => exact h3 h
        · cases hlt with
          | head _ _ h2 => exact lt_irrefl _ h2
          | tail _ _ h4 => exact h h4
      · intro hn
        rcases lt_trichotomy x y with h | h | h
        · exact Or.inl h
        · refine Or.inr ⟨h, fun h4 => hn ?_⟩
          subst h
          exact List.lt.tail (lt_irrefl _) (lt_irrefl _) h4
        · exact absurd (List.lt.head ys xs h) hn

theorem strLe_iff (a b : String) : strLe a b = true ↔ ¬ b < a := by
  rw [String.lt_iff_toList_lt]
  have h := lexLe_iff_not_lt a.data b.data
  rw [List.lt_iff_lex_lt] at h
  exact h

/-- The order used for sorting is the lexicographic order of Lean strings. -/
theorem strLe_iff_le (a b : String) : strLe a b = true ↔ a ≤ b := by
  rw [strLe_iff, not_lt]

/-! ## Sorting and version tokens -/

theorem strLe_isTotal : IsTotal String StrLe :=
  ⟨fun a b => lexLe_total a.data b.data⟩

theorem strLe_isTrans : IsTrans String StrLe :=
  ⟨fun a b c h1 h2 => lexLe_trans a.data b.data c.data h1 h2⟩

theorem strLe_isAntisymm : IsAntisymm String StrLe :=
  ⟨fun a b h1 h2 => String.ext (lexLe_antisymm a.data b.data h1 h2)⟩

theorem strGe_isTotal : IsTotal String StrGe :=
  ⟨fun a b => lexLe_total b.data a.data⟩

theorem strGe_isTrans : IsTrans String StrGe :=
  ⟨fun a b c h1 h2 => lexLe_trans c.data b.data a.data h2 h1⟩

theorem sortStrings_sorted (l : List String) : (sortStrings l).Sorted StrLe :=
  @List.sorted_insertionSort String StrLe _ strLe_isTotal strLe_isTrans l

theorem sortStrings_perm (l : List String) : (sortStrings l).Perm l :=
  List.perm_insertionSort StrLe l

theorem sortReverse_sorted (l : List String) : (sortReverse l).Sorted StrGe :=
  @List.sorted_insertionSort String StrGe _ strGe_isTotal strGe_isTrans l

theorem sortReverse_perm (l : List String) : (sortReverse l).Perm l :=
  List.perm_insertionSort StrGe l

theorem splitOnChar_head (sep : Char) :
    ∀ l : List Char, ∃ ps, splitOnChar sep l = l.takeWhile (fun c => decide (c ≠ sep)) :: ps := by
  intro l
  induction l with
  | nil => exact ⟨[], rfl⟩
  | cons c cs ih =>
    obtain ⟨ps, hps⟩ := ih
    by_cases hc : c = sep
    · exact ⟨splitOnChar sep cs, by simp [splitOnChar, hc]⟩
    · exact ⟨ps, by simp [splitOnChar, hc, hps]⟩

theorem getVersionFromFilename_data (f : String) :
    (getVersionFromFilename f).data = tokenChars f.data := by
  obtain ⟨ps, hps⟩ := splitOnChar_head '_' f.data
  simp [getVersionFromFilename, hps, tokenChars]

/-- File name order carries over to the version tokens, except when the later file's token
is a proper initial segment of the earlier file's token. -/
theorem lexLe_tokenChars :
    ∀ a b : List Char, lexLe a b = true →
      lexLe (tokenChars a) (tokenChars b) = true ∨
        extendsList (tokenChars a) (tokenChars b) = true := by
  intro a
  induction a with
  | nil => intro b _; left; simp [tokenChars, lexLe]
  | cons x xs ih =>
    intro b hab
    cases b with
    | nil => simp [lexLe] at hab
    | cons y ys =>
      by_cases hx : x = '_'
      · left; simp [tokenChars, hx, lexLe]
      · by_cases hy : y = '_'
        · right; simp [tokenChars, hx, hy, extendsList]
        · simp only [lexLe, Bool.or_eq_true, Bool.and_eq_true, decide_eq_true_eq] at hab
          have e1 : tokenChars (x :: xs) = x :: tokenChars xs := by simp [tokenChars, hx]
          have e2 : tokenChars (y :: ys) = y :: tokenChars ys := by simp [tokenChars, hy]
          rw [e1, e2]
          rcases hab with h | ⟨h, h2⟩
          · left; simp [lexLe, h]
          · rcases ih ys h2 with h3 | h3
            · left; simp [lexLe, h, h3]
            · right; simp [extendsList, h, h3]

theorem strLe_version (a b : String) (h : StrLe a b) :
    strLe (getVersionFromFilename a) (getVersionFromFilename b) = true ∨
      strictlyExtends (getVersionFromFilename a) (getVersionFromFilename b) = true := by
  unfold strLe strictlyExtends
  rw [getVersionFromFilename_data, getVersionFromFilename_data]
  exact lexLe_tokenChars a.data b.data h

theorem extendsList_length : ∀ a b : List Char, extendsList a b = true → b.length < a.length := by
  intro a
  induction a with
  | nil => intro b h; simp [extendsList] at h
  | cons x xs ih =>
    intro b h
    cases b with
    | nil => simp
    | cons y ys =>
      simp only [extendsList, Bool.and_eq_true, decide_eq_true_eq] at h
      have := ih ys h.2
      simp only [List.length_cons]
      omega

section
variable {S : Type}

/-! ## One transaction -/

theorem Tx.view_write (tx : Tx S) (d : DB S) : (tx.write d).view = d := by
  cases tx <;> rfl

theorem plainScript_stays (env : Env S) (c : String) (h : plainScript env c) :
    staysInTransaction env c := fun base work =>
  (h base work).elim fun s hs => ⟨⟨s, work.ledger⟩, hs⟩

theorem plainFile_stays (env : Env S) (f : String) (h : plainFile env f) : staysFile env f :=
  fun c hc => plainScript_stays env c (h c hc)

theorem applyMigration_eq (env : Env S) (db : DB S) (f v : String) :
    applyMigration env db f v =
      match env.readFile f with
      | none => ⟨some .readFile, db⟩
      | some c =>
        if env.beginFails f then ⟨some .beginTx, db⟩
        else if (env.exec c (.active db db)).failed then
          ⟨some .execSQL, txRollback (env.exec c (.active db db)).tx⟩
        else if env.insertFails v then
          ⟨some .ledgerWrite, txRollback (env.exec c (.active db db)).tx⟩
        else if v ∈ (env.exec c (.active db db)).tx.view.ledger then
          ⟨some .ledgerWrite, txRollback (env.exec c (.active db db)).tx⟩
        else if env.commitFails f then
          ⟨some .commit, txRollback ((env.exec c (.active db db)).tx.write
            ⟨(env.exec c (.active db db)).tx.view.schema,
              (env.exec c (.active db db)).tx.view.ledger ++ [v]⟩)⟩
        else
          ⟨none, ⟨(env.exec c (.active db db)).tx.view.schema,
            (env.exec c (.active db db)).tx.view.ledger ++ [v]⟩⟩ := by
  unfold applyMigration dbBegin txExec txInsert txCommit
  cases env.readFile f with
  | none => rfl
  | some c =>
    cases env.beginFails f with
    | true => rfl
    | false =>
      simp only [Bool.false_eq_true, if_false]
      cases (env.exec c (.active db db)).failed with
      | true => rfl
      | false =>
        simp only [Bool.false_eq_true, if_false]
        cases env.insertFails v with
        | true => rfl
        | false =>
          simp only [Bool.false_eq_true, if_false]
          by_cases hv : v ∈ (env.exec c (.active db db)).tx.view.ledger
          · simp only [hv, if_true]
          · simp only [hv, if_false]
            cases env.commitFails f with
            | true => rfl
            | false => simp only [Bool.false_eq_true, if_false, Tx.view_write]

theorem rollbackMigration_eq (env : Env S) (db : DB S) (f v : String) :
    rollbackMigration env db f v =
      match env.readFile f with
      | none => ⟨some .readFile, db⟩
      | some c =>
        if env.beginFails f then ⟨some .beginTx, db⟩
        else if (env.exec c (.active db db)).failed then
          ⟨some .execSQL, txRollback (env.exec c (.active db db)).tx⟩
        else if env.deleteFails v then
          ⟨some .ledgerWrite, txRollback (env.exec c (.active db db)).tx⟩
        else if env.commitFails f then
          ⟨some .commit, txRollback ((env.exec c (.active db db)).tx.write
            ⟨(env.exec c (.active db db)).tx.view.schema,
              (env.exec c (.active db db)).tx.view.ledger.filter (fun w => w ≠ v)⟩)⟩
        else
          ⟨none, ⟨(env.exec c (.active db db)).tx.view.schema,
            (env.exec c (.active db db)).tx.view.ledger.filter (fun w => w ≠ v)⟩⟩ := by
  unfold rollbackMigration dbBegin txExec txDelete txCommit
  cases env.readFile f with
  | none => rfl
  | some c =>
    cases env.beginFails f with
    | true => rfl
    | false =>
      simp only [Bool.false_eq_true, if_false]
      cases (env.exec c (.active db db)).failed with
      | true => rfl
      | false =>
        simp only [Bool.false_eq_true, if_false]
        cases env.deleteFails v with
        | true => rfl
        | false =>
          simp only [Bool.false_eq_true, if_false]
          cases env.commitFails f with
          | true => rfl
          | false => simp only [Bool.false_eq_true, if_false, Tx.view_write]

/-- The call of `applyMigration` for a readable file whose script leaves the transaction
in progress, with the state `w` seen on the connection behind the script. -/
theorem applyMigration_of_stays (env : Env S) (db w : DB S) (f v c : String)
    (hr : env.readFile f = some c) (hw : (env.exec c (.active db db)).tx = .active db w) :
    applyMigration env db f v =
      if env.beginFails f then ⟨some .beginTx, db⟩
      else if (env.exec c (.active db db)).failed then ⟨some .execSQL, db⟩
      else if env.insertFails v then ⟨some .ledgerWrite, db⟩
      else if v ∈ w.ledger then ⟨some .ledgerWrite, db⟩
      else if env.commitFails f then ⟨some .commit, db⟩
      else ⟨none, ⟨w.schema, w.ledger ++ [v]⟩⟩ := by
  rw [applyMigration_eq, hr]
  simp only [hw, txRollback, Tx.view, Tx.write]

/-- The call of `rollbackMigration` for a readable file whose script leaves the
transaction in progress, with the state `w` seen on the connection behind the script. -/
theorem rollbackMigration_of_stays (env : Env S) (db w : DB S) (f v c : String)
    (hr : env.readFile f = some c) (hw : (env.exec c (.active db db)).tx = .active db w) :
    rollbackMigration env db f v =
      if env.beginFails f then ⟨some .beginTx, db⟩
      else if (env.exec c (.active db db)).failed then ⟨some .execSQL, db⟩
      else if env.deleteFails v then ⟨some .ledgerWrite, db⟩
      else if env.commitFails f then ⟨some .commit, db⟩
      else ⟨none, ⟨w.schema, w.ledger.filter (fun x => x ≠ v)⟩⟩ := by
  rw [rollbackMigration_eq, hr]
  simp only [hw, txRollback, Tx.view, Tx.write]

theorem applyMigration_err_kind (env : Env S) (db : DB S) (f v : String) (e : Err)
    (h : (applyMigration env db f v).err = some e) :
    e = .readFile ∨ e = .beginTx ∨ e = .execSQL ∨ e = .ledgerWrite ∨ e = .commit := by
  rw [applyMigration_eq] at h
  cases hr : env.readFile f with
  | none => simp [hr] at h; simp [← h]
  | some c =>
    simp only [hr] at h
    split_ifs at h <;> simp at h <;> simp [← h]

theorem rollbackMigration_err_kind (env : Env S) (db : DB S) (f v : String) (e : Err)
    (h : (rollbackMigration env db f v).err = some e) :
    e = .readFile ∨ e = .beginTx ∨ e = .execSQL ∨ e = .ledgerWrite ∨ e = .commit := by
  rw [rollbackMigration_eq] at h
  cases hr : env.readFile f with
  | none => simp [hr] at h; simp [← h]
  | some c =>
    simp only [hr] at h
    split_ifs at h <;> simp at h <;> simp [← h]

theorem applyMigration_unread (env : Env S) (db : DB S) (f v : String)
    (hr : env.readFile f = none) : applyMigration env db f v = ⟨some .readFile, db⟩ := by
  rw [applyMigration_eq, hr]

theorem rollbackMigration_unread (env : Env S) (db : DB S) (f v : String)
    (hr : env.readFile f = none) : rollbackMigration env db f v = ⟨some .readFile, db⟩ := by
  rw [rollbackMigration_eq, hr]

theorem applyMigration_err_db (env : Env S) (db : DB S) (f v : String)
    (hs : staysFile env f)
    (h : (applyMigration env db f v).err ≠ none) : (applyMigration env db f v).db = db := by
  cases hr : env.readFile f with
  | none => rw [applyMigration_unread env db f v hr]
  | some c =>
    obtain ⟨w, hw⟩ := hs c hr db db
    rw [applyMigration_of_stays env db w f v c hr hw] at h ⊢
    split_ifs at h ⊢ <;> first | rfl | exact absurd rfl h

theorem applyMigration_ok (env : Env S) (db : DB S) (f v : String) (hp : plainFile env f)
    (h : (applyMigration env db f v).err = none) :
    ∃ content s, env.readFile f = some content ∧
      env.exec content (.active db db) = ⟨.active db ⟨s, db.ledger⟩, false⟩ ∧
      v ∉ db.ledger ∧ (applyMigration env db f v).db = ⟨s, db.ledger ++ [v]⟩ := by
  cases hr : env.readFile f with
  | none => rw [applyMigration_unread env db f v hr] at h; simp at h
  | some c =>
    obtain ⟨s, hw⟩ := hp c hr db db
    rw [applyMigration_of_stays env db _ f v c hr hw] at h ⊢
    split_ifs at h ⊢ with h1 h2 h3 h4 h5
    refine ⟨c, s, rfl, ?_, h4, rfl⟩
    cases hx : env.exec c (.active db db) with
    | mk t fl =>
      rw [hx] at hw h2
      simp only at hw h2
      rw [hw]
      simp only [Bool.not_eq_true] at h2
      rw [h2]

theorem applyMigration_recorded (env : Env S) (db : DB S) (f v : String)
    (hp : plainFile env f) (h : v ∈ db.ledger) : (applyMigration env db f v).err ≠ none := by
  intro h0
  obtain ⟨_, _, _, _, hv, _⟩ := applyMigration_ok env db f v hp h0
  exact hv h

theorem rollbackMigration_err_db (env : Env S) (db : DB S) (f v : String)
    (hs : staysFile env f)
    (h : (rollbackMigration env db f v).err ≠ none) :
    (rollbackMigration env db f v).db = db := by
  cases hr : env.readFile f with
  | none => rw [rollbackMigration_unread env db f v hr]
  | some c =>
    obtain ⟨w, hw⟩ := hs c hr db db
    rw [rollbackMigration_of_stays env db w f v c hr hw] at h ⊢
    split_ifs at h ⊢ <;> first | rfl | exact absurd rfl h

theorem rollbackMigration_ok (env : Env S) (db : DB S) (f v : String) (hp : plainFile env f)
    (h : (rollbackMigration env db f v).err = none) :
    ∃ content s, env.readFile f = some content ∧
      env.exec content (.active db db) = ⟨.active db ⟨s, db.ledger⟩, false⟩ ∧
      (rollbackMigration env db f v).db = ⟨s, db.ledger.filter (fun w => w ≠ v)⟩ := by
  cases hr : env.readFile f with
  | none => rw [rollbackMigration_unread env db f v hr] at h; simp at h
  | some c =>
    obtain ⟨s, hw⟩ := hp c hr db db
    rw [rollbackMigration_of_stays env db _ f v c hr hw] at h ⊢
    split_ifs at h ⊢ with h1 h2 h3 h4
    refine ⟨c, s, rfl, ?_, rfl⟩
    cases hx : env.exec c (.active db db) with
    | mk t fl =>
      rw [hx] at hw h2
      simp only at hw h2
      rw [hw]
      simp only [Bool.not_eq_true] at h2
      rw [h2]

/-! ## The example scripts -/

theorem tablesStmt_ledger (stmt : List Char) (d d2 : DB Tables)
    (hc : stmt ≠ "CLEAR".data) (h : tablesStmt stmt d = some d2) : d2.ledger = d.ledger := by
  unfold tablesStmt at h
  split at h
  · simp at h; rw [← h]
  · simp at h; rw [← h]
  · simp [hc] at h

theorem tablesRun_plain :
    ∀ (stmts : List (List Char)) (base w0 w : DB Tables),
      (∀ stmt ∈ stmts, stmt ≠ "COMMIT".data ∧ stmt ≠ "CLEAR".data) →
      w.ledger = w0.ledger →
      ∃ s, (tablesRun stmts (.active base w0) (.active base w)).tx =
        .active base ⟨s, w0.ledger⟩ := by
  intro stmts
  induction stmts with
  | nil =>
    intro base w0 w _ hl
    refine ⟨w.schema, ?_⟩
    simp only [tablesRun]
    rw [← hl]
  | cons stmt rest ih =>
    intro base w0 w hs hl
    have h1 := hs stmt (by simp)
    simp only [tablesRun, h1.1, if_false, Tx.view]
    cases hst : tablesStmt stmt w with
    | none => exact ⟨w0.schema, rfl⟩
    | some d =>
      simp only [Tx.write]
      exact ih base w0 d (fun x hx => hs x (by simp [hx]))
        ((tablesStmt_ledger stmt w d h1.2 hst).trans hl)

theorem lookup_mem (f c : String) :
    ∀ files : List (String × String), files.lookup f = some c → (f, c) ∈ files := by
  intro files
  induction files with
  | nil => intro h; simp at h
  | cons p rest ih =>
    intro h
    obtain ⟨a, b⟩ := p
    by_cases hab : f = a
    · subst hab
      simp [List.lookup] at h
      simp [h]
    · have hne : (f == a) = false := by simpa using hab
      simp only [List.lookup, hne] at h
      exact List.mem_cons_of_mem _ (ih h)

/-- A script of the examples without the statements `COMMIT` and `CLEAR` is plain. -/
theorem dirEnv_plain (files : List (String × String))
    (h : ∀ p ∈ files, simpleScript p.2 = true) (f : String) : plainFile (dirEnv files) f := by
  intro content hc base work
  have hmem : (f, content) ∈ files := lookup_mem f content files hc
  have hsimple := h _ hmem
  simp only [simpleScript, List.all_eq_true, Bool.and_eq_true, decide_eq_true_eq] at hsimple
  exact tablesRun_plain _ base work work hsimple rfl

/-! ## The loop of `migrateUp` -/

theorem upLoop_nil (env : Env S) (applied : List String) (db : DB S) :
    upLoop env applied [] db = ⟨none, db, []⟩ := rfl

theorem upLoop_skip (env : Env S) (applied : List String) (f : String) (rest : List String)
    (db : DB S) (h : getVersionFromFilename f ∈ applied) :
    upLoop env applied (f :: rest) db =
      ⟨(upLoop env applied rest db).err, (upLoop env applied rest db).db,
        .skipApplied f :: (upLoop env applied rest db).log⟩ := by
  simp [upLoop, h]

theorem upLoop_fail (env : Env S) (applied : List String) (f : String) (rest : List String)
    (db : DB S) (e : Err) (h : getVersionFromFilename f ∉ applied)
    (he : (applyMigration env db f (getVersionFromFilename f)).err = some e) :
    upLoop env applied (f :: rest) db =
      ⟨some (.applyFailed f e), (applyMigration env db f (getVersionFromFilename f)).db,
        [.applying f]⟩ := by
  simp [upLoop, h, he]

theorem upLoop_step (env : Env S) (applied : List String) (f : String) (rest : List String)
    (db : DB S) (h : getVersionFromFilename f ∉ applied)
    (he : (applyMigration env db f (getVersionFromFilename f)).err = none) :
    upLoop env applied (f :: rest) db =
      ⟨(upLoop env applied rest (applyMigration env db f (getVersionFromFilename f)).db).err,
        (upLoop env applied rest (applyMigration env db f (getVersionFromFilename f)).db).db,
        .applying f :: .applied f ::
          (upLoop env applied rest (applyMigration env db f (getVersionFromFilename f)).db).log⟩ := by
  simp [upLoop, h, he]

theorem pending_cons_skip (applied : List String) (f : String) (rest : List String)
    (h : getVersionFromFilename f ∈ applied) : pending applied (f :: rest) = pending applied rest := by
  simp [pending, h]

theorem pending_cons_keep (applied : List String) (f : String) (rest : List String)
    (h : getVersionFromFilename f ∉ applied) :
    pending applied (f :: rest) = f :: pending applied rest := by
  simp [pending, h]

theorem mem_pending (applied files : List String) (f : String) (h : f ∈ pending applied files) :
    f ∈ files := (List.mem_filter.1 h).1

/-- The log of a successful loop, whatever the scripts do. -/
theorem upLoop_success_log (env : Env S) (applied : List String) :
    ∀ (files : List String) (db : DB S), (upLoop env applied files db).err = none →
      (upLoop env applied files db).log = upLog applied files ∧
      (upLoop env applied files db).db = applyAll env (pending applied files) db := by
  intro files
  induction files with
  | nil => intro db _; simp [upLoop, upLog, pending, applyAll]
  | cons f rest ih =>
    intro db h
    by_cases hv : getVersionFromFilename f ∈ applied
    · rw [upLoop_skip env applied f rest db hv] at h ⊢
      rw [pending_cons_skip applied f rest hv]
      obtain ⟨h1, h2⟩ := ih db h
      exact ⟨by simp [upLog, hv, h1], h2⟩
    · cases he : (applyMigration env db f (getVersionFromFilename f)).err with
      | some e =>
        rw [upLoop_fail env applied f rest db e hv he] at h
        simp at h
      | none =>
        rw [upLoop_step env applied f rest db hv he] at h ⊢
        rw [pending_cons_keep applied f rest hv]
        obtain ⟨h1, h2⟩ := ih _ h
        exact ⟨by simp [upLog, hv, h1], by simp [applyAll, h2]⟩

/-- A successful loop over files whose pending scripts are plain: its log, its final
state, the scripts that made it, and its ledger. -/
theorem upLoop_success (env : Env S) (applied : List String) :
    ∀ (files : List String) (db : DB S),
      (∀ f ∈ pending applied files, plainFile env f) →
      (upLoop env applied files db).err = none →
      (upLoop env applied files db).log = upLog applied files ∧
      (upLoop env applied files db).db = applyAll env (pending applied files) db ∧
      (upLoop env applied files db).db.ledger =
        db.ledger ++ (pending applied files).map getVersionFromFilename ∧
      ((pending applied files).map getVersionFromFilename).Nodup ∧
      (∀ v ∈ (pending applied files).map getVersionFromFilename, v ∉ db.ledger) ∧
      execAll env (pending applied files) db = some (upLoop env applied files db).db := by
  intro files
  induction files with
  | nil => intro db _ _; simp [upLoop, upLog, pending, applyAll, execAll]
  | cons f rest ih =>
    intro db hp h
    by_cases hv : getVersionFromFilename f ∈ applied
    · rw [upLoop_skip env applied f rest db hv] at h ⊢
      rw [pending_cons_skip applied f rest hv] at hp ⊢
      obtain ⟨h1, h2, h3, h4, h5, h6⟩ := ih db hp h
      exact ⟨by simp [upLog, hv, h1], h2, h3, h4, h5, h6⟩
    · cases he : (applyMigration env db f (getVersionFromFilename f)).err with
      | some e =>
        rw [upLoop_fail env applied f rest db e hv he] at h
        simp at h
      | none =>
        rw [upLoop_step env applied f rest db hv he] at h ⊢
        rw [pending_cons_keep applied f rest hv] at hp ⊢
        obtain ⟨h1, h2, h3, h4, h5, h6⟩ := ih _ (fun g hg => hp g (List.mem_cons_of_mem _ hg)) h
        obtain ⟨c, s, hr, hx, hnot, hdb⟩ :=
          applyMigration_ok env db f _ (hp f (List.mem_cons_self _ _)) he
        rw [hdb] at h3 h5 h6
        refine ⟨by simp [upLog, hv, h1], by simp [applyAll, h2], ?_, ?_, ?_, ?_⟩
        · rw [hdb, h3]; simp
        · rw [List.map_cons, List.nodup_cons]
          refine ⟨fun hmem => ?_, h4⟩
          exact h5 _ hmem (by simp)
        · intro v hmem
          rw [List.map_cons, List.mem_cons] at hmem
          rcases hmem with rfl | hmem
          · exact hnot
          · intro hin
            exact h5 v hmem (by simp [hin])
        · simp only [execAll, hr, hx, Tx.view, Bool.false_eq_true, if_false]
          rw [hdb]
          exact h6

/-- A failed loop stops at a pending file whose apply fails, after the files before it went through. -/
theorem upLoop_failure (env : Env S) (applied : List String) :
    ∀ (files : List String) (db : DB S) (e0 : Err), (upLoop env applied files db).err = some e0 →
      ∃ pre F post e, files = pre ++ F :: post ∧ getVersionFromFilename F ∉ applied ∧
        (upLoop env applied pre db).err = none ∧
        (upLoop env applied files db).db =
          (applyMigration env (upLoop env applied pre db).db F (getVersionFromFilename F)).db ∧
        (applyMigration env (upLoop env applied pre db).db F (getVersionFromFilename F)).err = some e ∧
        e0 = .applyFailed F e ∧
        (upLoop env applied files db).log = (upLoop env applied pre db).log ++ [.applying F] := by
  intro files
  induction files with
  | nil => intro db e0 h; simp [upLoop] at h
  | cons f rest ih =>
    intro db e0 h
    by_cases hv : getVersionFromFilename f ∈ applied
    · rw [upLoop_skip env applied f rest db hv] at h ⊢
      obtain ⟨pre, F, post, e, h1, h2, h3, h4, h5, h6, h7⟩ := ih db e0 h
      refine ⟨f :: pre, F, post, e, by simp [h1], h2, ?_, ?_, ?_, h6, ?_⟩
      · rw [upLoop_skip env applied f pre db hv]; exact h3
      · rw [upLoop_skip env applied f pre db hv]; exact h4
      · rw [upLoop_skip env applied f pre db hv]; exact h5
      · rw [upLoop_skip env applied f pre db hv]; simp [h7]
    · cases he : (applyMigration env db f (getVersionFromFilename f)).err with
      | some e =>
        rw [upLoop_fail env applied f rest db e hv he] at h ⊢
        refine ⟨[], f, rest, e, rfl, hv, rfl, rfl, he, ?_, rfl⟩
        simpa using h.symm
      | none =>
        rw [upLoop_step env applied f rest db hv he] at h ⊢
        obtain ⟨pre, F, post, e, h1, h2, h3, h4, h5, h6, h7⟩ := ih _ e0 h
        refine ⟨f :: pre, F, post, e, by simp [h1], h2, ?_, ?_, ?_, h6, ?_⟩
        · rw [upLoop_step env applied f pre db hv he]; exact h3
        · rw [upLoop_step env applied f pre db hv he]; exact h4
        · rw [upLoop_step env applied f pre db hv he]; exact h5
        · rw [upLoop_step env applied f pre db hv he]; simp [h7]

/-- Files whose versions are all recorded are skipped, and the loop goes on behind them. -/
theorem upLoop_skip_all (env : Env S) (applied : List String) (rest : List String) (db : DB S) :
    ∀ pre : List String, (∀ f ∈ pre, getVersionFromFilename f ∈ applied) →
      upLoop env applied (pre ++ rest) db =
        ⟨(upLoop env applied rest db).err, (upLoop env applied rest db).db,
          pre.map LogEvent.skipApplied ++ (upLoop env applied rest db).log⟩ := by
  intro pre
  induction pre with
  | nil => intro _; rfl
  | cons f pre ih =>
    intro h
    have hf := h f (by simp)
    have ih2 := ih (fun g hg => h g (by simp [hg]))
    rw [List.cons_append, upLoop_skip env applied f (pre ++ rest) db hf, ih2]
    simp

/-- The three ways a call of `migrateUp` can go, whatever the database state is. -/
theorem migrateUp_cases (env : Env S) :
    (upFiles env = [] ∧ ∀ db : DB S, migrateUp env db = ⟨none, db, [.noFiles]⟩) ∨
    (∃ e, ∀ db : DB S, migrateUp env db = ⟨some e, db, []⟩) ∨
    (upFiles env ≠ [] ∧ ∀ db : DB S, migrateUp env db = upLoop env db.ledger (upFiles env) db) := by
  unfold upFiles migrateUp getAppliedMigrations
  cases hg : getMigrationFiles env ".up.sql" with
  | mk files err =>
    cases err with
    | some e => exact Or.inr (Or.inl ⟨e, fun db => rfl⟩)
    | none =>
      cases files with
      | nil => exact Or.inl ⟨rfl, fun db => rfl⟩
      | cons f rest =>
        cases hq : env.queryFails with
        | true => exact Or.inr (Or.inl ⟨.query, fun db => by simp⟩)
        | false => exact Or.inr (Or.inr ⟨by simp, fun db => by simp⟩)

/-- After a successful loop over plain scripts every file is recorded, so a second loop
skips them all. -/
theorem upLoop_again_success (env : Env S) (files : List String) (db : DB S)
    (hp : ∀ f ∈ files, plainFile env f)
    (h : (upLoop env db.ledger files db).err = none) :
    upLoop env (upLoop env db.ledger files db).db.ledger files (upLoop env db.ledger files db).db =
      ⟨none, (upLoop env db.ledger files db).db, files.map LogEvent.skipApplied⟩ := by
  obtain ⟨_, _, h3, _, _⟩ := upLoop_success env db.ledger files db
    (fun f hf => hp f (mem_pending _ _ f hf)) h
  have hall : ∀ f ∈ files,
      getVersionFromFilename f ∈ (upLoop env db.ledger files db).db.ledger := by
    intro f hf
    rw [h3]
    by_cases hv : getVersionFromFilename f ∈ db.ledger
    · exact List.mem_append_left _ hv
    · refine List.mem_append_right _ (List.mem_map.2 ⟨f, ?_, rfl⟩)
      simp [pending, hf, hv]
  have := upLoop_skip_all env (upLoop env db.ledger files db).db.ledger []
    (upLoop env db.ledger files db).db files hall
  simpa [upLoop] using this

/-- After a failed loop over plain scripts with distinct versions, a second loop skips the
files before the failing one and fails on it in the same way. -/
theorem upLoop_again_failure (env : Env S) (files : List String) (db : DB S) (e0 : Err)
    (hp : ∀ f ∈ files, plainFile env f)
    (h : (upLoop env db.ledger files db).err = some e0)
    (hnd : (files.map getVersionFromFilename).Nodup) :
    ∃ pre F post e, files = pre ++ F :: post ∧ e0 = .applyFailed F e ∧
      upLoop env (upLoop env db.ledger files db).db.ledger files
          (upLoop env db.ledger files db).db =
        ⟨some e0, (upLoop env db.ledger files db).db,
          pre.map LogEvent.skipApplied ++ [.applying F]⟩ := by
  obtain ⟨pre, F, post, e, h1, h2, h3, h4, h5, h6, _⟩ := upLoop_failure env db.ledger files db e0 h
  refine ⟨pre, F, post, e, h1, h6, ?_⟩
  have hFp : plainFile env F := hp F (by rw [h1]; simp)
  have hFdb := applyMigration_err_db env (upLoop env db.ledger pre db).db F
    (getVersionFromFilename F) (plainFile_stays env F hFp) (by simp [h5])
  rw [hFdb] at h4
  obtain ⟨_, _, hl, _, _⟩ := upLoop_success env db.ledger pre db
    (fun f hf => hp f (by rw [h1]; exact List.mem_append_left _ (mem_pending _ _ f hf))) h3
  rw [h4]
  have hall : ∀ f ∈ pre, getVersionFromFilename f ∈ (upLoop env db.ledger pre db).db.ledger := by
    intro f hf
    rw [hl]
    by_cases hv : getVersionFromFilename f ∈ db.ledger
    · exact List.mem_append_left _ hv
    · refine List.mem_append_right _ (List.mem_map.2 ⟨f, ?_, rfl⟩)
      simp [pending, hf, hv]
  have hF : getVersionFromFilename F ∉ (upLoop env db.ledger pre db).db.ledger := by
    rw [hl, List.mem_append]
    rintro (hin | hin)
    · exact h2 hin
    · rw [h1, List.map_append, List.map_cons] at hnd
      have hnd2 := (List.nodup_append.1 hnd).2.2
      obtain ⟨g, hg, hgv⟩ := List.mem_map.1 hin
      have hgpre : g ∈ pre := (List.mem_filter.1 hg).1
      exact hnd2 (List.mem_map.2 ⟨g, hgpre, hgv⟩) (by simp)
  rw [h1]
  rw [upLoop_skip_all env _ (F :: post) _ pre hall, upLoop_fail env _ F post _ e hF h5, h6, hFdb]

/-! ## C1: running `migrateUp` twice -/

/-- C1, as stated, fails: with the up files `001_a`, `001_b` (same version token) and
`002_c` on an empty ledger the first run commits `001_a` and fails on `001_b` (its
ledger insert hits the primary key), and the second run skips both and applies `002_c`,
so it changes schema and ledger. -/
theorem migrateUp_twice_counterexample :
    (migrateUp dupEnv emptyDB).err = some (.applyFailed "001_b.up.sql" .ledgerWrite) ∧
    (migrateUp dupEnv emptyDB).db = ⟨["a"], ["001"]⟩ ∧
    (migrateUp dupEnv (migrateUp dupEnv emptyDB).db).db = ⟨["a", "c"], ["001", "002"]⟩ ∧
    (migrateUp dupEnv (migrateUp dupEnv emptyDB).db).db ≠ (migrateUp dupEnv emptyDB).db := by
  decide

/-- C1 (amended): when every up script is plain (it stays inside its transaction and
leaves the rows of the ledger table alone), and the first run of `migrateUp` succeeded or
the version tokens of the up files are pairwise distinct, a second run in the same
environment leaves schema and ledger exactly as the first run left them and returns what
the first run returned; when the first run succeeded the second run skips every file and
calls `applyMigration` for none. -/
theorem migrateUp_twice (env : Env S) (db : DB S)
    (hplain : ∀ f ∈ upFiles env, plainFile env f)
    (h : (migrateUp env db).err = none ∨ ((upFiles env).map getVersionFromFilename).Nodup) :
    (migrateUp env (migrateUp env db).db).db = (migrateUp env db).db ∧
    (migrateUp env (migrateUp env db).db).err = (migrateUp env db).err ∧
    ((migrateUp env db).err = none →
      (migrateUp env (migrateUp env db).db).log =
          (if upFiles env = [] then [LogEvent.noFiles]
            else (upFiles env).map LogEvent.skipApplied) ∧
        attempted (migrateUp env (migrateUp env db).db).log = []) := by
  have hatt : ∀ l : List String, attempted (l.map LogEvent.skipApplied) = [] := by
    intro l
    induction l with
    | nil => rfl
    | cons a l ih => simpa [attempted] using ih
  rcases migrateUp_cases env with ⟨h0, h1⟩ | ⟨e, h1⟩ | ⟨h0, h1⟩
  · simp [h1, h0, attempted]
  · simp [h1]
  · rw [h1 db] at h ⊢
    rw [h1]
    cases he : (upLoop env db.ledger (upFiles env) db).err with
    | none =>
      rw [upLoop_again_success env (upFiles env) db hplain he]
      simp [h0, hatt]
    | some e0 =>
      rcases h with h | h
      · rw [he] at h; simp at h
      · obtain ⟨pre, F, post, e, _, _, h4⟩ :=
          upLoop_again_failure env (upFiles env) db e0 hplain he h
        rw [h4]
        simp

/-- Witness for C1 (amended): the two-version directory of the spec on an empty ledger. -/
theorem migrateUp_twice_witness :
    (migrateUp pairEnv emptyDB).err = none ∧
    (migrateUp pairEnv emptyDB).db = ⟨["users", "idx"], ["001", "002"]⟩ ∧
    (migrateUp pairEnv (migrateUp pairEnv emptyDB).db).db = (migrateUp pairEnv emptyDB).db ∧
    (migrateUp pairEnv (migrateUp pairEnv emptyDB).db).log =
      [.skipApplied "001_create_users.up.sql", .skipApplied "002_add_index.up.sql"] :=
  ⟨by decide, by decide,
    (migrateUp_twice pairEnv emptyDB (fun f _ => dirEnv_plain _ (by decide) f)
      (Or.inl (by decide))).1,
    ((migrateUp_twice pairEnv emptyDB (fun f _ => dirEnv_plain _ (by decide) f)
      (Or.inl (by decide))).2.2 (by decide)).1.trans (by decide)⟩

/-! ## C2: a failing `applyMigration` -/

/-- C2, as stated, fails: the script `+x;COMMIT;FAIL` creates a table, commits on its own
and then fails.  `applyMigration` returns the error of the script, the deferred rollback
finds no transaction to undo, and the table stays: the database is not the one from
before the call. -/
theorem applyMigration_commit_counterexample :
    commitEnv.readFile "001_x.up.sql" = some "+x;COMMIT;FAIL" ∧
    (applyMigration commitEnv emptyDB "001_x.up.sql" "001").err = some .execSQL ∧
    (applyMigration commitEnv emptyDB "001_x.up.sql" "001").db = ⟨["x"], []⟩ ∧
    (applyMigration commitEnv emptyDB "001_x.up.sql" "001").db ≠ emptyDB := by
  decide

/-- C2 (amended): an error returned by `applyMigration` is one of: unreadable file, failed
begin, failed script, failed ledger insert, failed commit.  When the file cannot be read
or the transaction cannot begin, the database is untouched.  In the other cases the
database state afterwards (schema and ledger) equals the state before the call provided
the script stays inside its transaction (it does not commit or roll back on its own).  A
version that is already recorded makes the call fail when the script is plain. -/
theorem applyMigration_atomic (env : Env S) (db : DB S) (filename version : String) :
    (∀ e, (applyMigration env db filename version).err = some e →
      (e = .readFile ∨ e = .beginTx ∨ e = .execSQL ∨ e = .ledgerWrite ∨ e = .commit) ∧
      (e = .readFile ∨ e = .beginTx → (applyMigration env db filename version).db = db) ∧
      (staysFile env filename → (applyMigration env db filename version).db = db)) ∧
    (plainFile env filename → version ∈ db.ledger →
      (applyMigration env db filename version).err ≠ none) := by
  refine ⟨fun e he => ⟨applyMigration_err_kind env db filename version e he, ?_,
    fun hs => applyMigration_err_db env db filename version hs (by simp [he])⟩,
    applyMigration_recorded env db filename version⟩
  intro hk
  rw [applyMigration_eq] at he ⊢
  cases hr : env.readFile filename with
  | none => rfl
  | some c =>
    simp only [hr] at he ⊢
    split_ifs at he ⊢ <;> first | rfl | (simp at he; rcases hk with hk | hk <;> simp [← he] at hk)

/-- Witness for C2 (amended): applying `001_b` when `001` is already recorded runs the
script inside the transaction, fails on the ledger insert, and leaves the database as it
was. -/
theorem applyMigration_atomic_witness :
    (applyMigration dupEnv ⟨["a"], ["001"]⟩ "001_b.up.sql" "001").err = some .ledgerWrite ∧
    staysFile dupEnv "001_b.up.sql" ∧
    (applyMigration dupEnv ⟨["a"], ["001"]⟩ "001_b.up.sql" "001").db = ⟨["a"], ["001"]⟩ :=
  ⟨by decide, plainFile_stays _ _ (dirEnv_plain _ (by decide) _),
    ((applyMigration_atomic dupEnv ⟨["a"], ["001"]⟩ "001_b.up.sql" "001").1 .ledgerWrite
      (by decide)).2.2 (plainFile_stays _ _ (dirEnv_plain _ (by decide) _))⟩

/-! ## The files of a run and the order of the visit -/

theorem upFiles_sorted (env : Env S) : (upFiles env).Sorted StrLe := by
  unfold upFiles getMigrationFiles
  cases env.dir with
  | entries es => exact sortStrings_sorted _
  | notExist => exact List.sorted_nil
  | failure => exact List.sorted_nil

theorem visited_upLoop (env : Env S) (applied : List String) :
    ∀ (files : List String) (db : DB S),
      ∃ t, visited (upLoop env applied files db).log ++ t = files := by
  intro files
  induction files with
  | nil => intro db; exact ⟨[], rfl⟩
  | cons f rest ih =>
    intro db
    by_cases hv : getVersionFromFilename f ∈ applied
    · obtain ⟨t, ht⟩ := ih db
      exact ⟨t, by rw [upLoop_skip env applied f rest db hv]; simp [visited, ht]⟩
    · cases he : (applyMigration env db f (getVersionFromFilename f)).err with
      | some e =>
        exact ⟨rest, by rw [upLoop_fail env applied f rest db e hv he]; simp [visited]⟩
      | none =>
        obtain ⟨t, ht⟩ := ih (applyMigration env db f (getVersionFromFilename f)).db
        exact ⟨t, by rw [upLoop_step env applied f rest db hv he]; simp [visited, ht]⟩

theorem visited_migrateUp (env : Env S) (db : DB S) :
    ∃ t, visited (migrateUp env db).log ++ t = upFiles env := by
  rcases migrateUp_cases env with ⟨h0, h1⟩ | ⟨e, h1⟩ | ⟨_, h1⟩
  · exact ⟨[], by simp [h1, h0, visited]⟩
  · exact ⟨upFiles env, by simp [h1, visited]⟩
  · rw [h1]; exact visited_upLoop env db.ledger (upFiles env) db

theorem visited_migrateUp_sorted (env : Env S) (db : DB S) :
    (visited (migrateUp env db).log).Sorted StrLe := by
  obtain ⟨t, ht⟩ := visited_migrateUp env db
  have h := upFiles_sorted env
  rw [← ht] at h
  exact (List.pairwise_append.1 h).1

/-! ## C3: the order in which `migrateUp` visits the files -/

/-- C3, as stated, fails: with the up files `1_a` and `10_b` the run visits `10_b` before
`1_a` (the byte `0` sorts before `_`), although the version `10` is greater than `1`. -/
theorem migrateUp_version_order_counterexample :
    visited (migrateUp unpaddedEnv emptyDB).log = ["10_b.up.sql", "1_a.up.sql"] ∧
    getVersionFromFilename "10_b.up.sql" = "10" ∧
    getVersionFromFilename "1_a.up.sql" = "1" ∧
    strLe "10" "1" = false := by
  decide

/-- C3 (amended): `migrateUp` visits the files in ascending byte-wise order of their file
names; whenever file A is applied or skipped before file B in one run, version(A) <=
version(B) as strings unless version(B) is a proper initial segment of version(A). -/
theorem migrateUp_visit_order (env : Env S) (db : DB S) :
    (visited (migrateUp env db).log).Pairwise (fun A B =>
      strLe A B = true ∧
      (strLe (getVersionFromFilename A) (getVersionFromFilename B) = true ∨
        strictlyExtends (getVersionFromFilename A) (getVersionFromFilename B) = true)) :=
  (visited_migrateUp_sorted env db).imp (fun {a b} h => ⟨h, strLe_version a b h⟩)

/-! ## The loop of `migrateDown` -/

theorem downLoop_skip (env : Env S) (applied : List String) (f : String) (rest : List String)
    (db : DB S) (h : getVersionFromFilename f ∉ applied) :
    downLoop env applied (f :: rest) db =
      ⟨(downLoop env applied rest db).err, (downLoop env applied rest db).db,
        .skipNonApplied f :: (downLoop env applied rest db).log⟩ := by
  simp [downLoop, h]

theorem downLoop_hit (env : Env S) (applied : List String) (f : String) (rest : List String)
    (db : DB S) (h : getVersionFromFilename f ∈ applied) :
    downLoop env applied (f :: rest) db =
      match (rollbackMigration env db f (getVersionFromFilename f)).err with
      | some e =>
        ⟨some (.rollbackFailed f e), (rollbackMigration env db f (getVersionFromFilename f)).db,
          [.rollingBack f]⟩
      | none =>
        ⟨none, (rollbackMigration env db f (getVersionFromFilename f)).db,
          [.rollingBack f, .rolledBack f]⟩ := by
  cases he : (rollbackMigration env db f (getVersionFromFilename f)).err with
  | some e => simp [downLoop, h, he]
  | none => simp [downLoop, h, he]

/-- When no file has an applied version the loop skips them all and changes nothing. -/
theorem downLoop_none (env : Env S) (applied : List String) (db : DB S) :
    ∀ files : List String, (∀ f ∈ files, getVersionFromFilename f ∉ applied) →
      downLoop env applied files db = ⟨none, db, files.map LogEvent.skipNonApplied⟩ := by
  intro files
  induction files with
  | nil => intro _; rfl
  | cons f rest ih =>
    intro h
    rw [downLoop_skip env applied f rest db (h f (by simp)),
      ih (fun g hg => h g (by simp [hg]))]
    simp

/-- The loop skips the files before the first one whose version is applied and hands
that one to `rollbackMigration`; the files behind it are not looked at. -/
theorem downLoop_first (env : Env S) (applied : List String) (F : String) (post : List String)
    (db : DB S) (hF : getVersionFromFilename F ∈ applied) :
    ∀ pre : List String, (∀ f ∈ pre, getVersionFromFilename f ∉ applied) →
      downLoop env applied (pre ++ F :: post) db =
        match (rollbackMigration env db F (getVersionFromFilename F)).err with
        | some e =>
          ⟨some (.rollbackFailed F e),
            (rollbackMigration env db F (getVersionFromFilename F)).db,
            pre.map LogEvent.skipNonApplied ++ [.rollingBack F]⟩
        | none =>
          ⟨none, (rollbackMigration env db F (getVersionFromFilename F)).db,
            pre.map LogEvent.skipNonApplied ++ [.rollingBack F, .rolledBack F]⟩ := by
  intro pre
  induction pre with
  | nil => intro _; simpa using downLoop_hit env applied F post db hF
  | cons f pre ih =>
    intro h
    rw [List.cons_append, downLoop_skip env applied f (pre ++ F :: post) db (h f (by simp)),
      ih (fun g hg => h g (by simp [hg]))]
    cases (rollbackMigration env db F (getVersionFromFilename F)).err <;> simp

/-- A list with a file of applied version splits at the first such file. -/
theorem split_first_applied (applied : List String) :
    ∀ files : List String, (∃ f ∈ files, getVersionFromFilename f ∈ applied) →
      ∃ pre F post, files = pre ++ F :: post ∧ getVersionFromFilename F ∈ applied ∧
        ∀ f ∈ pre, getVersionFromFilename f ∉ applied := by
  intro files
  induction files with
  | nil => rintro ⟨f, hf, _⟩; simp at hf
  | cons g rest ih =>
    rintro ⟨f, hf, hfv⟩
    by_cases hg : getVersionFromFilename g ∈ applied
    · exact ⟨[], g, rest, rfl, hg, by simp⟩
    · have hfr : f ∈ rest := by
        rcases List.mem_cons.1 hf with rfl | h
        · exact absurd hfv hg
        · exact h
      obtain ⟨pre, F, post, h1, h2, h3⟩ := ih ⟨f, hfr, hfv⟩
      refine ⟨g :: pre, F, post, by simp [h1], h2, ?_⟩
      intro x hx
      rcases List.mem_cons.1 hx with rfl | hx
      · exact hg
      · exact h3 x hx

/-- The three ways a call of `migrateDown` can go, whatever the database state is. -/
theorem migrateDown_cases (env : Env S) :
    (downFiles env = [] ∧ ∀ db : DB S, migrateDown env db = ⟨none, db, [.noFiles]⟩) ∨
    (∃ e, ∀ db : DB S, migrateDown env db = ⟨some e, db, []⟩) ∨
    (downFiles env ≠ [] ∧
      ∀ db : DB S, migrateDown env db =
        downLoop env db.ledger (sortReverse (downFiles env)) db) := by
  unfold downFiles migrateDown getAppliedMigrations
  cases hg : getMigrationFiles env ".down.sql" with
  | mk files err =>
    cases err with
    | some e => exact Or.inr (Or.inl ⟨e, fun db => rfl⟩)
    | none =>
      cases files with
      | nil => exact Or.inl ⟨rfl, fun db => rfl⟩
      | cons f rest =>
        cases hq : env.queryFails with
        | true => exact Or.inr (Or.inl ⟨.query, fun db => by simp⟩)
        | false => exact Or.inr (Or.inr ⟨by simp, fun db => by simp⟩)

/-- A successful `migrateDown` with an applied down file: the file it rolls back. -/
theorem migrateDown_shape (env : Env S) (db : DB S)
    (happ : ∃ f ∈ downFiles env, getVersionFromFilename f ∈ db.ledger)
    (hok : (migrateDown env db).err = none) :
    ∃ pre F post, sortReverse (downFiles env) = pre ++ F :: post ∧
      getVersionFromFilename F ∈ db.ledger ∧
      (∀ f ∈ pre, getVersionFromFilename f ∉ db.ledger) ∧
      (rollbackMigration env db F (getVersionFromFilename F)).err = none ∧
      migrateDown env db =
        ⟨none, (rollbackMigration env db F (getVersionFromFilename F)).db,
          pre.map LogEvent.skipNonApplied ++ [.rollingBack F, .rolledBack F]⟩ := by
  obtain ⟨f, hf, hfv⟩ := happ
  rcases migrateDown_cases env with ⟨h0, _⟩ | ⟨e, h1⟩ | ⟨_, h1⟩
  · rw [h0] at hf; simp at hf
  · rw [h1] at hok; simp at hok
  · have hf2 : f ∈ sortReverse (downFiles env) := (sortReverse_perm _).mem_iff.2 hf
    obtain ⟨pre, F, post, h2, h3, h4⟩ :=
      split_first_applied db.ledger (sortReverse (downFiles env)) ⟨f, hf2, hfv⟩
    have hd := h1 db
    rw [h2, downLoop_first env db.ledger F post db h3 pre h4] at hd
    cases he : (rollbackMigration env db F (getVersionFromFilename F)).err with
    | some e => rw [he] at hd; rw [hd] at hok; simp at hok
    | none => rw [he] at hd; exact ⟨pre, F, post, h2, h3, h4, he, hd⟩

theorem migrateDown_greatest (env : Env S) (db : DB S) (pre post : List String) (F : String)
    (hs : sortReverse (downFiles env) = pre ++ F :: post)
    (hpre : ∀ f ∈ pre, getVersionFromFilename f ∉ db.ledger) :
    ∀ G ∈ downFiles env, getVersionFromFilename G ∈ db.ledger →
      strLe G F = true ∧
      (strLe (getVersionFromFilename G) (getVersionFromFilename F) = true ∨
        strictlyExtends (getVersionFromFilename G) (getVersionFromFilename F) = true) := by
  intro G hG hGv
  have hG2 : G ∈ pre ++ F :: post := hs ▸ (sortReverse_perm _).mem_iff.2 hG
  have hsorted : (pre ++ F :: post).Sorted StrGe := hs ▸ sortReverse_sorted _
  have hle : strLe G F = true := by
    rcases List.mem_append.1 hG2 with h | h
    · exact absurd hGv (hpre G h)
    · rcases List.mem_cons.1 h with rfl | h
      · exact lexLe_refl _
      · exact List.rel_of_sorted_cons (List.pairwise_append.1 hsorted).2.1 G h
  exact ⟨hle, strLe_version G F hle⟩

/-- With equal-width applied versions and plain down scripts, a successful `migrateDown`
removes the greatest version that has a down file. -/
theorem migrateDown_removes_max (env : Env S) (db : DB S) (vm : String)
    (hp : ∀ f ∈ downFiles env, plainFile env f)
    (hok : (migrateDown env db).err = none) (hmem : vm ∈ db.ledger)
    (hfile : ∃ f ∈ downFiles env, getVersionFromFilename f = vm)
    (hall : ∀ v ∈ db.ledger, strLe v vm = true ∧ v.length = vm.length) :
    (migrateDown env db).db.ledger = db.ledger.filter (fun v => v ≠ vm) := by
  obtain ⟨fm, hfm, hfmv⟩ := hfile
  obtain ⟨pre, F, post, h1, h2, h3, h4, h5⟩ :=
    migrateDown_shape env db ⟨fm, hfm, hfmv ▸ hmem⟩ hok
  obtain ⟨_, hv⟩ := migrateDown_greatest env db pre post F h1 h3 fm hfm (hfmv ▸ hmem)
  rw [hfmv] at hv
  have hFm : getVersionFromFilename F = vm := by
    rcases hv with hv | hv
    · exact String.ext (lexLe_antisymm _ _ (hall _ h2).1 hv)
    · have := extendsList_length _ _ hv
      have hl := (hall _ h2).2
      simp only [String.length] at hl
      omega
  have hF : F ∈ downFiles env :=
    (sortReverse_perm _).mem_iff.1 (h1 ▸ List.mem_append_right _ (List.mem_cons_self _ _))
  obtain ⟨_, _, _, _, h6⟩ := rollbackMigration_ok env db F _ (hp F hF) h4
  rw [h5]
  simp only
  rw [h6, hFm]

/-! ## C4: `migrateDown` rolls back one migration -/

/-- C4, as stated, fails: with the versions `1`, `10`, `100` applied (ascending as strings)
and a down file for each, one `migrateDown` rolls back `1_a.down.sql`, the greatest file
name, and leaves `10` and `100` applied instead of `1` and `10`. -/
theorem migrateDown_highest_counterexample :
    strLe "1" "10" = true ∧ strLe "10" "100" = true ∧
    (migrateDown unpaddedDownEnv unpaddedDB).err = none ∧
    rolledBackFiles (migrateDown unpaddedDownEnv unpaddedDB).log = ["1_a.down.sql"] ∧
    (migrateDown unpaddedDownEnv unpaddedDB).db.ledger = ["10", "100"] := by
  decide

/-- C4 (amended): when at least one down file has an applied version, a successful
`migrateDown` rolls back exactly one migration: the file that is greatest in byte-wise
file-name order among the down files whose version is applied.  Its version is the
lexicographically greatest of those versions unless a greater one properly extends it.
The files skipped on the way have unapplied versions and cause no database mutation: the
database afterwards is the one left by the single call of `rollbackMigration`.  When the
script of that file is plain (it stays inside its transaction and leaves the rows of the
ledger table alone), the applied set afterwards is the previous one minus exactly that
version.  With plain down scripts and equal-width applied versions V1 < V2 < V3, each
having a down file, one successful invocation leaves exactly V1 and V2 applied and a
second leaves exactly V1. -/
theorem migrateDown_single_step (env : Env S) (db : DB S) :
    ((∃ f ∈ downFiles env, getVersionFromFilename f ∈ db.ledger) →
      (migrateDown env db).err = none →
      ∃ (skipped : List String) (F : String), F ∈ downFiles env ∧ getVersionFromFilename F ∈ db.ledger ∧
        (∀ f ∈ skipped, getVersionFromFilename f ∉ db.ledger) ∧
        (migrateDown env db).log =
          skipped.map LogEvent.skipNonApplied ++ [.rollingBack F, .rolledBack F] ∧
        (migrateDown env db).db = (rollbackMigration env db F (getVersionFromFilename F)).db ∧
        (plainFile env F →
          (migrateDown env db).db.ledger =
            db.ledger.filter (fun v => v ≠ getVersionFromFilename F)) ∧
        (∀ G ∈ downFiles env, getVersionFromFilename G ∈ db.ledger →
          strLe G F = true ∧
          (strLe (getVersionFromFilename G) (getVersionFromFilename F) = true ∨
            strictlyExtends (getVersionFromFilename G) (getVersionFromFilename F) = true))) ∧
    ((∀ f ∈ downFiles env, plainFile env f) →
      ∀ v1 v2 v3 : String,
      (∀ v, v ∈ db.ledger ↔ v = v1 ∨ v = v2 ∨ v = v3) →
      v1.length = v2.length → v2.length = v3.length →
      strLe v1 v2 = true → v1 ≠ v2 → strLe v2 v3 = true → v2 ≠ v3 →
      (∀ v, v ∈ db.ledger → ∃ f ∈ downFiles env, getVersionFromFilename f = v) →
      (migrateDown env db).err = none →
      (migrateDown env (migrateDown env db).db).err = none →
      (∀ v, v ∈ (migrateDown env db).db.ledger ↔ v = v1 ∨ v = v2) ∧
      (∀ v, v ∈ (migrateDown env (migrateDown env db).db).db.ledger ↔ v = v1)) := by
  constructor
  · intro happ hok
    obtain ⟨pre, F, post, h1, h2, h3, h4, h5⟩ := migrateDown_shape env db happ hok
    have hF : F ∈ downFiles env :=
      (sortReverse_perm _).mem_iff.1 (h1 ▸ List.mem_append_right _ (List.mem_cons_self _ _))
    refine ⟨pre, F, hF, h2, h3, by rw [h5], by rw [h5], ?_,
      migrateDown_greatest env db pre post F h1 h3⟩
    intro hpF
    obtain ⟨_, _, _, _, h6⟩ := rollbackMigration_ok env db F _ hpF h4
    rw [h5]
    simp only
    rw [h6]
  · intro hp v1 v2 v3 hl h12 h23 l12 n12 l23 n23 hfiles ok1 ok2
    have l13 : strLe v1 v3 = true := lexLe_trans _ _ _ l12 l23
    have n13 : v1 ≠ v3 := by
      rintro rfl
      exact n12 (String.ext (lexLe_antisymm _ _ l12 l23))
    have e1 : (migrateDown env db).db.ledger = db.ledger.filter (fun v => v ≠ v3) := by
      refine migrateDown_removes_max env db v3 hp ok1 ((hl v3).2 (by simp))
        (hfiles v3 ((hl v3).2 (by simp))) ?_
      intro v hv
      rcases (hl v).1 hv with rfl | rfl | rfl
      · exact ⟨l13, h12.trans h23⟩
      · exact ⟨l23, h23⟩
      · exact ⟨lexLe_refl _, rfl⟩
    have m1 : ∀ v, v ∈ (migrateDown env db).db.ledger ↔ v = v1 ∨ v = v2 := by
      intro v
      rw [e1, List.mem_filter, hl v]
      constructor
      · rintro ⟨h | h | h, hne⟩
        · exact Or.inl h
        · exact Or.inr h
        · simp [h] at hne
      · rintro (rfl | rfl)
        · exact ⟨Or.inl rfl, by simpa using n13⟩
        · exact ⟨Or.inr (Or.inl rfl), by simpa using n23⟩
    refine ⟨m1, ?_⟩
    have e2 : (migrateDown env (migrateDown env db).db).db.ledger =
        (migrateDown env db).db.ledger.filter (fun v => v ≠ v2) := by
      refine migrateDown_removes_max env _ v2 hp ok2 ((m1 v2).2 (by simp))
        (hfiles v2 ((hl v2).2 (by simp))) ?_
      intro v hv
      rcases (m1 v).1 hv with rfl | rfl
      · exact ⟨l12, h12⟩
      · exact ⟨lexLe_refl _, rfl⟩
    intro v
    rw [e2, List.mem_filter, m1 v]
    constructor
    · rintro ⟨h | h, hne⟩
      · exact h
      · simp [h] at hne
    · rintro rfl
      exact ⟨Or.inl rfl, by simpa using n12⟩

/-- Witness for C4 (amended): with `001`, `002`, `003` applied, one `migrateDown` rolls back
`003` and a second one rolls back `002`. -/
theorem migrateDown_single_step_witness :
    (migrateDown tripleDownEnv tripleDB).err = none ∧
    (migrateDown tripleDownEnv tripleDB).db = ⟨["a", "b"], ["001", "002"]⟩ ∧
    (migrateDown tripleDownEnv (migrateDown tripleDownEnv tripleDB).db).db =
      ⟨["a"], ["001"]⟩ ∧
    (∀ v, v ∈ (migrateDown tripleDownEnv tripleDB).db.ledger ↔ v = "001" ∨ v = "002") ∧
    (∀ v, v ∈ (migrateDown tripleDownEnv (migrateDown tripleDownEnv tripleDB).db).db.ledger ↔
      v = "001") ∧
    (∃ (skipped : List String) (F : String), F ∈ downFiles tripleDownEnv ∧
      (migrateDown tripleDownEnv tripleDB).log =
        skipped.map LogEvent.skipNonApplied ++ [.rollingBack F, .rolledBack F] ∧
      (migrateDown tripleDownEnv tripleDB).db.ledger =
        tripleDB.ledger.filter (fun v => v ≠ getVersionFromFilename F)) :=
  ⟨by decide, by decide, by decide,
    ((migrateDown_single_step tripleDownEnv tripleDB).2
      (fun f _ => dirEnv_plain _ (by decide) f) "001" "002" "003"
      (by intro v; simp [tripleDB]) (by decide) (by decide) (by decide) (by decide)
      (by decide) (by decide) (by decide) (by decide) (by decide)).1,
    ((migrateDown_single_step tripleDownEnv tripleDB).2
      (fun f _ => dirEnv_plain _ (by decide) f) "001" "002" "003"
      (by intro v; simp [tripleDB]) (by decide) (by decide) (by decide) (by decide)
      (by decide) (by decide) (by decide) (by decide) (by decide)).2,
    (fun ⟨sk, F, h1, _, _, h4, _, h6, _⟩ => ⟨sk, F, h1, h4, h6 (dirEnv_plain _ (by decide) F)⟩)
      ((migrateDown_single_step tripleDownEnv tripleDB).1 (by decide) (by decide))⟩

/-! ## C5: fail-fast and resumption -/

theorem getMigrationFiles_err (env : Env S) (suffix : String) (e : Err)
    (h : (getMigrationFiles env suffix).2 = some e) : (getMigrationFiles env suffix).1 = [] := by
  unfold getMigrationFiles at h ⊢
  cases hd : env.dir <;> simp [hd] at h ⊢

theorem migrateUp_eq_upLoop (env : Env S) (db : DB S) (h : upFiles env ≠ [])
    (hq : env.queryFails = false) :
    migrateUp env db = upLoop env db.ledger (upFiles env) db := by
  have herr := getMigrationFiles_err env ".up.sql"
  unfold upFiles at h ⊢
  unfold migrateUp getAppliedMigrations
  cases hg : getMigrationFiles env ".up.sql" with
  | mk files err =>
    rw [hg] at h herr
    cases err with
    | some e1 => exact absurd (herr e1 rfl) h
    | none =>
      cases files with
      | nil => exact absurd rfl h
      | cons f rest => simp [hq]

theorem upFiles_congr (env env2 : Env S) (h : env2.dir = env.dir) : upFiles env2 = upFiles env := by
  unfold upFiles getMigrationFiles
  rw [h]

/-- A loop over `pre ++ rest` whose part over `pre` succeeds goes on with `rest`. -/
theorem upLoop_append (env : Env S) (applied : List String) (rest : List String) :
    ∀ (pre : List String) (db : DB S), (upLoop env applied pre db).err = none →
      upLoop env applied (pre ++ rest) db =
        ⟨(upLoop env applied rest (upLoop env applied pre db).db).err,
          (upLoop env applied rest (upLoop env applied pre db).db).db,
          (upLoop env applied pre db).log ++
            (upLoop env applied rest (upLoop env applied pre db).db).log⟩ := by
  intro pre
  induction pre with
  | nil => intro db _; simp [upLoop]
  | cons f pre ih =>
    intro db h
    by_cases hv : getVersionFromFilename f ∈ applied
    · rw [upLoop_skip env applied f pre db hv] at h ⊢
      rw [List.cons_append, upLoop_skip env applied f (pre ++ rest) db hv, ih db h]
      simp
    · cases he : (applyMigration env db f (getVersionFromFilename f)).err with
      | some e =>
        rw [upLoop_fail env applied f pre db e hv he] at h
        simp at h
      | none =>
        rw [upLoop_step env applied f pre db hv he] at h ⊢
        rw [List.cons_append, upLoop_step env applied f (pre ++ rest) db hv he, ih _ h]
        simp

theorem upLoop_starts_applying (env : Env S) (applied : List String) (f : String)
    (rest : List String) (db : DB S) (h : getVersionFromFilename f ∉ applied) :
    ∃ l, (upLoop env applied (f :: rest) db).log = .applying f :: l := by
  cases he : (applyMigration env db f (getVersionFromFilename f)).err with
  | some e => exact ⟨[], by rw [upLoop_fail env applied f rest db e h he]⟩
  | none => exact ⟨_, by rw [upLoop_step env applied f rest db h he]⟩

theorem visited_upLog (applied : List String) :
    ∀ files : List String, visited (upLog applied files) = files := by
  intro files
  induction files with
  | nil => rfl
  | cons f rest ih =>
    by_cases hv : getVersionFromFilename f ∈ applied <;> simp [upLog, hv, visited, ih]

theorem visited_append (l1 l2 : List LogEvent) :
    visited (l1 ++ l2) = visited l1 ++ visited l2 := by
  induction l1 with
  | nil => rfl
  | cons ev l1 ih => cases ev <;> simp [visited, ih]

/-- C5, as stated, fails: with the up files `001_a`, `001_b`, `002_c` on an empty ledger
`applyMigration` fails on the pending file `001_b` (its version was committed by `001_a`
in the same run); the following run skips `001_b` instead of resuming at it. -/
theorem migrateUp_resume_counterexample :
    getVersionFromFilename "001_b.up.sql" ∉ emptyDB.ledger ∧
    (migrateUp dupEnv emptyDB).err = some (.applyFailed "001_b.up.sql" .ledgerWrite) ∧
    (migrateUp dupEnv (migrateUp dupEnv emptyDB).db).log =
      [.skipApplied "001_a.up.sql", .skipApplied "001_b.up.sql",
        .applying "002_c.up.sql", .applied "002_c.up.sql"] := by
  decide

/-- C5 (amended): if the files before F go through and `applyMigration` fails on the
pending file F, `migrateUp` returns that error at once and no file after F is visited.
When the scripts of the pending files before F are plain and the script of F stays inside
its transaction, the database is the one left by the scripts of the pending files before
F, whose versions are exactly what was added to the ledger, and F leaves no trace; a
following `migrateUp` over the same directory then skips the files before F and resumes at
F, provided the version of F is not also the version of a pending file before F. -/
theorem migrateUp_fail_fast (env env2 : Env S) (db : DB S) (pre post : List String)
    (F : String) (e : Err)
    (hfiles : upFiles env = pre ++ F :: post)
    (hq : env.queryFails = false)
    (hF : getVersionFromFilename F ∉ db.ledger)
    (hpre : (upLoop env db.ledger pre db).err = none)
    (hfail : (applyMigration env (upLoop env db.ledger pre db).db F
      (getVersionFromFilename F)).err = some e) :
    (migrateUp env db).err = some (.applyFailed F e) ∧
    (migrateUp env db).log = upLog db.ledger pre ++ [.applying F] ∧
    visited (migrateUp env db).log = pre ++ [F] ∧
    ((∀ f ∈ pending db.ledger pre, plainFile env f) → staysFile env F →
      (migrateUp env db).db = applyAll env (pending db.ledger pre) db ∧
      execAll env (pending db.ledger pre) db = some (migrateUp env db).db ∧
      (migrateUp env db).db.ledger =
        db.ledger ++ (pending db.ledger pre).map getVersionFromFilename ∧
      (env2.dir = env.dir → env2.queryFails = false →
        getVersionFromFilename F ∉ (pending db.ledger pre).map getVersionFromFilename →
        ∃ l, (migrateUp env2 (migrateUp env db).db).log =
          pre.map LogEvent.skipApplied ++ .applying F :: l)) := by
  have hne : upFiles env ≠ [] := by rw [hfiles]; simp
  obtain ⟨s1, _⟩ := upLoop_success_log env db.ledger pre db hpre
  have hrun : migrateUp env db =
      ⟨some (.applyFailed F e),
        (applyMigration env (upLoop env db.ledger pre db).db F (getVersionFromFilename F)).db,
        (upLoop env db.ledger pre db).log ++ [.applying F]⟩ := by
    rw [migrateUp_eq_upLoop env db hne hq, hfiles, upLoop_append env db.ledger _ pre db hpre,
      upLoop_fail env db.ledger F post _ e hF hfail]
  refine ⟨by rw [hrun], by rw [hrun, s1], ?_, ?_⟩
  · rw [hrun]
    simp only
    rw [s1, visited_append, visited_upLog]
    simp [visited]
  · intro hplain hstay
    obtain ⟨_, s2, s3, _, _, s6⟩ := upLoop_success env db.ledger pre db hplain hpre
    have hdb : (migrateUp env db).db = (upLoop env db.ledger pre db).db := by
      rw [hrun]
      exact applyMigration_err_db env _ F _ hstay (by simp [hfail])
    refine ⟨by rw [hdb, s2], by rw [hdb, s6], by rw [hdb, s3], ?_⟩
    intro hd hq2 hnew
    have hne2 : upFiles env2 ≠ [] := by rw [upFiles_congr env env2 hd]; exact hne
    rw [migrateUp_eq_upLoop env2 _ hne2 hq2, upFiles_congr env env2 hd, hfiles, hdb]
    have hall : ∀ f ∈ pre,
        getVersionFromFilename f ∈ (upLoop env db.ledger pre db).db.ledger := by
      intro f hf
      rw [s3]
      by_cases hv : getVersionFromFilename f ∈ db.ledger
      · exact List.mem_append_left _ hv
      · refine List.mem_append_right _ (List.mem_map.2 ⟨f, ?_, rfl⟩)
        simp [pending, hf, hv]
    have hF2 : getVersionFromFilename F ∉ (upLoop env db.ledger pre db).db.ledger := by
      rw [s3, List.mem_append]
      rintro (h | h)
      · exact hF h
      · exact hnew h
    obtain ⟨l, hl⟩ := upLoop_starts_applying env2 _ F post (upLoop env db.ledger pre db).db hF2
    rw [upLoop_skip_all env2 _ (F :: post) _ pre hall]
    exact ⟨l, by simp only; rw [hl]⟩

/-- Witness for C5 (amended): the script of `002_b` fails; `001_a` stays committed,
`003_c` is not visited, and the next run skips `001_a` and tries `002_b` again. -/
theorem migrateUp_fail_fast_witness :
    (migrateUp failEnv emptyDB).err = some (.applyFailed "002_b.up.sql" .execSQL) ∧
    (migrateUp failEnv emptyDB).db = ⟨["a"], ["001"]⟩ ∧
    visited (migrateUp failEnv emptyDB).log = ["001_a.up.sql"] ++ ["002_b.up.sql"] ∧
    execAll failEnv (pending emptyDB.ledger ["001_a.up.sql"]) emptyDB =
      some (migrateUp failEnv emptyDB).db ∧
    (∃ l, (migrateUp failEnv (migrateUp failEnv emptyDB).db).log =
      ["001_a.up.sql"].map LogEvent.skipApplied ++ .applying "002_b.up.sql" :: l) :=
  ⟨(migrateUp_fail_fast failEnv failEnv emptyDB ["001_a.up.sql"] ["003_c.up.sql"]
      "002_b.up.sql" .execSQL (by decide) (by decide) (by decide) (by decide) (by decide)).1,
    by decide,
    (migrateUp_fail_fast failEnv failEnv emptyDB ["001_a.up.sql"] ["003_c.up.sql"]
      "002_b.up.sql" .execSQL (by decide) (by decide) (by decide) (by decide)
      (by decide)).2.2.1,
    ((migrateUp_fail_fast failEnv failEnv emptyDB ["001_a.up.sql"] ["003_c.up.sql"]
      "002_b.up.sql" .execSQL (by decide) (by decide) (by decide) (by decide)
      (by decide)).2.2.2 (fun f _ => dirEnv_plain _ (by decide) f)
      (plainFile_stays _ _ (dirEnv_plain _ (by decide) _))).2.1,
    ((migrateUp_fail_fast failEnv failEnv emptyDB ["001_a.up.sql"] ["003_c.up.sql"]
      "002_b.up.sql" .execSQL (by decide) (by decide) (by decide) (by decide)
      (by decide)).2.2.2 (fun f _ => dirEnv_plain _ (by decide) f)
      (plainFile_stays _ _ (dirEnv_plain _ (by decide) _))).2.2.2 rfl (by decide) (by decide)⟩

/-! ## C6: what a successful `migrateUp` leaves behind -/

theorem appliedFiles_upLog (applied : List String) :
    ∀ files : List String, appliedFiles (upLog applied files) = pending applied files := by
  intro files
  induction files with
  | nil => rfl
  | cons f rest ih =>
    by_cases hv : getVersionFromFilename f ∈ applied <;>
      simp [upLog, hv, appliedFiles, pending] <;> simpa [pending] using ih

theorem attempted_upLog (applied : List String) :
    ∀ files : List String, attempted (upLog applied files) = pending applied files := by
  intro files
  induction files with
  | nil => rfl
  | cons f rest ih =>
    by_cases hv : getVersionFromFilename f ∈ applied <;>
      simp [upLog, hv, attempted, pending] <;> simpa [pending] using ih

/-- C6, as stated, fails: the up script `+x;CLEAR` of `001_x` creates a table and deletes
the rows of the ledger table.  On a ledger holding `000` the run succeeds and the applied
set afterwards is `001` alone: it is not the initial applied set united with the versions
of the up files. -/
theorem migrateUp_success_counterexample :
    clearEnv.readFile "001_x.up.sql" = some "+x;CLEAR" ∧
    upFiles clearEnv = ["001_x.up.sql"] ∧
    (migrateUp clearEnv ⟨[], ["000"]⟩).err = none ∧
    (migrateUp clearEnv ⟨[], ["000"]⟩).db = ⟨["x"], ["001"]⟩ ∧
    "000" ∉ (migrateUp clearEnv ⟨[], ["000"]⟩).db.ledger := by
  decide

/-- C6 (amended): if `migrateUp` returns success, the files handed to `applyMigration`
are exactly the up files whose version was not applied before, in order, each once, all
reported as applied, and no script ran for a version applied before.  When the scripts of
these files are plain (each stays inside its transaction and leaves the rows of the
ledger table alone), the applied set afterwards is the initial applied set united with
the version tokens of all up files, the versions of the files applied are pairwise
distinct (each previously unapplied version had its script executed exactly once), and
the database is what the server made of these scripts, executed once each in this order,
with the versions recorded behind the ledger. -/
theorem migrateUp_success (env : Env S) (db : DB S) (hok : (migrateUp env db).err = none) :
    appliedFiles (migrateUp env db).log = pending db.ledger (upFiles env) ∧
    attempted (migrateUp env db).log = pending db.ledger (upFiles env) ∧
    (∀ v, v ∈ db.ledger →
      ((attempted (migrateUp env db).log).map getVersionFromFilename).count v = 0) ∧
    (migrateUp env db).db = applyAll env (pending db.ledger (upFiles env)) db ∧
    ((∀ f ∈ pending db.ledger (upFiles env), plainFile env f) →
      (∀ v, v ∈ (migrateUp env db).db.ledger ↔
        v ∈ db.ledger ∨ v ∈ (upFiles env).map getVersionFromFilename) ∧
      (∀ v, v ∉ db.ledger → v ∈ (upFiles env).map getVersionFromFilename →
        ((attempted (migrateUp env db).log).map getVersionFromFilename).count v = 1) ∧
      execAll env (pending db.ledger (upFiles env)) db = some (migrateUp env db).db ∧
      (migrateUp env db).db.ledger =
        db.ledger ++ (pending db.ledger (upFiles env)).map getVersionFromFilename) := by
  have key : (migrateUp env db).log = upLog db.ledger (upFiles env) ∨
        ((migrateUp env db).log = [.noFiles] ∧ upFiles env = []) := by
    rcases migrateUp_cases env with ⟨h0, h1⟩ | ⟨e, h1⟩ | ⟨_, h1⟩
    · exact Or.inr ⟨by rw [h1], h0⟩
    · rw [h1] at hok; simp at hok
    · rw [h1] at hok ⊢
      exact Or.inl (upLoop_success_log env db.ledger (upFiles env) db hok).1
  have hall : (migrateUp env db).db = applyAll env (pending db.ledger (upFiles env)) db := by
    rcases migrateUp_cases env with ⟨h0, h1⟩ | ⟨e, h1⟩ | ⟨_, h1⟩
    · rw [h1, h0]; simp [pending, applyAll]
    · rw [h1] at hok; simp at hok
    · rw [h1] at hok ⊢
      exact (upLoop_success_log env db.ledger (upFiles env) db hok).2
  have hap : appliedFiles (migrateUp env db).log = pending db.ledger (upFiles env) := by
    rcases key with h | ⟨h, h0⟩
    · rw [h, appliedFiles_upLog]
    · rw [h, h0]; rfl
  have hat : attempted (migrateUp env db).log = pending db.ledger (upFiles env) := by
    rcases key with h | ⟨h, h0⟩
    · rw [h, attempted_upLog]
    · rw [h, h0]; rfl
  have hmem : ∀ v, v ∈ (pending db.ledger (upFiles env)).map getVersionFromFilename ↔
      v ∉ db.ledger ∧ v ∈ (upFiles env).map getVersionFromFilename := by
    intro v
    simp only [pending, List.mem_map, List.mem_filter, decide_eq_true_eq]
    constructor
    · rintro ⟨f, ⟨hf, hfv⟩, rfl⟩
      exact ⟨hfv, f, hf, rfl⟩
    · rintro ⟨hv, f, hf, rfl⟩
      exact ⟨f, ⟨hf, hv⟩, rfl⟩
  refine ⟨hap, hat, ?_, hall, ?_⟩
  · intro v hv
    rw [hat]
    exact List.count_eq_zero_of_not_mem (fun h => ((hmem v).1 h).1 hv)
  · intro hplain
    have facts : execAll env (pending db.ledger (upFiles env)) db = some (migrateUp env db).db ∧
        (migrateUp env db).db.ledger =
          db.ledger ++ (pending db.ledger (upFiles env)).map getVersionFromFilename ∧
        ((pending db.ledger (upFiles env)).map getVersionFromFilename).Nodup := by
      rcases migrateUp_cases env with ⟨h0, h1⟩ | ⟨e, h1⟩ | ⟨_, h1⟩
      · rw [h1, h0]; simp [pending, execAll]
      · rw [h1] at hok; simp at hok
      · rw [h1] at hok ⊢
        obtain ⟨_, _, h3, h4, _, h6⟩ := upLoop_success env db.ledger (upFiles env) db hplain hok
        exact ⟨h6, h3, h4⟩
    obtain ⟨f1, f2, f3⟩ := facts
    refine ⟨?_, ?_, f1, f2⟩
    · intro v
      rw [f2, List.mem_append, hmem]
      by_cases hv : v ∈ db.ledger <;> simp [hv]
    · intro v hv hin
      rw [hat]
      exact List.count_eq_one_of_mem f3 ((hmem v).2 ⟨hv, hin⟩)

/-- Witness for C6 (amended): the two up files of the spec on an empty ledger give the
tables `users` and `idx` and the applied set `001`, `002`. -/
theorem migrateUp_success_witness :
    (migrateUp pairEnv emptyDB).err = none ∧
    (migrateUp pairEnv emptyDB).db = ⟨["users", "idx"], ["001", "002"]⟩ ∧
    attempted (migrateUp pairEnv emptyDB).log =
      ["001_create_users.up.sql", "002_add_index.up.sql"] ∧
    (∀ v, v ∈ (migrateUp pairEnv emptyDB).db.ledger ↔
      v ∈ emptyDB.ledger ∨ v ∈ (upFiles pairEnv).map getVersionFromFilename) ∧
    execAll pairEnv ["001_create_users.up.sql", "002_add_index.up.sql"] emptyDB =
      some (migrateUp pairEnv emptyDB).db ∧
    pairEnv.exec "+users" (.active emptyDB emptyDB) =
      ⟨.active emptyDB ⟨["users"], []⟩, false⟩ ∧
    pairEnv.exec "+idx" (.active ⟨["users"], ["001"]⟩ ⟨["users"], ["001"]⟩) =
      ⟨.active ⟨["users"], ["001"]⟩ ⟨["users", "idx"], ["001"]⟩, false⟩ :=
  ⟨by decide, by decide,
    (migrateUp_success pairEnv emptyDB (by decide)).2.1.trans (by decide),
    ((migrateUp_success pairEnv emptyDB (by decide)).2.2.2.2
      (fun f _ => dirEnv_plain _ (by decide) f)).1,
    (((migrateUp_success pairEnv emptyDB (by decide)).2.2.2.2
      (fun f _ => dirEnv_plain _ (by decide) f)).2.2.1 : execAll pairEnv
        (pending emptyDB.ledger (upFiles pairEnv)) emptyDB = _),
    by decide, by decide⟩

/-! ## C7: `rollbackMigration` -/

/-- C7, as stated, fails.  The down script `-x;COMMIT;FAIL` drops a table, commits on its
own and then fails: `rollbackMigration` returns the error and the table is gone.  The
down script `-y;CLEAR` of `002_y` deletes the rows of the ledger table: the call succeeds
and the row of `001` is gone as well. -/
theorem rollbackMigration_atomic_counterexample :
    commitEnv.readFile "001_x.down.sql" = some "-x;COMMIT;FAIL" ∧
    (rollbackMigration commitEnv ⟨["x"], ["001"]⟩ "001_x.down.sql" "001").err =
      some .execSQL ∧
    (rollbackMigration commitEnv ⟨["x"], ["001"]⟩ "001_x.down.sql" "001").db =
      ⟨[], ["001"]⟩ ∧
    clearEnv.readFile "002_y.down.sql" = some "-y;CLEAR" ∧
    (rollbackMigration clearEnv ⟨["y"], ["001", "002"]⟩ "002_y.down.sql" "002").err = none ∧
    (rollbackMigration clearEnv ⟨["y"], ["001", "002"]⟩ "002_y.down.sql" "002").db =
      ⟨[], []⟩ := by
  decide

/-- C7 (amended): when `rollbackMigration` succeeds, the down script has been executed
without error, the schema is the one the script left and the ledger holds no row for the
version; when the script is plain (it stays inside its transaction and leaves the rows of
the ledger table alone) every other ledger row is unchanged.  An error is one of:
unreadable file, failed begin, failed script, failed ledger delete, failed commit.  When
the file cannot be read or the transaction cannot begin, the database is untouched; in
the other cases schema and ledger equal the state before the call provided the script
stays inside its transaction. -/
theorem rollbackMigration_atomic (env : Env S) (db : DB S) (filename version : String) :
    ((rollbackMigration env db filename version).err = none →
      ∃ content, env.readFile filename = some content ∧
        (env.exec content (.active db db)).failed = false ∧
        (rollbackMigration env db filename version).db.schema =
          (env.exec content (.active db db)).tx.view.schema ∧
        version ∉ (rollbackMigration env db filename version).db.ledger ∧
        (plainFile env filename →
          (rollbackMigration env db filename version).db.ledger =
            db.ledger.filter (fun w => w ≠ version) ∧
          (∀ w, w ≠ version →
            ((rollbackMigration env db filename version).db.ledger.count w =
              db.ledger.count w)))) ∧
    (∀ e, (rollbackMigration env db filename version).err = some e →
      (e = .readFile ∨ e = .beginTx ∨ e = .execSQL ∨ e = .ledgerWrite ∨ e = .commit) ∧
      (e = .readFile ∨ e = .beginTx → (rollbackMigration env db filename version).db = db) ∧
      (staysFile env filename → (rollbackMigration env db filename version).db = db)) := by
  constructor
  · intro h
    cases hr : env.readFile filename with
    | none => rw [rollbackMigration_unread env db filename version hr] at h; simp at h
    | some c =>
      refine ⟨c, rfl, ?_⟩
      have heq := rollbackMigration_eq env db filename version
      simp only [hr] at heq
      rw [heq] at h ⊢
      split_ifs at h ⊢ with h1 h2 h3 h4
      refine ⟨by simpa using h2, rfl, by simp, ?_⟩
      intro hp
      obtain ⟨s, hs⟩ := hp c hr db db
      rw [hs]
      refine ⟨rfl, ?_⟩
      intro w hw
      simp only [Tx.view]
      rw [List.count_filter]
      simpa using hw
  · intro e he
    refine ⟨rollbackMigration_err_kind env db filename version e he, ?_,
      fun hs => rollbackMigration_err_db env db filename version hs (by simp [he])⟩
    intro hk
    rw [rollbackMigration_eq] at he ⊢
    cases hr : env.readFile filename with
    | none => rfl
    | some c =>
      simp only [hr] at he ⊢
      split_ifs at he ⊢ <;>
        first | rfl | (simp at he; rcases hk with hk | hk <;> simp [← he] at hk)

/-- Witness for C7 (amended): rolling back `002` drops its table and its ledger row; a
down file that cannot be read leaves the database as it was. -/
theorem rollbackMigration_atomic_witness :
    (rollbackMigration pairEnv ⟨["users", "idx"], ["001", "002"]⟩
      "002_add_index.down.sql" "002").err = none ∧
    (rollbackMigration pairEnv ⟨["users", "idx"], ["001", "002"]⟩
      "002_add_index.down.sql" "002").db = ⟨["users"], ["001"]⟩ ∧
    "002" ∉ (rollbackMigration pairEnv ⟨["users", "idx"], ["001", "002"]⟩
      "002_add_index.down.sql" "002").db.ledger ∧
    (rollbackMigration pairEnv ⟨["users", "idx"], ["001", "002"]⟩
      "missing.down.sql" "002").db = ⟨["users", "idx"], ["001", "002"]⟩ :=
  ⟨by decide, by decide,
    (fun ⟨_, _, _, _, h, _⟩ => h)
      ((rollbackMigration_atomic pairEnv ⟨["users", "idx"], ["001", "002"]⟩
        "002_add_index.down.sql" "002").1 (by decide)),
    ((rollbackMigration_atomic pairEnv ⟨["users", "idx"], ["001", "002"]⟩
      "missing.down.sql" "002").2 .readFile (by decide)).2.1 (Or.inl rfl)⟩

/-! ## C8: apply, then roll back -/

/-- C8, as stated, fails: the down file of `001` drops another table than the one its up
file creates.  Both calls succeed, the ledger is as before, and the table `users` is still
there: the schema from before the apply is not restored. -/
theorem apply_then_rollback_counterexample :
    "001" ∉ emptyDB.ledger ∧
    mismatchEnv.readFile "001_create_users.up.sql" = some "+users" ∧
    mismatchEnv.readFile "001_create_users.down.sql" = some "-other" ∧
    (applyMigration mismatchEnv emptyDB "001_create_users.up.sql" "001").err = none ∧
    (rollbackMigration mismatchEnv
      (applyMigration mismatchEnv emptyDB "001_create_users.up.sql" "001").db
      "001_create_users.down.sql" "001").err = none ∧
    (rollbackMigration mismatchEnv
      (applyMigration mismatchEnv emptyDB "001_create_users.up.sql" "001").db
      "001_create_users.down.sql" "001").db = ⟨["users"], []⟩ ∧
    (rollbackMigration mismatchEnv
      (applyMigration mismatchEnv emptyDB "001_create_users.up.sql" "001").db
      "001_create_users.down.sql" "001").db.schema ≠ emptyDB.schema := by
  decide

/-- C8 (amended): for a version V that is not in the ledger and plain scripts (each stays
inside its transaction and leaves the rows of the ledger table alone), a successful
`applyMigration` of the up file of V followed by a successful `rollbackMigration` of its
down file leaves the ledger equal to the ledger before the apply (V absent, every other
row unchanged).  The schema afterwards is what the down script makes of what the up
script made of the schema before: the database is the one from before the apply exactly
when the down script undoes the up script there. -/
theorem apply_then_rollback (env : Env S) (db : DB S) (upFile downFile V : String)
    (hpu : plainFile env upFile) (hpd : plainFile env downFile)
    (hV : V ∉ db.ledger)
    (hup : (applyMigration env db upFile V).err = none)
    (hdown : (rollbackMigration env (applyMigration env db upFile V).db downFile V).err = none) :
    (rollbackMigration env (applyMigration env db upFile V).db downFile V).db.ledger =
      db.ledger ∧
    V ∉ (rollbackMigration env (applyMigration env db upFile V).db downFile V).db.ledger ∧
    (∃ up down s1 s2, env.readFile upFile = some up ∧ env.readFile downFile = some down ∧
      env.exec up (.active db db) = ⟨.active db ⟨s1, db.ledger⟩, false⟩ ∧
      env.exec down (.active ⟨s1, db.ledger ++ [V]⟩ ⟨s1, db.ledger ++ [V]⟩) =
        ⟨.active ⟨s1, db.ledger ++ [V]⟩ ⟨s2, db.ledger ++ [V]⟩, false⟩ ∧
      (rollbackMigration env (applyMigration env db upFile V).db downFile V).db =
        ⟨s2, db.ledger⟩ ∧
      ((rollbackMigration env (applyMigration env db upFile V).db downFile V).db = db ↔
        s2 = db.schema)) := by
  obtain ⟨up, s1, a1, a2, _, a4⟩ := applyMigration_ok env db upFile V hpu hup
  obtain ⟨down, s2, r1, r2, r3⟩ := rollbackMigration_ok env _ downFile V hpd hdown
  have hfilter : (db.ledger ++ [V]).filter (fun w => w ≠ V) = db.ledger := by
    rw [List.filter_append, List.filter_eq_self.2 (fun w hw => by
      have : w ≠ V := fun h => hV (h ▸ hw)
      simpa using this)]
    simp
  rw [a4] at r2 r3
  simp only at r2 r3
  rw [hfilter] at r3
  rw [a4, r3]
  refine ⟨rfl, hV, up, down, s1, s2, a1, r1, a2, r2, rfl, ?_⟩
  constructor
  · intro h
    exact congrArg DB.schema h
  · intro h
    rw [h]

/-- Witness for C8 (amended): `001_create_users` applied to the empty database and rolled
back at once gives the empty database again. -/
theorem apply_then_rollback_witness :
    "001" ∉ emptyDB.ledger ∧
    (applyMigration pairEnv emptyDB "001_create_users.up.sql" "001").db =
      ⟨["users"], ["001"]⟩ ∧
    (rollbackMigration pairEnv (applyMigration pairEnv emptyDB "001_create_users.up.sql" "001").db
      "001_create_users.down.sql" "001").db.ledger = emptyDB.ledger ∧
    (rollbackMigration pairEnv (applyMigration pairEnv emptyDB "001_create_users.up.sql" "001").db
      "001_create_users.down.sql" "001").db = emptyDB :=
  ⟨by decide, by decide,
    (apply_then_rollback pairEnv emptyDB "001_create_users.up.sql" "001_create_users.down.sql"
      "001" (dirEnv_plain _ (by decide) _) (dirEnv_plain _ (by decide) _)
      (by decide) (by decide) (by decide)).1,
    by decide⟩

/-! ## C9: `getMigrationFiles` -/

theorem hasSuffix_iff (s suffix : String) :
    hasSuffix s suffix = true ↔ ∃ p : String, s = p ++ suffix := by
  unfold hasSuffix
  rw [List.isSuffixOf_iff_suffix]
  constructor
  · rintro ⟨t, ht⟩
    exact ⟨String.mk t, String.ext (by simpa using ht.symm)⟩
  · rintro ⟨p, rfl⟩
    exact ⟨p.data, by simp⟩

/-- C9: when the directory can be read, `getMigrationFiles(suffix)` returns no error and
the names of all entries that are files and end with `suffix`, as often as the listing
holds them (once each, entry names being distinct) and nothing else, sorted in ascending
lexicographic order; when the directory does not exist it returns the empty sequence and no
error; any other read failure is returned as an error. -/
theorem getMigrationFiles_spec (env : Env S) (suffix : String) :
    (∀ es, env.dir = .entries es →
      (getMigrationFiles env suffix).2 = none ∧
      (getMigrationFiles env suffix).1.Perm
        ((es.filter (fun e => !e.isDir && hasSuffix e.name suffix)).map DirEntry.name) ∧
      (∀ f, f ∈ (getMigrationFiles env suffix).1 ↔
        ∃ e ∈ es, e.isDir = false ∧ e.name = f ∧ ∃ p : String, f = p ++ suffix) ∧
      ((es.map DirEntry.name).Nodup → (getMigrationFiles env suffix).1.Nodup) ∧
      (getMigrationFiles env suffix).1.Pairwise (fun a b => strLe a b = true) ∧
      (getMigrationFiles env suffix).1.Pairwise (fun a b => a ≤ b)) ∧
    (env.dir = .notExist → getMigrationFiles env suffix = ([], none)) ∧
    (env.dir = .failure → (getMigrationFiles env suffix).2 = some .readDir) := by
  refine ⟨?_, ?_, ?_⟩
  · intro es hd
    have hg : getMigrationFiles env suffix =
        (sortStrings ((es.filter (fun e => !e.isDir && hasSuffix e.name suffix)).map
          DirEntry.name), none) := by
      unfold getMigrationFiles
      rw [hd]
    have hp := sortStrings_perm
      ((es.filter (fun e => !e.isDir && hasSuffix e.name suffix)).map DirEntry.name)
    rw [hg]
    refine ⟨rfl, hp, ?_, ?_, sortStrings_sorted _,
      (sortStrings_sorted _).imp (fun {a b} h => (strLe_iff_le a b).1 h)⟩
    · intro f
      rw [hp.mem_iff]
      simp only [List.mem_map, List.mem_filter, Bool.and_eq_true, Bool.not_eq_true',
        hasSuffix_iff]
      constructor
      · rintro ⟨e, ⟨he, hdir, p, hpfx⟩, rfl⟩
        exact ⟨e, he, hdir, rfl, p, hpfx⟩
      · rintro ⟨e, he, hdir, rfl, p, hpfx⟩
        exact ⟨e, ⟨he, hdir, p, hpfx⟩, rfl⟩
    · intro hnd
      refine hp.nodup_iff.2 ?_
      exact (List.filter_sublist es).map DirEntry.name |>.nodup hnd
  · intro hd
    unfold getMigrationFiles
    rw [hd]
  · intro hd
    unfold getMigrationFiles
    rw [hd]

/-- Witness for C9: a listing with a subdirectory, a file of the other direction and a file
without the suffix; the three up files come back sorted. -/
theorem getMigrationFiles_spec_witness :
    (getMigrationFiles (pairEnv.withDir (.entries mixedEntries)) ".up.sql").1 =
      ["001_a.up.sql", "002_b.up.sql", "010_c.up.sql"] ∧
    (getMigrationFiles (pairEnv.withDir (.entries mixedEntries)) ".up.sql").2 = none ∧
    (getMigrationFiles (pairEnv.withDir (.entries mixedEntries)) ".up.sql").1.Nodup ∧
    getMigrationFiles (pairEnv.withDir .notExist) ".up.sql" = ([], none) ∧
    (getMigrationFiles (pairEnv.withDir .failure) ".up.sql").2 = some .readDir :=
  ⟨by decide,
    ((getMigrationFiles_spec (pairEnv.withDir (.entries mixedEntries)) ".up.sql").1
      mixedEntries rfl).1,
    ((getMigrationFiles_spec (pairEnv.withDir (.entries mixedEntries)) ".up.sql").1
      mixedEntries rfl).2.2.2.1 (by decide),
    (getMigrationFiles_spec (pairEnv.withDir .notExist) ".up.sql").2.1 rfl,
    (getMigrationFiles_spec (pairEnv.withDir .failure) ".up.sql").2.2 rfl⟩

/-! ## C10: equal-width version tokens -/

theorem attempted_sublist_visited :
    ∀ l : List LogEvent, (attempted l).Sublist (visited l) := by
  intro l
  induction l with
  | nil => exact List.Sublist.slnil
  | cons ev l ih =>
    cases ev with
    | noFiles => simpa [attempted, visited] using ih
    | skipApplied f => simpa [attempted, visited] using ih.cons f
    | applying f => simpa [attempted, visited] using ih.cons₂ f
    | applied f => simpa [attempted, visited] using ih
    | skipNonApplied f => simpa [attempted, visited] using ih.cons f
    | rollingBack f => simpa [attempted, visited] using ih.cons₂ f
    | rolledBack f => simpa [attempted, visited] using ih

theorem getMigrationFiles_perm (env : Env S) (es es2 : List DirEntry) (suffix : String)
    (hd : env.dir = .entries es) (hperm : es.Perm es2) :
    getMigrationFiles (env.withDir (.entries es2)) suffix = getMigrationFiles env suffix := by
  unfold getMigrationFiles
  rw [hd]
  simp only [Env.withDir]
  have hp : (sortStrings ((es2.filter (fun e => !e.isDir && hasSuffix e.name suffix)).map
        DirEntry.name)).Perm
      (sortStrings ((es.filter (fun e => !e.isDir && hasSuffix e.name suffix)).map
        DirEntry.name)) :=
    (sortStrings_perm _).trans
      ((((hperm.symm.filter _).map DirEntry.name)).trans (sortStrings_perm _).symm)
  rw [@List.eq_of_perm_of_sorted String StrLe strLe_isAntisymm _ _ hp
    (sortStrings_sorted _) (sortStrings_sorted _)]

theorem upLoop_withDir (env : Env S) (d : ReadDir) (applied : List String) :
    ∀ (files : List String) (db : DB S),
      upLoop (env.withDir d) applied files db = upLoop env applied files db := by
  have happ : ∀ (db : DB S) (f v : String),
      applyMigration (env.withDir d) db f v = applyMigration env db f v := by
    intro db f v
    rw [applyMigration_eq, applyMigration_eq]
    rfl
  intro files
  induction files with
  | nil => intro db; rfl
  | cons f rest ih =>
    intro db
    simp only [upLoop, happ, ih]

theorem migrateUp_withDir (env : Env S) (es es2 : List DirEntry) (db : DB S)
    (hd : env.dir = .entries es) (hperm : es.Perm es2) :
    migrateUp (env.withDir (.entries es2)) db = migrateUp env db := by
  unfold migrateUp
  rw [getMigrationFiles_perm env es es2 ".up.sql" hd hperm]
  simp only [upLoop_withDir]
  rfl

/-- C10: when the version tokens of the up files are pairwise distinct and of equal width,
`migrateUp` visits and applies the files in strictly ascending order of their versions,
and the whole run is the same for every order in which the directory listing returns
the entries. -/
theorem migrateUp_fixed_width (env : Env S) (es es2 : List DirEntry) (db : DB S)
    (hd : env.dir = .entries es) (hperm : es.Perm es2)
    (hwidth : ∀ f ∈ upFiles env, ∀ g ∈ upFiles env,
      (getVersionFromFilename f).length = (getVersionFromFilename g).length)
    (hdist : ((upFiles env).map getVersionFromFilename).Nodup) :
    migrateUp (env.withDir (.entries es2)) db = migrateUp env db ∧
    (visited (migrateUp env db).log).Pairwise (fun A B =>
      strLe (getVersionFromFilename A) (getVersionFromFilename B) = true ∧
      getVersionFromFilename A ≠ getVersionFromFilename B) ∧
    (attempted (migrateUp env db).log).Pairwise (fun A B =>
      strLe (getVersionFromFilename A) (getVersionFromFilename B) = true ∧
      getVersionFromFilename A ≠ getVersionFromFilename B) := by
  have hfiles : (upFiles env).Pairwise (fun A B =>
      strLe (getVersionFromFilename A) (getVersionFromFilename B) = true ∧
      getVersionFromFilename A ≠ getVersionFromFilename B) := by
    have h1 : (upFiles env).Pairwise (fun A B => StrLe A B ∧
        getVersionFromFilename A ≠ getVersionFromFilename B) :=
      (upFiles_sorted env).and (List.pairwise_map.1 hdist)
    refine h1.imp_of_mem ?_
    intro a b ha hb hab
    refine ⟨?_, hab.2⟩
    rcases strLe_version a b hab.1 with h | h
    · exact h
    · have := extendsList_length _ _ h
      have hl := hwidth a ha b hb
      simp only [String.length] at hl
      omega
  obtain ⟨t, ht⟩ := visited_migrateUp env db
  have hvis : (visited (migrateUp env db).log).Pairwise (fun A B =>
      strLe (getVersionFromFilename A) (getVersionFromFilename B) = true ∧
      getVersionFromFilename A ≠ getVersionFromFilename B) := by
    rw [← ht] at hfiles
    exact (List.pairwise_append.1 hfiles).1
  exact ⟨migrateUp_withDir env es es2 db hd hperm, hvis,
    hvis.sublist (attempted_sublist_visited _)⟩

/-- Witness for C10: the files `010_c`, `001_a`, `002_b` are applied in the order `001`,
`002`, `010`, and another listing order gives the same run. -/
theorem migrateUp_fixed_width_witness :
    attempted (migrateUp shuffledEnv emptyDB).log =
      ["001_a.up.sql", "002_b.up.sql", "010_c.up.sql"] ∧
    migrateUp (shuffledEnv.withDir (.entries otherListing)) emptyDB =
      migrateUp shuffledEnv emptyDB ∧
    (attempted (migrateUp shuffledEnv emptyDB).log).Pairwise (fun A B =>
      strLe (getVersionFromFilename A) (getVersionFromFilename B) = true ∧
      getVersionFromFilename A ≠ getVersionFromFilename B) :=
  ⟨by decide,
    (migrateUp_fixed_width shuffledEnv _ otherListing emptyDB rfl (by decide) (by decide)
      (by decide)).1,
    (migrateUp_fixed_width shuffledEnv _ otherListing emptyDB rfl (by decide) (by decide)
      (by decide)).2.2⟩

/-! ## C11: the version token -/

theorem tokenChars_append (v r : List Char) (h : '_' ∉ v) : tokenChars (v ++ '_' :: r) = v := by
  induction v with
  | nil => simp [tokenChars]
  | cons c v ih =>
    have hc : c ≠ '_' := fun e => h (by simp [e])
    have hv : '_' ∉ v := fun e => h (by simp [e])
    have hd : decide (c ≠ '_') = true := by simpa using hc
    have h2 := ih hv
    unfold tokenChars at h2 ⊢
    rw [List.cons_append, List.takeWhile_cons, if_pos hd, h2]

theorem tokenChars_self (v : List Char) (h : '_' ∉ v) : tokenChars v = v := by
  induction v with
  | nil => simp [tokenChars]
  | cons c v ih =>
    have hc : c ≠ '_' := fun e => h (by simp [e])
    have hv : '_' ∉ v := fun e => h (by simp [e])
    have hd : decide (c ≠ '_') = true := by simpa using hc
    have h2 := ih hv
    unfold tokenChars at h2 ⊢
    rw [List.takeWhile_cons, if_pos hd, h2]

/-- C11: `getVersionFromFilename` returns the part of the file name before the first `_`,
and the whole file name when it contains no `_`; `001_create_users_table.up.sql` gives
`001`; for a version `v` without `_` and any description `d` the files `v_d.up.sql` and
`v_d.down.sql` both give `v`. -/
theorem getVersionFromFilename_spec (filename : String) :
    (∀ v rest : String, '_' ∉ v.data → filename = v ++ "_" ++ rest →
      getVersionFromFilename filename = v) ∧
    ('_' ∉ filename.data → getVersionFromFilename filename = filename) ∧
    getVersionFromFilename "001_create_users_table.up.sql" = "001" ∧
    (∀ v d : String, '_' ∉ v.data →
      getVersionFromFilename (v ++ "_" ++ d ++ ".up.sql") = v ∧
      getVersionFromFilename (v ++ "_" ++ d ++ ".down.sql") = v) := by
  have key : ∀ v r : String, '_' ∉ v.data → getVersionFromFilename (v ++ "_" ++ r) = v := by
    intro v r hv
    apply String.ext
    rw [getVersionFromFilename_data]
    simpa using tokenChars_append v.data r.data hv
  refine ⟨?_, ?_, by decide, ?_⟩
  · rintro v rest hv rfl
    exact key v rest hv
  · intro h
    apply String.ext
    rw [getVersionFromFilename_data]
    exact tokenChars_self _ h
  · intro v d hv
    constructor
    · have := key v (d ++ ".up.sql") hv
      simpa [String.append_assoc] using this
    · have := key v (d ++ ".down.sql") hv
      simpa [String.append_assoc] using this

/-- Witness for C11: the up and the down file of version `002` give the same token. -/
theorem getVersionFromFilename_spec_witness :
    '_' ∉ "002".data ∧
    getVersionFromFilename ("002" ++ "_" ++ "add_index" ++ ".up.sql") = "002" ∧
    getVersionFromFilename ("002" ++ "_" ++ "add_index" ++ ".down.sql") = "002" ∧
    getVersionFromFilename "README" = "README" :=
  ⟨by decide,
    ((getVersionFromFilename_spec "").2.2.2 "002" "add_index" (by decide)).1,
    ((getVersionFromFilename_spec "").2.2.2 "002" "add_index" (by decide)).2,
    (getVersionFromFilename_spec "README").2.1 (by decide)⟩

/-! ## C12: nothing to do -/

theorem getMigrationFiles_empty (env : Env S) (suffix : String)
    (h : env.dir = .notExist ∨
      ∃ es, env.dir = .entries es ∧ ∀ e ∈ es, e.isDir = true ∨ hasSuffix e.name suffix = false) :
    getMigrationFiles env suffix = ([], none) := by
  unfold getMigrationFiles
  rcases h with h | ⟨es, h, hes⟩
  · rw [h]
  · rw [h]
    have : es.filter (fun e => !e.isDir && hasSuffix e.name suffix) = [] := by
      rw [List.filter_eq_nil_iff]
      intro e he
      rcases hes e he with h1 | h1 <;> simp [h1]
    simp only [this]
    rfl

/-- C12: for either direction, when the migrations directory does not exist or holds no
file with the suffix of the direction, `migrateUp` and `migrateDown` return success, log
that there are no files and leave schema and ledger untouched (no script is executed, no
ledger row is inserted or deleted); run through `main` on a server without ledger table,
the table is created and records zero applied migrations. -/
theorem migrate_noop (env : Env S) (db : DB S) :
    ((env.dir = .notExist ∨ ∃ es, env.dir = .entries es ∧
        ∀ e ∈ es, e.isDir = true ∨ hasSuffix e.name ".up.sql" = false) →
      migrateUp env db = ⟨none, db, [.noFiles]⟩) ∧
    ((env.dir = .notExist ∨ ∃ es, env.dir = .entries es ∧
        ∀ e ∈ es, e.isDir = true ∨ hasSuffix e.name ".down.sql" = false) →
      migrateDown env db = ⟨none, db, [.noFiles]⟩) ∧
    (∀ (conn : ConnEnv) (schema : S), conn = ⟨false, false, false⟩ →
      ((env.dir = .notExist ∨ ∃ es, env.dir = .entries es ∧
          ∀ e ∈ es, e.isDir = true ∨ hasSuffix e.name ".up.sql" = false) →
        main env conn "up" ⟨schema, none⟩ =
          ⟨none, true, true, ⟨schema, some []⟩, [.noFiles]⟩) ∧
      ((env.dir = .notExist ∨ ∃ es, env.dir = .entries es ∧
          ∀ e ∈ es, e.isDir = true ∨ hasSuffix e.name ".down.sql" = false) →
        main env conn "down" ⟨schema, none⟩ =
          ⟨none, true, true, ⟨schema, some []⟩, [.noFiles]⟩)) := by
  have hup : (env.dir = .notExist ∨ ∃ es, env.dir = .entries es ∧
        ∀ e ∈ es, e.isDir = true ∨ hasSuffix e.name ".up.sql" = false) →
      ∀ d : DB S, migrateUp env d = ⟨none, d, [.noFiles]⟩ := by
    intro h d
    unfold migrateUp
    rw [getMigrationFiles_empty env ".up.sql" h]
    rfl
  have hdown : (env.dir = .notExist ∨ ∃ es, env.dir = .entries es ∧
        ∀ e ∈ es, e.isDir = true ∨ hasSuffix e.name ".down.sql" = false) →
      ∀ d : DB S, migrateDown env d = ⟨none, d, [.noFiles]⟩ := by
    intro h d
    unfold migrateDown
    rw [getMigrationFiles_empty env ".down.sql" h]
    rfl
  refine ⟨fun h => hup h db, fun h => hdown h db, ?_⟩
  rintro conn schema rfl
  constructor
  · intro h
    simp [main, createMigrationsTable, hup h]
  · intro h
    have hne : ("down" : String) ≠ "up" := by decide
    simp [main, createMigrationsTable, hdown h, hne]

/-- Witness for C12: a directory that does not exist, and a directory with up files only
when rolling back. -/
theorem migrate_noop_witness :
    migrateUp (pairEnv.withDir .notExist) emptyDB = ⟨none, emptyDB, [.noFiles]⟩ ∧
    migrateDown shuffledEnv tripleDB = ⟨none, tripleDB, [.noFiles]⟩ ∧
    main (pairEnv.withDir .notExist) okConn "up" freshServer =
      ⟨none, true, true, ⟨[], some []⟩, [.noFiles]⟩ ∧
    main (pairEnv.withDir .notExist) okConn "down" freshServer =
      ⟨none, true, true, ⟨[], some []⟩, [.noFiles]⟩ :=
  ⟨(migrate_noop (pairEnv.withDir .notExist) emptyDB).1 (Or.inl rfl),
    (migrate_noop shuffledEnv tripleDB).2.1 (Or.inr ⟨_, rfl, by decide⟩),
    ((migrate_noop (pairEnv.withDir .notExist) emptyDB).2.2 okConn [] rfl).1 (Or.inl rfl),
    ((migrate_noop (pairEnv.withDir .notExist) emptyDB).2.2 okConn [] rfl).2 (Or.inl rfl)⟩

/-! ## C13: an invalid direction -/

/-- C13, as stated, fails: with the direction `sideways` the command opens the connection,
pings the database and creates the ledger table before it rejects the direction. -/
theorem main_invalid_direction_counterexample :
    main pairEnv okConn "sideways" freshServer =
      ⟨some (.invalidDirection "sideways"), true, true, ⟨[], some []⟩, []⟩ ∧
    (main pairEnv okConn "sideways" freshServer).opened = true ∧
    (main pairEnv okConn "sideways" freshServer).pinged = true ∧
    freshServer.ledger = none ∧
    (main pairEnv okConn "sideways" freshServer).server.ledger = some [] := by
  decide

/-- C13 (amended): for every direction other than `up` and `down` the command ends with a
fatal error and no migration is applied or rolled back: nothing is logged, the schema is
unchanged and the ledger holds the rows it held.  The direction is checked last: the
invalid-direction error is reported exactly when opening, pinging and creating the ledger
table succeeded, and then the connection has been opened and pinged and the ledger table
exists. -/
theorem main_invalid_direction (env : Env S) (conn : ConnEnv) (direction : String)
    (srv : Server S) (hup : direction ≠ "up") (hdown : direction ≠ "down") :
    (main env conn direction srv).fatal ≠ none ∧
    (main env conn direction srv).log = [] ∧
    (main env conn direction srv).server.schema = srv.schema ∧
    (main env conn direction srv).server.ledger.getD [] = srv.ledger.getD [] ∧
    ((main env conn direction srv).fatal = some (.invalidDirection direction) ↔
      conn = ⟨false, false, false⟩) ∧
    ((main env conn direction srv).fatal = some (.invalidDirection direction) →
      (main env conn direction srv).opened = true ∧
      (main env conn direction srv).pinged = true ∧
      (main env conn direction srv).server.ledger = some (srv.ledger.getD [])) := by
  obtain ⟨o, p, c⟩ := conn
  obtain ⟨sch, led⟩ := srv
  cases o <;> cases p <;> cases c <;> cases led <;>
    simp [main, createMigrationsTable, hup, hdown]

/-- Witness for C13 (amended): the direction `sideways` on a server without ledger table. -/
theorem main_invalid_direction_witness :
    (main pairEnv okConn "sideways" freshServer).fatal = some (.invalidDirection "sideways") ∧
    (main pairEnv okConn "sideways" freshServer).log = [] ∧
    (main pairEnv okConn "sideways" freshServer).server.schema = freshServer.schema :=
  ⟨((main_invalid_direction pairEnv okConn "sideways" freshServer (by decide)
      (by decide)).2.2.2.2.1).2 rfl,
    (main_invalid_direction pairEnv okConn "sideways" freshServer (by decide) (by decide)).2.1,
    (main_invalid_direction pairEnv okConn "sideways" freshServer (by decide)
      (by decide)).2.2.1⟩

/-! ## C22: the transitions of a version -/

theorem upLoop_ledger (env : Env S) (applied : List String) :
    ∀ (files : List String) (db : DB S), (∀ f ∈ pending applied files, plainFile env f) →
      (upLoop env applied files db).db.ledger =
        db.ledger ++ (appliedFiles (upLoop env applied files db).log).map
          getVersionFromFilename := by
  intro files
  induction files with
  | nil => intro db _; simp [upLoop, appliedFiles]
  | cons f rest ih =>
    intro db hp
    by_cases hv : getVersionFromFilename f ∈ applied
    · rw [upLoop_skip env applied f rest db hv]
      rw [pending_cons_skip applied f rest hv] at hp
      simpa [appliedFiles] using ih db hp
    · rw [pending_cons_keep applied f rest hv] at hp
      have hpf : plainFile env f := hp f (List.mem_cons_self _ _)
      cases he : (applyMigration env db f (getVersionFromFilename f)).err with
      | some e =>
        rw [upLoop_fail env applied f rest db e hv he]
        have hdb := applyMigration_err_db env db f (getVersionFromFilename f)
          (plainFile_stays env f hpf) (by simp [he])
        simp [appliedFiles, hdb]
      | none =>
        rw [upLoop_step env applied f rest db hv he]
        obtain ⟨_, _, _, _, _, hdb⟩ := applyMigration_ok env db f _ hpf he
        have h := ih (applyMigration env db f (getVersionFromFilename f)).db
          (fun g hg => hp g (List.mem_cons_of_mem _ hg))
        simp only [appliedFiles, List.map_cons]
        rw [h, hdb]
        simp

/-- C22, as stated, fails.  The up script `+x;CLEAR` of `001_x` deletes the rows of the
ledger table: `migrateUp` succeeds and removes the version `000` from the applied set.
The down script `-y;CLEAR` of `002_y` does the same: one `migrateDown` removes the two
versions `001` and `002`. -/
theorem version_transitions_counterexample :
    (migrateUp clearEnv ⟨[], ["000"]⟩).err = none ∧
    "000" ∈ (⟨[], ["000"]⟩ : DB Tables).ledger ∧
    (migrateUp clearEnv ⟨[], ["000"]⟩).db.ledger = ["001"] ∧
    (migrateDown clearEnv ⟨["y"], ["001", "002"]⟩).err = none ∧
    rolledBackFiles (migrateDown clearEnv ⟨["y"], ["001", "002"]⟩).log = ["002_y.down.sql"] ∧
    (migrateDown clearEnv ⟨["y"], ["001", "002"]⟩).db.ledger = [] := by
  decide

/-- C22 (amended): `migrateUp` rolls back no file and `migrateDown` applies none.  When
the scripts of the pending up files are plain (each stays inside its transaction and
leaves the rows of the ledger table alone), `migrateUp`, whether it succeeds or fails,
removes no version from the applied set: the ledger afterwards is the ledger before
followed by the versions of the files it reports as applied.  When the scripts of the
down files with an applied version are plain, `migrateDown`, whether it succeeds or
fails, adds no version and removes at most one: either it rolls back nothing and the
ledger is unchanged, or it rolls back one file whose version was applied and the ledger
afterwards is the ledger before without that version. -/
theorem version_transitions (env : Env S) (db : DB S) :
    ((∀ f ∈ pending db.ledger (upFiles env), plainFile env f) →
      (migrateUp env db).db.ledger =
        db.ledger ++ (appliedFiles (migrateUp env db).log).map getVersionFromFilename ∧
      (∀ v ∈ db.ledger, v ∈ (migrateUp env db).db.ledger)) ∧
    ((∀ f ∈ downFiles env, getVersionFromFilename f ∈ db.ledger → plainFile env f) →
      ((rolledBackFiles (migrateDown env db).log = [] ∧
          (migrateDown env db).db.ledger = db.ledger) ∨
        (∃ F, rolledBackFiles (migrateDown env db).log = [F] ∧
          (migrateDown env db).err = none ∧
          getVersionFromFilename F ∈ db.ledger ∧
          (migrateDown env db).db.ledger =
            db.ledger.filter (fun v => v ≠ getVersionFromFilename F))) ∧
      (∀ v ∈ (migrateDown env db).db.ledger, v ∈ db.ledger)) ∧
    appliedFiles (migrateDown env db).log = [] ∧
    rolledBackFiles (migrateUp env db).log = [] := by
  have hskip : ∀ l : List String,
      rolledBackFiles (l.map LogEvent.skipNonApplied) = [] ∧
      appliedFiles (l.map LogEvent.skipNonApplied) = [] := by
    intro l
    induction l with
    | nil => exact ⟨rfl, rfl⟩
    | cons a l ih => simpa [rolledBackFiles, appliedFiles] using ih
  have hrb : ∀ (l : List String) (t : List LogEvent),
      rolledBackFiles (l.map LogEvent.skipNonApplied ++ t) = rolledBackFiles t ∧
      appliedFiles (l.map LogEvent.skipNonApplied ++ t) = appliedFiles t := by
    intro l t
    induction l with
    | nil => exact ⟨rfl, rfl⟩
    | cons a l ih => simpa [rolledBackFiles, appliedFiles] using ih
  have hdownlog : appliedFiles (migrateDown env db).log = [] := by
    rcases migrateDown_cases env with ⟨_, h1⟩ | ⟨e, h1⟩ | ⟨_, h1⟩
    · rw [h1]; rfl
    · rw [h1]; rfl
    · rw [h1]
      by_cases hex : ∃ f ∈ sortReverse (downFiles env), getVersionFromFilename f ∈ db.ledger
      · obtain ⟨pre, F, post, h2, h3, h4⟩ :=
          split_first_applied db.ledger (sortReverse (downFiles env)) hex
        rw [h2, downLoop_first env db.ledger F post db h3 pre h4]
        cases he : (rollbackMigration env db F (getVersionFromFilename F)).err with
        | some e => exact (hrb pre _).2.trans rfl
        | none => exact (hrb pre _).2.trans rfl
      · have hnone : ∀ f ∈ sortReverse (downFiles env),
            getVersionFromFilename f ∉ db.ledger := fun f hf hv => hex ⟨f, hf, hv⟩
        rw [downLoop_none env db.ledger db _ hnone]
        exact (hskip _).2
  have hupr : rolledBackFiles (migrateUp env db).log = [] := by
    have hl : ∀ (applied files : List String) (d : DB S),
        rolledBackFiles (upLoop env applied files d).log = [] := by
      intro applied files
      induction files with
      | nil => intro d; rfl
      | cons f rest ih =>
        intro d
        by_cases hv : getVersionFromFilename f ∈ applied
        · rw [upLoop_skip env applied f rest d hv]
          simpa [rolledBackFiles] using ih d
        · cases he : (applyMigration env d f (getVersionFromFilename f)).err with
          | some e => rw [upLoop_fail env applied f rest d e hv he]; rfl
          | none =>
            rw [upLoop_step env applied f rest d hv he]
            simpa [rolledBackFiles] using ih _
    rcases migrateUp_cases env with ⟨_, h1⟩ | ⟨e, h1⟩ | ⟨_, h1⟩
    · rw [h1]; rfl
    · rw [h1]; rfl
    · rw [h1]; exact hl _ _ _
  refine ⟨?_, ?_, hdownlog, hupr⟩
  · intro hp
    have hup : (migrateUp env db).db.ledger =
        db.ledger ++ (appliedFiles (migrateUp env db).log).map getVersionFromFilename := by
      rcases migrateUp_cases env with ⟨_, h1⟩ | ⟨e, h1⟩ | ⟨_, h1⟩
      · rw [h1]; simp [appliedFiles]
      · rw [h1]; simp [appliedFiles]
      · rw [h1]; exact upLoop_ledger env db.ledger (upFiles env) db hp
    refine ⟨hup, ?_⟩
    intro v hv
    rw [hup]
    exact List.mem_append_left _ hv
  · intro hp
    have hdown : (rolledBackFiles (migrateDown env db).log = [] ∧
          (migrateDown env db).db.ledger = db.ledger) ∨
        (∃ F, rolledBackFiles (migrateDown env db).log = [F] ∧
          (migrateDown env db).err = none ∧
          getVersionFromFilename F ∈ db.ledger ∧
          (migrateDown env db).db.ledger =
            db.ledger.filter (fun v => v ≠ getVersionFromFilename F)) := by
      rcases migrateDown_cases env with ⟨_, h1⟩ | ⟨e, h1⟩ | ⟨_, h1⟩
      · rw [h1]; exact Or.inl ⟨rfl, rfl⟩
      · rw [h1]; exact Or.inl ⟨rfl, rfl⟩
      · rw [h1]
        by_cases hex : ∃ f ∈ sortReverse (downFiles env), getVersionFromFilename f ∈ db.ledger
        · obtain ⟨pre, F, post, h2, h3, h4⟩ :=
            split_first_applied db.ledger (sortReverse (downFiles env)) hex
          have hF : F ∈ downFiles env :=
            (sortReverse_perm _).mem_iff.1
              (h2 ▸ List.mem_append_right _ (List.mem_cons_self _ _))
          have hpF : plainFile env F := hp F hF h3
          rw [h2, downLoop_first env db.ledger F post db h3 pre h4]
          cases he : (rollbackMigration env db F (getVersionFromFilename F)).err with
          | some e =>
            have hdb := rollbackMigration_err_db env db F (getVersionFromFilename F)
              (plainFile_stays env F hpF) (by simp [he])
            exact Or.inl ⟨(hrb pre _).1.trans rfl, congrArg DB.ledger hdb⟩
          | none =>
            obtain ⟨_, _, _, _, h6⟩ := rollbackMigration_ok env db F _ hpF he
            exact Or.inr ⟨F, (hrb pre _).1.trans rfl, rfl, h3, congrArg DB.ledger h6⟩
        · have hnone : ∀ f ∈ sortReverse (downFiles env),
              getVersionFromFilename f ∉ db.ledger := fun f hf hv => hex ⟨f, hf, hv⟩
          rw [downLoop_none env db.ledger db _ hnone]
          exact Or.inl ⟨(hskip _).1, rfl⟩
    refine ⟨hdown, ?_⟩
    intro v hv
    rcases hdown with ⟨_, h⟩ | ⟨F, _, _, _, h⟩
    · rw [h] at hv; exact hv
    · rw [h] at hv; exact (List.mem_filter.1 hv).1

/-- Witness for C22 (amended): a failing `migrateUp` keeps what it committed, and a
`migrateDown` removes one version. -/
theorem version_transitions_witness :
    (migrateUp failEnv emptyDB).err ≠ none ∧
    (migrateUp failEnv emptyDB).db.ledger = emptyDB.ledger ++ ["001"] ∧
    (migrateDown tripleDownEnv tripleDB).db.ledger = ["001", "002"] ∧
    (∀ v ∈ (migrateDown tripleDownEnv tripleDB).db.ledger, v ∈ tripleDB.ledger) :=
  ⟨by decide,
    ((version_transitions failEnv emptyDB).1
      (fun f _ => dirEnv_plain _ (by decide) f)).1.trans (by decide),
    by decide,
    ((version_transitions tripleDownEnv tripleDB).2.1
      (fun f _ _ => dirEnv_plain _ (by decide) f)).2⟩

end

end Migrate

namespace Domain

/-! ## The email pattern -/

theorem matchAtoms_nil (s : List Char) : matchAtoms [] s = true ↔ s = [] := by
  cases s <;> simp [matchAtoms]

theorem matchAtoms_cons (a : Atom) (rest : List Atom) (s : List Char) :
    matchAtoms (a :: rest) s = true ↔
      ∃ p q, s = p ++ q ∧ a.min ≤ p.length ∧ (a.more = true ∨ p.length = a.min) ∧
        (∀ c ∈ p, a.cls c = true) ∧ matchAtoms rest q = true := by
  simp only [matchAtoms, List.any_eq_true, List.mem_range, Bool.and_eq_true,
    Bool.or_eq_true, decide_eq_true_eq, List.all_eq_true]
  constructor
  · rintro ⟨i, hi, ⟨⟨⟨h1, h2⟩, h3⟩, h4⟩⟩
    have hlen : (s.take i).length = i := by
      rw [List.length_take]; omega
    exact ⟨s.take i, s.drop i, (List.take_append_drop i s).symm, by omega,
      by rw [hlen]; exact h2, h3, h4⟩
  · rintro ⟨p, q, rfl, h1, h2, h3, h4⟩
    refine ⟨p.length, by simp; omega, ⟨⟨⟨h1, h2⟩, ?_⟩, ?_⟩⟩
    · simpa using h3
    · simpa using h4

theorem single_of_class (p : List Char) (x : Char) (h1 : p.length = 1)
    (h2 : ∀ c ∈ p, decide (c = x) = true) : p = [x] := by
  match p, h1, h2 with
  | [c], _, h2 =>
    have := h2 c (by simp)
    simp at this
    rw [this]

/-- The texts matched by the email pattern: a non-empty local part of local characters,
`@`, a non-empty run of domain characters, a dot, and two or more letters. -/
theorem emailRegex_iff (s : List Char) :
    matchAtoms emailRegex s = true ↔
      ∃ l d t, s = l ++ '@' :: (d ++ '.' :: t) ∧
        l ≠ [] ∧ (∀ c ∈ l, isLocalChar c = true) ∧
        d ≠ [] ∧ (∀ c ∈ d, isDomainChar c = true) ∧
        2 ≤ t.length ∧ (∀ c ∈ t, isLetter c = true) := by
  unfold emailRegex
  simp only [matchAtoms_cons, matchAtoms_nil]
  constructor
  · rintro ⟨l, q1, rfl, hl, -, hlc, a, q2, rfl, -, ha, hac, d, q3, rfl, hd, -, hdc,
      b, q4, rfl, -, hb, hbc, t, q5, rfl, ht, -, htc, rfl⟩
    simp only [Bool.false_eq_true, false_or] at ha hb
    have ea := single_of_class a '@' ha hac
    have eb := single_of_class b '.' hb hbc
    subst ea eb
    refine ⟨l, d, t, by simp, ?_, hlc, ?_, hdc, ht, htc⟩
    · intro h; rw [h] at hl; simp at hl
    · intro h; rw [h] at hd; simp at hd
  · rintro ⟨l, d, t, rfl, hl, hlc, hd, hdc, ht, htc⟩
    refine ⟨l, _, rfl, ?_, Or.inl trivial, hlc, ['@'], _, rfl, by simp, Or.inr rfl,
      by simp, d, _, rfl, ?_, Or.inl trivial, hdc, ['.'], _, rfl, by simp, Or.inr rfl,
      by simp, t, [], by simp, ht, Or.inl trivial, htc, rfl⟩
    · cases l with
      | nil => exact absurd rfl hl
      | cons _ _ => simp
    · cases d with
      | nil => exact absurd rfl hd
      | cons _ _ => simp

theorem emailRegex_not_empty : MatchString emailRegex "" = false := by decide

theorem NewEmail_eq (u : Char → Char) (email : String) :
    NewEmail u email =
      if MatchString emailRegex (TrimSpace (ToLower u email)) = true then
        (⟨TrimSpace (ToLower u email)⟩, none)
      else (⟨""⟩, some .ErrInvalidEmail) := by
  unfold NewEmail
  by_cases h0 : TrimSpace (ToLower u email) = ""
  · simp [h0, emailRegex_not_empty]
  · by_cases h1 : MatchString emailRegex (TrimSpace (ToLower u email)) = true
    · simp [h0, h1]
    · simp [h0, h1]

theorem NewEmail_ok_iff (u : Char → Char) (email : String) :
    (NewEmail u email).2 = none ↔
      MatchString emailRegex (TrimSpace (ToLower u email)) = true := by
  rw [NewEmail_eq]
  by_cases h1 : MatchString emailRegex (TrimSpace (ToLower u email)) = true <;> simp [h1]

theorem NewEmail_err_iff (u : Char → Char) (email : String) :
    (NewEmail u email).2 = some .ErrInvalidEmail ↔
      MatchString emailRegex (TrimSpace (ToLower u email)) = false := by
  rw [NewEmail_eq]
  by_cases h1 : MatchString emailRegex (TrimSpace (ToLower u email)) = true <;> simp [h1]

theorem NewEmail_value (u : Char → Char) (email : String) (h : (NewEmail u email).2 = none) :
    (NewEmail u email).1.value = TrimSpace (ToLower u email) := by
  have h1 := (NewEmail_ok_iff u email).1 h
  rw [NewEmail_eq, if_pos h1]

theorem range_facts (lo hi c : Char) (h : inRange lo hi c = true) :
    lo.toNat ≤ c.toNat ∧ c.toNat ≤ hi.toNat := by
  simpa [inRange] using h

theorem isDomainChar_facts (c : Char) (h : isDomainChar c = true) :
    isSpace c = false ∧ c ≠ '@' ∧ isLocalChar c = true := by
  have ha : 'a'.toNat = 97 := rfl
  have hz : 'z'.toNat = 122 := rfl
  have hA : 'A'.toNat = 65 := rfl
  have hZ : 'Z'.toNat = 90 := rfl
  have h0 : '0'.toNat = 48 := rfl
  have h9 : '9'.toNat = 57 := rfl
  have hat : '@'.toNat = 64 := rfl
  simp only [isDomainChar, Bool.or_eq_true, decide_eq_true_eq] at h
  rcases h with (((h | h) | h) | h) | h
  · have r := range_facts _ _ _ h
    refine ⟨?_, ?_, by simp [isLocalChar, h]⟩
    · simp only [isSpace, decide_eq_false_iff_not]; omega
    · intro e; rw [e] at r; omega
  · have r := range_facts _ _ _ h
    refine ⟨?_, ?_, by simp [isLocalChar, h]⟩
    · simp only [isSpace, decide_eq_false_iff_not]; omega
    · intro e; rw [e] at r; omega
  · have r := range_facts _ _ _ h
    refine ⟨?_, ?_, by simp [isLocalChar, h]⟩
    · simp only [isSpace, decide_eq_false_iff_not]; omega
    · intro e; rw [e] at r; omega
  · subst h; exact ⟨by decide, by decide, by decide⟩
  · subst h; exact ⟨by decide, by decide, by decide⟩

theorem isLocalChar_facts (c : Char) (h : isLocalChar c = true) :
    isSpace c = false ∧ c ≠ '@' := by
  by_cases hd : isDomainChar c = true
  · exact ⟨(isDomainChar_facts c hd).1, (isDomainChar_facts c hd).2.1⟩
  · simp only [isLocalChar, Bool.or_eq_true, decide_eq_true_eq] at h
    simp only [isDomainChar, Bool.or_eq_true, decide_eq_true_eq, not_or] at hd
    rcases h with ((((((h | h) | h) | h) | h) | h) | h) | h
    · exact absurd h hd.1.1.1.1
    · exact absurd h hd.1.1.1.2
    · exact absurd h hd.1.1.2
    · exact absurd h hd.1.2
    · subst h; exact ⟨by decide, by decide⟩
    · subst h; exact ⟨by decide, by decide⟩
    · subst h; exact ⟨by decide, by decide⟩
    · exact absurd h hd.2

theorem isLetter_domain (c : Char) (h : isLetter c = true) : isDomainChar c = true := by
  simp only [isLetter, Bool.or_eq_true] at h
  rcases h with h | h <;> simp [isDomainChar, h]

/-- The parts of a matched text share no `@` and no white space. -/
theorem emailRegex_parts (l d t : List Char)
    (hl : ∀ c ∈ l, isLocalChar c = true) (hd : ∀ c ∈ d, isDomainChar c = true)
    (ht : ∀ c ∈ t, isLetter c = true) :
    '@' ∉ l ∧ '@' ∉ d ++ '.' :: t ∧
      ∀ c ∈ l ++ '@' :: (d ++ '.' :: t), isSpace c = false := by
  have h1 : '@' ∉ l := fun h => (isLocalChar_facts _ (hl _ h)).2 rfl
  have h2 : '@' ∉ d ++ '.' :: t := by
    intro h
    rcases List.mem_append.1 h with h | h
    · exact (isDomainChar_facts _ (hd _ h)).2.1 rfl
    · rcases List.mem_cons.1 h with h | h
      · exact absurd h (by decide)
      · exact (isDomainChar_facts _ (isLetter_domain _ (ht _ h))).2.1 rfl
  refine ⟨h1, h2, ?_⟩
  intro c hc
  rcases List.mem_append.1 hc with h | h
  · exact (isLocalChar_facts _ (hl _ h)).1
  · rcases List.mem_cons.1 h with h | h
    · subst h; decide
    · rcases List.mem_append.1 h with h | h
      · exact (isDomainChar_facts _ (hd _ h)).1
      · rcases List.mem_cons.1 h with h | h
        · subst h; decide
        · exact (isDomainChar_facts _ (isLetter_domain _ (ht _ h))).1

/-- A text with `@` outside both sides is cut at the `@` in one way only. -/
theorem split_at_unique (l r l2 r2 : List Char) (h : l ++ '@' :: r = l2 ++ '@' :: r2)
    (h1 : '@' ∉ l2) (h2 : '@' ∉ r2) : l = l2 ∧ r = r2 := by
  rcases List.append_eq_append_iff.1 h with ⟨a, ha1, ha2⟩ | ⟨c, hc1, hc2⟩
  · cases a with
    | nil =>
      simp at ha1 ha2
      exact ⟨ha1.symm, ha2⟩
    | cons x a =>
      simp at ha2
      exfalso
      apply h1
      rw [ha1, ← ha2.1]
      simp
  · cases c with
    | nil =>
      simp at hc1 hc2
      exact ⟨hc1, hc2.symm⟩
    | cons x c =>
      simp at hc2
      exfalso
      apply h2
      rw [hc2.2]
      simp

/-- On inputs of ASCII characters the lower-case table of Unicode plays no role. -/
theorem NewEmail_ascii (u : Char → Char) (s : String) (h : ∀ c ∈ s.data, c.toNat < 128) :
    NewEmail u s = NewEmail id s := by
  have hl : ToLower u s = ToLower id s := by
    unfold ToLower
    congr 1
    apply List.map_congr_left
    intro c hc
    simp [toLowerRune, h c hc]
  unfold NewEmail
  rw [hl]

/-! ## C14: accepted emails -/

/-- C14: for every input whose lower-cased, trimmed form matches the email pattern,
`NewEmail` succeeds and `String()` returns exactly that form; `TEST@EXAMPLE.COM` and
`  test@example.com  ` both give `test@example.com`, and `test+tag@example.com` is kept
as it is. -/
theorem NewEmail_valid (u : Char → Char) (email : String) :
    (MatchString emailRegex (TrimSpace (ToLower u email)) = true →
      NewEmail u email = (⟨TrimSpace (ToLower u email)⟩, none) ∧
      (NewEmail u email).1.String = TrimSpace (ToLower u email)) ∧
    NewEmail u "test@example.com" = (⟨"test@example.com"⟩, none) ∧
    NewEmail u "TEST@EXAMPLE.COM" = (⟨"test@example.com"⟩, none) ∧
    NewEmail u "  test@example.com  " = (⟨"test@example.com"⟩, none) ∧
    NewEmail u "test+tag@example.com" = (⟨"test+tag@example.com"⟩, none) := by
  refine ⟨fun h => ?_, ?_, ?_, ?_, ?_⟩
  · rw [NewEmail_eq, if_pos h]
    exact ⟨rfl, rfl⟩
  · rw [NewEmail_ascii u _ (by decide)]; decide
  · rw [NewEmail_ascii u _ (by decide)]; decide
  · rw [NewEmail_ascii u _ (by decide)]; decide
  · rw [NewEmail_ascii u _ (by decide)]; decide

/-- Witness for C14: an input with capital letters and surrounding white space. -/
theorem NewEmail_valid_witness :
    MatchString emailRegex (TrimSpace (ToLower id " Ada.Lovelace@Example.ORG\n")) = true ∧
    NewEmail id " Ada.Lovelace@Example.ORG\n" = (⟨"ada.lovelace@example.org"⟩, none) ∧
    (NewEmail id " Ada.Lovelace@Example.ORG\n").1.String = "ada.lovelace@example.org" :=
  ⟨by decide,
    ((NewEmail_valid id " Ada.Lovelace@Example.ORG\n").1 (by decide)).1.trans (by decide),
    ((NewEmail_valid id " Ada.Lovelace@Example.ORG\n").1 (by decide)).2.trans (by decide)⟩

/-! ## C15: rejected emails -/

/-- C15: `NewEmail` returns `ErrInvalidEmail` together with the empty `Email` exactly when
the trimmed lower-cased input does not match the pattern; that is the case when this
form is empty, has no `@`, has an empty local part, has an empty domain, contains white
space, or has a domain that does not end in a dot followed by at least two letters;
every accepted email contains exactly one `@` and no white space. -/
theorem NewEmail_invalid (u : Char → Char) (email : String) :
    ((NewEmail u email).2 = some .ErrInvalidEmail ↔
      MatchString emailRegex (TrimSpace (ToLower u email)) = false) ∧
    ((NewEmail u email).2 = none ↔
      MatchString emailRegex (TrimSpace (ToLower u email)) = true) ∧
    ((NewEmail u email).2 ≠ none → NewEmail u email = (⟨""⟩, some .ErrInvalidEmail)) ∧
    (TrimSpace (ToLower u email) = "" → (NewEmail u email).2 = some .ErrInvalidEmail) ∧
    ('@' ∉ (TrimSpace (ToLower u email)).data →
      (NewEmail u email).2 = some .ErrInvalidEmail) ∧
    ((∃ r, (TrimSpace (ToLower u email)).data = '@' :: r) →
      (NewEmail u email).2 = some .ErrInvalidEmail) ∧
    ((∃ l, (TrimSpace (ToLower u email)).data = l ++ ['@']) →
      (NewEmail u email).2 = some .ErrInvalidEmail) ∧
    ((∃ c ∈ (TrimSpace (ToLower u email)).data, isSpace c = true) →
      (NewEmail u email).2 = some .ErrInvalidEmail) ∧
    (∀ l r, (TrimSpace (ToLower u email)).data = l ++ '@' :: r →
      (¬ ∃ d t, r = d ++ '.' :: t ∧ 2 ≤ t.length ∧ ∀ c ∈ t, isLetter c = true) →
      (NewEmail u email).2 = some .ErrInvalidEmail) ∧
    ((NewEmail u email).2 = none →
      (NewEmail u email).1.value.data.count '@' = 1 ∧
      ∀ c ∈ (NewEmail u email).1.value.data, isSpace c = false) ∧
    (∀ s ∈ ["", "invalid", "@example.com", "test@", "test @example.com", "test@example"],
      NewEmail u s = (⟨""⟩, some .ErrInvalidEmail)) := by
  have hshape : (NewEmail u email).2 ≠ some .ErrInvalidEmail →
      ∃ l d t, (TrimSpace (ToLower u email)).data = l ++ '@' :: (d ++ '.' :: t) ∧
        l ≠ [] ∧ (∀ c ∈ l, isLocalChar c = true) ∧
        d ≠ [] ∧ (∀ c ∈ d, isDomainChar c = true) ∧
        2 ≤ t.length ∧ (∀ c ∈ t, isLetter c = true) := by
    intro h
    rw [Ne, NewEmail_err_iff, Bool.not_eq_false] at h
    exact (emailRegex_iff _).1 h
  refine ⟨NewEmail_err_iff u email, NewEmail_ok_iff u email, ?_, ?_, ?_, ?_, ?_, ?_, ?_, ?_, ?_⟩
  · intro h
    rw [Ne, NewEmail_ok_iff] at h
    rw [NewEmail_eq, if_neg h]
  · intro h
    rw [NewEmail_err_iff, h]
    exact emailRegex_not_empty
  · intro h
    by_contra hne
    obtain ⟨l, d, t, e, -⟩ := hshape hne
    exact h (by rw [e]; simp)
  · rintro ⟨r, hr⟩
    by_contra hne
    obtain ⟨l, d, t, e, hl, hlc, -⟩ := hshape hne
    rw [hr] at e
    cases l with
    | nil => exact hl rfl
    | cons c l =>
      have hc : '@' = c := by
        simp at e
        exact e.1
      exact (isLocalChar_facts c (hlc c (by simp))).2 hc.symm
  · rintro ⟨l0, hr⟩
    by_contra hne
    obtain ⟨l, d, t, e, -, hlc, -, hdc, ht, htc⟩ := hshape hne
    obtain ⟨-, h2, -⟩ := emailRegex_parts l d t hlc hdc htc
    rw [hr] at e
    have e2 : l0 ++ '@' :: [] = l ++ '@' :: (d ++ '.' :: t) := e
    rcases List.append_eq_append_iff.1 e2 with ⟨a, ha1, ha2⟩ | ⟨c, hc1, hc2⟩
    · cases a with
      | nil => simp at ha2
      | cons x a => simp at ha2
    · cases c with
      | nil => simp at hc2
      | cons x c =>
        simp at hc2
        apply h2
        rw [hc2.2]
        simp
  · rintro ⟨c, hc, hsp⟩
    by_contra hne
    obtain ⟨l, d, t, e, -, hlc, -, hdc, -, htc⟩ := hshape hne
    obtain ⟨-, -, h3⟩ := emailRegex_parts l d t hlc hdc htc
    rw [e] at hc
    rw [h3 c hc] at hsp
    exact absurd hsp (by decide)
  · intro l0 r0 hr hno
    by_contra hne
    obtain ⟨l, d, t, e, -, hlc, -, hdc, ht, htc⟩ := hshape hne
    obtain ⟨h1, h2, -⟩ := emailRegex_parts l d t hlc hdc htc
    rw [hr] at e
    obtain ⟨-, rfl⟩ := split_at_unique l0 r0 l _ e h1 h2
    exact hno ⟨d, t, rfl, ht, htc⟩
  · intro h
    have hne : (NewEmail u email).2 ≠ some .ErrInvalidEmail := by rw [h]; simp
    obtain ⟨l, d, t, e, -, hlc, -, hdc, -, htc⟩ := hshape hne
    obtain ⟨h1, h2, h3⟩ := emailRegex_parts l d t hlc hdc htc
    rw [NewEmail_value u email h, e]
    refine ⟨?_, h3⟩
    rw [List.count_append, List.count_cons_self, List.count_eq_zero_of_not_mem h1,
      List.count_eq_zero_of_not_mem h2]
  · intro s hs
    simp only [List.mem_cons, List.mem_singleton, List.not_mem_nil, or_false] at hs
    rcases hs with rfl | rfl | rfl | rfl | rfl | rfl <;>
      (rw [NewEmail_ascii u _ (by decide)]; decide)

/-- Witness for C15: `test@example` is rejected because its domain has no dot followed by
letters, and the accepted `a@b.co` holds one `@`. -/
theorem NewEmail_invalid_witness :
    (NewEmail id "test@example").2 = some .ErrInvalidEmail ∧
    NewEmail id "test@example" = (⟨""⟩, some .ErrInvalidEmail) ∧
    (NewEmail id " a b@c.de ").2 = some .ErrInvalidEmail ∧
    (NewEmail id "a@b.co").1.value.data.count '@' = 1 :=
  ⟨((NewEmail_invalid id "test@example").1).2 (by decide),
    (NewEmail_invalid id "test@example").2.2.1 (by decide),
    (NewEmail_invalid id " a b@c.de ").2.2.2.2.2.2.2.1 ⟨' ', by decide, by decide⟩,
    ((NewEmail_invalid id "a@b.co").2.2.2.2.2.2.2.2.2.1 (by decide)).1⟩

/-! ## C16: equality of emails -/

theorem rdropWhile_append_of_pos (p : Char → Bool) (l ws : List Char)
    (h : ∀ c ∈ ws, p c = true) : (l ++ ws).rdropWhile p = l.rdropWhile p := by
  unfold List.rdropWhile
  rw [List.reverse_append, List.dropWhile_append_of_pos (fun a ha => h a (List.mem_reverse.1 ha))]

theorem trimSpace_pad (ws1 x ws2 : List Char) (h1 : ∀ c ∈ ws1, isSpace c = true)
    (h2 : ∀ c ∈ ws2, isSpace c = true) : trimSpace (ws1 ++ x ++ ws2) = trimSpace x := by
  unfold trimSpace
  rw [List.append_assoc, List.dropWhile_append_of_pos h1, List.dropWhile_append]
  split
  · rename_i he
    have e1 : List.dropWhile isSpace x = [] := by simpa using he
    have e2 : List.dropWhile isSpace ws2 = [] := List.dropWhile_eq_nil_iff.2 h2
    rw [e1, e2]
  · exact rdropWhile_append_of_pos isSpace _ ws2 h2

theorem toLowerRune_space (u : Char → Char) (c : Char) (h : isSpace c = true)
    (ha : c.toNat < 128) : toLowerRune u c = c := by
  simp only [isSpace, decide_eq_true_eq] at h
  have hn : ¬ (c.toNat ≥ 65 ∧ c.toNat ≤ 90) := by omega
  simp only [toLowerRune, ha, if_true, Char.toLower]
  rw [if_neg hn]

/-- Padding an input with ASCII white space does not change the result of `NewEmail`. -/
theorem NewEmail_pad (u : Char → Char) (ws1 a ws2 : String)
    (h1 : ∀ c ∈ ws1.data, isSpace c = true ∧ c.toNat < 128)
    (h2 : ∀ c ∈ ws2.data, isSpace c = true ∧ c.toNat < 128) :
    NewEmail u (ws1 ++ a ++ ws2) = NewEmail u a := by
  have hm : ∀ ws : String, (∀ c ∈ ws.data, isSpace c = true ∧ c.toNat < 128) →
      ws.data.map (toLowerRune u) = ws.data := by
    intro ws h
    conv_rhs => rw [← List.map_id ws.data]
    apply List.map_congr_left
    intro c hc
    exact toLowerRune_space u c (h c hc).1 (h c hc).2
  have hn : TrimSpace (ToLower u (ws1 ++ a ++ ws2)) = TrimSpace (ToLower u a) := by
    unfold TrimSpace ToLower
    congr 1
    simp only [String.data_append, List.map_append, hm ws1 h1, hm ws2 h2]
    exact trimSpace_pad _ _ _ (fun c hc => (h1 c hc).1) (fun c hc => (h2 c hc).1)
  unfold NewEmail
  rw [hn]

/-- C16: for inputs `a` and `b` accepted by `NewEmail`, the emails are `Equals` exactly
when `a` and `b` have the same lower-cased, trimmed form; inputs with the same lower-case
form, and inputs that differ by surrounding ASCII white space, give the same result;
`Equals` is reflexive, symmetric and transitive; `test@example.com` equals
`TEST@EXAMPLE.COM` and differs from `other@example.com`. -/
theorem Email_Equals_spec (u : Char → Char) (a b : String) :
    ((NewEmail u a).2 = none → (NewEmail u b).2 = none →
      ((NewEmail u a).1.Equals (NewEmail u b).1 = true ↔
        TrimSpace (ToLower u a) = TrimSpace (ToLower u b))) ∧
    (ToLower u a = ToLower u b → NewEmail u a = NewEmail u b) ∧
    (∀ ws1 ws2 : String, (∀ c ∈ ws1.data, isSpace c = true ∧ c.toNat < 128) →
      (∀ c ∈ ws2.data, isSpace c = true ∧ c.toNat < 128) →
      NewEmail u (ws1 ++ a ++ ws2) = NewEmail u a) ∧
    (∀ e : Email, e.Equals e = true) ∧
    (∀ e f : Email, e.Equals f = f.Equals e) ∧
    (∀ e f g : Email, e.Equals f = true → f.Equals g = true → e.Equals g = true) ∧
    (NewEmail u "test@example.com").1.Equals (NewEmail u "TEST@EXAMPLE.COM").1 = true ∧
    (NewEmail u "test@example.com").1.Equals (NewEmail u "other@example.com").1 = false := by
  refine ⟨?_, ?_, fun ws1 ws2 h1 h2 => NewEmail_pad u ws1 a ws2 h1 h2, ?_, ?_, ?_, ?_, ?_⟩
  · intro ha hb
    simp only [Email.Equals, decide_eq_true_eq]
    rw [NewEmail_value u a ha, NewEmail_value u b hb]
  · intro h
    unfold NewEmail
    rw [h]
  · intro e
    simp [Email.Equals]
  · intro e f
    simp only [Email.Equals]
    by_cases h : e.value = f.value
    · simp [h]
    · have h2 : ¬ f.value = e.value := fun h3 => h h3.symm
      simp [h, h2]
  · intro e f g h1 h2
    simp only [Email.Equals, decide_eq_true_eq] at h1 h2 ⊢
    exact h1.trans h2
  · rw [NewEmail_ascii u "test@example.com" (by decide),
      NewEmail_ascii u "TEST@EXAMPLE.COM" (by decide)]
    decide
  · rw [NewEmail_ascii u "test@example.com" (by decide),
      NewEmail_ascii u "other@example.com" (by decide)]
    decide

/-- Witness for C16: two accepted inputs that differ in letter case and white space. -/
theorem Email_Equals_spec_witness :
    (NewEmail id "Bob@Example.com ").2 = none ∧ (NewEmail id "bob@example.COM").2 = none ∧
    TrimSpace (ToLower id "Bob@Example.com ") = TrimSpace (ToLower id "bob@example.COM") ∧
    (NewEmail id "Bob@Example.com ").1.Equals (NewEmail id "bob@example.COM").1 = true :=
  ⟨by decide, by decide, by decide,
    ((Email_Equals_spec id "Bob@Example.com " "bob@example.COM").1 (by decide) (by decide)).2
      (by decide)⟩

/-! ## Machine numbers -/

theorem wrap64_val (x : Int) :
    (wrap64 x).val = (x + 9223372036854775808) % 18446744073709551616 - 9223372036854775808 :=
  rfl

theorem wrap64_of_fits (x : Int) (h : -9223372036854775808 ≤ x ∧ x ≤ 9223372036854775807) :
    (wrap64 x).val = x := by
  rw [wrap64_val]; omega

theorem wrap64_self (x : I64) : wrap64 x.val = x :=
  Subtype.ext (wrap64_of_fits x.val x.property)

theorem wrap64_add_left (x y : Int) : wrap64 ((wrap64 x).val + y) = wrap64 (x + y) := by
  apply Subtype.ext
  simp only [wrap64_val]
  omega

theorem wrap64_add_right (x y : Int) : wrap64 (x + (wrap64 y).val) = wrap64 (x + y) := by
  apply Subtype.ext
  simp only [wrap64_val]
  omega

theorem toInt64_of_trunc (impl : F64 → Int) (x : F64) (v : Int) (h : x.trunc = some v)
    (hr : -9223372036854775808 ≤ v ∧ v ≤ 9223372036854775807) :
    (F64.toInt64 impl x).val = v := by
  unfold F64.toInt64
  rw [h]
  simp only [dif_pos hr]

/-! ## C17: `NewMoney` -/

/-- C17 fails on the code: for the `float64` nearest to 0.29 the product with 100 is
rounded to 28.999999999999996 and the conversion to `int64` discards the fraction, so
`NewMoney` stores 28 cents instead of 29.  The amounts of the test (0, 10.50, 1000.99)
give 0, 1050 and 100099, and the error is returned exactly for `dollars < 0`. -/
theorem NewMoney_truncates (impl : F64 → Int) :
    nearestTo 5224175567749775 54 29 100 = true ∧
    (F64.fin false 5224175567749775 (-54)).mul F64.hundred =
      .fin false 8162774324609023 (-48) ∧
    (8162774324609023 : Int) < 29 * 2 ^ 48 ∧
    (NewMoney impl (.fin false 5224175567749775 (-54))).2 = none ∧
    (NewMoney impl (.fin false 5224175567749775 (-54))).1.Cents = 28 ∧
    (NewMoney impl (.fin false 0 0)).1.Cents = 0 ∧
    (nearestTo 5910974510923776 49 1050 100 = true ∧
      (NewMoney impl (.fin false 5910974510923776 (-49))).1.Cents = 1050) ∧
    (nearestTo 8804801154299986 43 100099 100 = true ∧
      (NewMoney impl (.fin false 8804801154299986 (-43))).1.Cents = 100099) ∧
    (∀ d : F64, (NewMoney impl d).2 = some .ErrNegativeMoney ↔ d.ltZero = true) := by
  have key : ∀ (d : F64) (v : Int), d.ltZero = false → (d.mul F64.hundred).trunc = some v →
      (-9223372036854775808 ≤ v ∧ v ≤ 9223372036854775807) →
      (NewMoney impl d).2 = none ∧ (NewMoney impl d).1.Cents = v := by
    intro d v h1 h2 h3
    unfold NewMoney
    rw [h1]
    exact ⟨rfl, toInt64_of_trunc impl _ v h2 h3⟩
  refine ⟨by decide, by decide, by decide, ?_, ?_, ?_, ⟨by decide, ?_⟩, ⟨by decide, ?_⟩, ?_⟩
  · exact (key _ 28 (by decide) (by decide) (by decide)).1
  · exact (key _ 28 (by decide) (by decide) (by decide)).2
  · exact (key _ 0 (by decide) (by decide) (by decide)).2
  · exact (key _ 1050 (by decide) (by decide) (by decide)).2
  · exact (key _ 100099 (by decide) (by decide) (by decide)).2
  · intro d
    unfold NewMoney
    cases h : d.ltZero <;> simp

/-! ## C18: `Subtract` -/

/-- C18: for `Money` values `m` and `o` with non-negative cents, `m.Subtract(o)` returns
`ErrNegativeMoney` and the zero `Money` exactly when `m.Cents() < o.Cents()`, and
otherwise no error and a `Money` whose cents are `m.Cents() - o.Cents()`. -/
theorem Money_Subtract_spec (m o : Money) (hm : 0 ≤ m.Cents) (ho : 0 ≤ o.Cents) :
    (m.Subtract o = (Zero, some .ErrNegativeMoney) ↔ m.Cents < o.Cents) ∧
    ((m.Subtract o).2 = some .ErrNegativeMoney ↔ m.Cents < o.Cents) ∧
    (¬ m.Cents < o.Cents →
      (m.Subtract o).2 = none ∧ (m.Subtract o).1.Cents = m.Cents - o.Cents) := by
  have h1 := m.cents.property
  have h2 := o.cents.property
  simp only [Money.Cents] at hm ho ⊢
  have hw : (wrap64 (m.cents.val - o.cents.val)).val = m.cents.val - o.cents.val :=
    wrap64_of_fits _ (by omega)
  unfold Money.Subtract
  rw [hw]
  by_cases h : m.cents.val - o.cents.val < 0
  · have h3 : m.cents.val < o.cents.val := by omega
    simp [h, h3, Zero]
  · have h3 : ¬ m.cents.val < o.cents.val := by omega
    simp [h, h3, hw]

/-- Witness for C18: 1050 - 525 gives 525 and 525 - 1050 fails. -/
theorem Money_Subtract_spec_witness :
    (Money.Subtract ⟨wrap64 1050⟩ ⟨wrap64 525⟩).2 = none ∧
    (Money.Subtract ⟨wrap64 1050⟩ ⟨wrap64 525⟩).1.Cents = 1050 - 525 ∧
    Money.Subtract ⟨wrap64 525⟩ ⟨wrap64 1050⟩ = (Zero, some .ErrNegativeMoney) :=
  ⟨((Money_Subtract_spec ⟨wrap64 1050⟩ ⟨wrap64 525⟩ (by decide) (by decide)).2.2
      (by decide)).1,
    ((Money_Subtract_spec ⟨wrap64 1050⟩ ⟨wrap64 525⟩ (by decide) (by decide)).2.2
      (by decide)).2.trans (by decide),
    (Money_Subtract_spec ⟨wrap64 525⟩ ⟨wrap64 1050⟩ (by decide) (by decide)).1.2 (by decide)⟩

/-! ## C19: `Add` and `Zero` -/

/-- C19: the cents of `a.Add(b)` are the `int64` sum of the cents of `a` and `b`, which is
the integer sum when that fits in `int64` (1050 + 525 = 1575); `Add` is commutative and
associative and `Zero()` is its identity, with `Zero().IsZero()` true and
`Zero().Cents()` equal to 0. -/
theorem Money_Add_spec (a b c : Money) :
    (a.Add b).Cents =
      (a.Cents + b.Cents + 9223372036854775808) % 18446744073709551616
        - 9223372036854775808 ∧
    ((-9223372036854775808 ≤ a.Cents + b.Cents ∧ a.Cents + b.Cents ≤ 9223372036854775807) →
      (a.Add b).Cents = a.Cents + b.Cents) ∧
    (Money.Add ⟨wrap64 1050⟩ ⟨wrap64 525⟩).Cents = 1575 ∧
    a.Add b = b.Add a ∧
    (a.Add b).Add c = a.Add (b.Add c) ∧
    a.Add Zero = a ∧ Zero.Add a = a ∧
    Zero.IsZero = true ∧ Zero.Cents = 0 := by
  refine ⟨rfl, fun h => wrap64_of_fits _ h, by decide, ?_, ?_, ?_, ?_, by decide, by decide⟩
  · simp only [Money.Add, Int.add_comm]
  · simp only [Money.Add, wrap64_add_left, wrap64_add_right, Int.add_assoc]
  · obtain ⟨x⟩ := a
    have hz : (wrap64 0).val = 0 := by decide
    simp only [Money.Add, Zero, hz, Int.add_zero, wrap64_self]
  · obtain ⟨x⟩ := a
    have hz : (wrap64 0).val = 0 := by decide
    simp only [Money.Add, Zero, hz, Int.zero_add, wrap64_self]

/-- Witness for C19: 1050 + 525 fits in `int64`, so the sum is 1575 cents. -/
theorem Money_Add_spec_witness :
    (Money.Add ⟨wrap64 1050⟩ ⟨wrap64 525⟩).Cents = 1050 + 525 ∧
    Money.Add ⟨wrap64 1050⟩ Zero = ⟨wrap64 1050⟩ :=
  ⟨((Money_Add_spec ⟨wrap64 1050⟩ ⟨wrap64 525⟩ Zero).2.1 (by decide)).trans (by decide),
    (Money_Add_spec ⟨wrap64 1050⟩ ⟨wrap64 525⟩ Zero).2.2.2.2.2.1⟩

/-! ## C20: negative amounts -/

/-- C20 fails on the code: `Multiply` does not check its result, so 1000 cents multiplied
by the factor -1 give -1000 cents; `Add` does not check for overflow, so the greatest
`int64` amount plus one cent gives the least `int64`.  The constructors and `Subtract`
do keep the amount non-negative. -/
theorem Money_negative_reachable (impl : F64 → Int) :
    (NewMoneyFromCents (wrap64 1000)).2 = none ∧
    (NewMoneyFromCents (wrap64 1000)).1.Cents = 1000 ∧
    ((NewMoneyFromCents (wrap64 1000)).1.Multiply impl
      (.fin true 1 0)).Cents = -1000 ∧
    (NewMoneyFromCents (wrap64 9223372036854775807)).2 = none ∧
    (NewMoneyFromCents (wrap64 1)).2 = none ∧
    ((NewMoneyFromCents (wrap64 9223372036854775807)).1.Add
      (NewMoneyFromCents (wrap64 1)).1).Cents = -9223372036854775808 ∧
    (∀ x : I64, 0 ≤ (NewMoneyFromCents x).1.Cents) ∧
    0 ≤ Zero.Cents ∧
    (∀ m o : Money, 0 ≤ (m.Subtract o).1.Cents) := by
  refine ⟨by decide, by decide, ?_, by decide, by decide, by decide, ?_, by decide, ?_⟩
  · have e : (NewMoneyFromCents (wrap64 1000)).1 = ⟨wrap64 1000⟩ := by decide
    have t : ((F64.ofInt64 (wrap64 1000)).mul (.fin true 1 0)).trunc =
        some (-1000) := by decide
    rw [e]
    exact toInt64_of_trunc impl
      ((F64.ofInt64 (wrap64 1000)).mul (.fin true 1 0)) (-1000) t
      (by decide)
  · intro x
    unfold NewMoneyFromCents Money.Cents
    by_cases h : x.val < 0
    · rw [if_pos h]; decide
    · rw [if_neg h]; simp only; omega
  · intro m o
    unfold Money.Subtract Money.Cents
    by_cases h : (wrap64 (m.cents.val - o.cents.val)).val < 0
    · rw [if_pos h]; decide
    · rw [if_neg h]; simp only; omega

/-! ## C21: comparisons -/

/-- C21: for all `Money` values `a` and `b` exactly one of `a.IsLessThan(b)`,
`a.Equals(b)`, `a.IsGreaterThan(b)` holds; `a.IsGreaterThan(b)` holds exactly when
`b.IsLessThan(a)` does; each comparison agrees with the integer order on the cents; 1000
is greater than 500, 500 is not greater than 1000, 1000 equals 1000 and does not equal
500. -/
theorem Money_comparisons (a b : Money) :
    ((a.IsLessThan b = true ∧ a.Equals b = false ∧ a.IsGreaterThan b = false) ∨
      (a.IsLessThan b = false ∧ a.Equals b = true ∧ a.IsGreaterThan b = false) ∨
      (a.IsLessThan b = false ∧ a.Equals b = false ∧ a.IsGreaterThan b = true)) ∧
    (a.IsGreaterThan b = true ↔ b.IsLessThan a = true) ∧
    (a.IsLessThan b = true ↔ a.Cents < b.Cents) ∧
    (a.Equals b = true ↔ a.Cents = b.Cents) ∧
    (a.IsGreaterThan b = true ↔ a.Cents > b.Cents) ∧
    (a.Equals b = true ↔ a = b) ∧
    Money.IsGreaterThan ⟨wrap64 1000⟩ ⟨wrap64 500⟩ = true ∧
    Money.IsGreaterThan ⟨wrap64 500⟩ ⟨wrap64 1000⟩ = false ∧
    Money.Equals ⟨wrap64 1000⟩ ⟨wrap64 1000⟩ = true ∧
    Money.Equals ⟨wrap64 1000⟩ ⟨wrap64 500⟩ = false := by
  refine ⟨?_, ?_, ?_, ?_, ?_, ?_, by decide, by decide, by decide, by decide⟩
  · simp only [Money.IsLessThan, Money.Equals, Money.IsGreaterThan, decide_eq_true_eq,
      decide_eq_false_iff_not]
    omega
  · simp [Money.IsLessThan, Money.IsGreaterThan]
  · simp [Money.IsLessThan, Money.Cents]
  · simp [Money.Equals, Money.Cents]
  · simp [Money.IsGreaterThan, Money.Cents]
  · obtain ⟨x⟩ := a
    obtain ⟨y⟩ := b
    simp only [Money.Equals, decide_eq_true_eq, Money.mk.injEq]
    exact ⟨fun h => Subtype.ext h, fun h => congrArg Subtype.val h⟩

/-! ## Normalizing twice -/

theorem isDomainChar_ascii (c : Char) (h : isDomainChar c = true) : c.toNat < 128 := by
  have hz : 'z'.toNat = 122 := rfl
  have hZ : 'Z'.toNat = 90 := rfl
  have h9 : '9'.toNat = 57 := rfl
  simp only [isDomainChar, Bool.or_eq_true, decide_eq_true_eq] at h
  rcases h with (((h | h) | h) | h) | h
  · have r := range_facts _ _ _ h; omega
  · have r := range_facts _ _ _ h; omega
  · have r := range_facts _ _ _ h; omega
  · subst h; decide
  · subst h; decide

theorem isLocalChar_ascii (c : Char) (h : isLocalChar c = true) : c.toNat < 128 := by
  by_cases hd : isDomainChar c = true
  · exact isDomainChar_ascii c hd
  · simp only [isLocalChar, Bool.or_eq_true, decide_eq_true_eq] at h
    simp only [isDomainChar, Bool.or_eq_true, decide_eq_true_eq, not_or] at hd
    rcases h with ((((((h | h) | h) | h) | h) | h) | h) | h
    · exact absurd h hd.1.1.1.1
    · exact absurd h hd.1.1.1.2
    · exact absurd h hd.1.1.2
    · exact absurd h hd.1.2
    · subst h; decide
    · subst h; decide
    · subst h; decide
    · exact absurd h hd.2

/-- The characters of a text matched by the email pattern are ASCII and not white
space. -/
theorem emailRegex_chars (s : List Char) (h : matchAtoms emailRegex s = true) :
    ∀ c ∈ s, isSpace c = false ∧ c.toNat < 128 := by
  obtain ⟨l, d, t, e, -, hlc, -, hdc, -, htc⟩ := (emailRegex_iff s).1 h
  obtain ⟨-, -, h3⟩ := emailRegex_parts l d t hlc hdc htc
  intro c hc
  refine ⟨h3 c (e ▸ hc), ?_⟩
  rw [e] at hc
  rcases List.mem_append.1 hc with h | h
  · exact isLocalChar_ascii _ (hlc _ h)
  · rcases List.mem_cons.1 h with h | h
    · subst h; decide
    · rcases List.mem_append.1 h with h | h
      · exact isDomainChar_ascii _ (hdc _ h)
      · rcases List.mem_cons.1 h with h | h
        · subst h; decide
        · exact isDomainChar_ascii _ (isLetter_domain _ (htc _ h))

theorem trimSpace_subset (l : List Char) : ∀ c ∈ trimSpace l, c ∈ l := by
  intro c hc
  unfold trimSpace at hc
  exact (List.dropWhile_suffix isSpace).subset
    ((List.rdropWhile_prefix isSpace (List.dropWhile isSpace l)).subset hc)

theorem trimSpace_of_no_space (l : List Char) (h : ∀ c ∈ l, isSpace c = false) :
    trimSpace l = l := by
  unfold trimSpace
  have h1 : List.dropWhile isSpace l = l := by
    rw [List.dropWhile_eq_self_iff]
    intro hl
    rw [h _ (List.get_mem l 0 hl)]
    exact Bool.false_ne_true
  rw [h1, List.rdropWhile_eq_self_iff]
  intro hl
  rw [h _ (List.getLast_mem hl)]
  exact Bool.false_ne_true

/-- ASCII lower-casing never yields a capital letter. -/
theorem toLower_not_upper (c : Char) (h : c.toNat < 128) :
    ¬ (65 ≤ c.toLower.toNat ∧ c.toLower.toNat ≤ 90) := by
  by_cases hu : 65 ≤ c.toNat ∧ c.toNat ≤ 90
  · have hc : Char.ofNat c.toNat = c := Char.ofNat_toNat c
    obtain ⟨h1, h2⟩ := hu
    generalize c.toNat = k at hc h1 h2
    subst hc
    interval_cases k <;> decide
  · have e : c.toLower = c := by
      simp only [Char.toLower]
      rw [if_neg hu]
    rw [e]
    exact hu

theorem toLower_of_not_upper (c : Char) (h : ¬ (65 ≤ c.toNat ∧ c.toNat ≤ 90)) :
    c.toLower = c := by
  simp only [Char.toLower]
  rw [if_neg h]

/-- A normalized form that matches the pattern is its own normalized form, provided the
lower-case table of Unicode never yields an ASCII capital letter. -/
theorem normalize_again (u : Char → Char)
    (hu : ∀ c : Char, 128 ≤ c.toNat → ¬ (65 ≤ (u c).toNat ∧ (u c).toNat ≤ 90)) (s : String)
    (h : MatchString emailRegex (TrimSpace (ToLower u s)) = true) :
    TrimSpace (ToLower u (TrimSpace (ToLower u s))) = TrimSpace (ToLower u s) := by
  have hch := emailRegex_chars _ h
  have hlow : ∀ c ∈ (TrimSpace (ToLower u s)).data, toLowerRune u c = c := by
    intro c hc
    have hin : c ∈ (ToLower u s).data := trimSpace_subset _ c hc
    obtain ⟨c0, -, rfl⟩ := List.mem_map.1 hin
    have hascii := (hch _ hc).2
    have hnu : ¬ (65 ≤ (toLowerRune u c0).toNat ∧ (toLowerRune u c0).toNat ≤ 90) := by
      unfold toLowerRune
      by_cases h0 : c0.toNat < 128
      · rw [if_pos h0]; exact toLower_not_upper c0 h0
      · rw [if_neg h0]; exact hu c0 (by omega)
    show toLowerRune u (toLowerRune u c0) = toLowerRune u c0
    generalize toLowerRune u c0 = c at hascii hnu
    unfold toLowerRune
    rw [if_pos hascii]
    exact toLower_of_not_upper c hnu
  have hmap : (ToLower u (TrimSpace (ToLower u s))).data = (TrimSpace (ToLower u s)).data := by
    show List.map (toLowerRune u) (TrimSpace (ToLower u s)).data = _
    conv_rhs => rw [← List.map_id (TrimSpace (ToLower u s)).data]
    exact List.map_congr_left hlow
  apply String.ext
  show trimSpace (ToLower u (TrimSpace (ToLower u s))).data = _
  rw [hmap]
  exact trimSpace_of_no_space _ (fun c hc => (hch c hc).1)

theorem NewEmail_again (u : Char → Char)
    (hu : ∀ c : Char, 128 ≤ c.toNat → ¬ (65 ≤ (u c).toNat ∧ (u c).toNat ≤ 90)) (s : String)
    (h : (NewEmail u s).2 = none) :
    NewEmail u (NewEmail u s).1.value = ((NewEmail u s).1, none) := by
  have hm := (NewEmail_ok_iff u s).1 h
  have hv := NewEmail_value u s h
  have hn := normalize_again u hu s hm
  rw [hv, NewEmail_eq u (TrimSpace (ToLower u s)), hn, if_pos hm]
  have : (NewEmail u s).1 = ⟨TrimSpace (ToLower u s)⟩ := by
    rw [NewEmail_eq, if_pos hm]
  rw [this]

theorem NewEmail_not_empty (u : Char → Char) (s : String) (h : (NewEmail u s).2 = none) :
    (NewEmail u s).1.IsEmpty = false := by
  have hm := (NewEmail_ok_iff u s).1 h
  have hv := NewEmail_value u s h
  simp only [Email.IsEmpty, decide_eq_false_iff_not]
  rw [hv]
  intro he
  rw [he, emailRegex_not_empty] at hm
  exact absurd hm (by decide)

end Domain

namespace UserManagement

open Domain

/-! ## C24: paging -/

/-- C24: `ListUsers` calls the repository once, with limit 10 when the limit of the query
is not positive, limit 100 when it is above 100 and the limit of the query otherwise,
and with offset 0 when the offset of the query is negative and the offset of the query
otherwise; the repository receives a limit from 1 to 100 and an offset that is not
negative, and a query that holds these values is passed on unchanged. -/
theorem ListUsers_paging (repo : UserRepository) (query : ListUsersQuery) :
    ∃ offset limit : Int,
      (ListUsers repo query).calls = [.List offset limit] ∧
      (query.Limit ≤ 0 → limit = 10) ∧
      (100 < query.Limit → limit = 100) ∧
      (0 < query.Limit → query.Limit ≤ 100 → limit = query.Limit) ∧
      (query.Offset < 0 → offset = 0) ∧
      (0 ≤ query.Offset → offset = query.Offset) ∧
      1 ≤ limit ∧ limit ≤ 100 ∧ 0 ≤ offset ∧
      (ListUsers repo ⟨offset, limit⟩).calls = [.List offset limit] := by
  have hcalls : ∀ q : ListUsersQuery,
      (ListUsers repo q).calls = [.List (pageOffset q.Offset) (pageLimit q.Limit)] := by
    intro q
    unfold ListUsers
    cases h : repo.List (pageOffset q.Offset) (pageLimit q.Limit) with
    | mk users err => cases err <;> rfl
  refine ⟨pageOffset query.Offset, pageLimit query.Limit, hcalls query, ?_, ?_, ?_, ?_, ?_,
    ?_, ?_, ?_, ?_⟩
  · intro h; simp only [pageLimit]; split_ifs <;> omega
  · intro h; simp only [pageLimit]; split_ifs <;> omega
  · intro h1 h2; simp only [pageLimit]; split_ifs <;> omega
  · intro h; simp only [pageOffset]; split_ifs; omega
  · intro h; simp only [pageOffset]; split_ifs <;> omega
  · simp only [pageLimit]; split_ifs <;> omega
  · simp only [pageLimit]; split_ifs <;> omega
  · simp only [pageOffset]; split_ifs <;> omega
  · rw [hcalls]
    have e1 : pageOffset (pageOffset query.Offset) = pageOffset query.Offset := by
      simp only [pageOffset]; split_ifs <;> omega
    have e2 : pageLimit (pageLimit query.Limit) = pageLimit query.Limit := by
      simp only [pageLimit]; split_ifs <;> omega
    simp only [e1, e2]

/-- Witness for C24: the limits 0, 500 and 25 and the offset -3. -/
theorem ListUsers_paging_witness :
    (ListUsers toyRepo ⟨-3, 0⟩).calls = [.List 0 10] ∧
    (ListUsers toyRepo ⟨7, 500⟩).calls = [.List 7 100] ∧
    (ListUsers toyRepo ⟨7, 25⟩).calls = [.List 7 25] ∧
    (∃ offset limit : Int, (ListUsers toyRepo ⟨-3, 0⟩).calls = [.List offset limit] ∧
      1 ≤ limit ∧ limit ≤ 100 ∧ 0 ≤ offset) :=
  ⟨by decide, by decide, by decide,
    (fun ⟨o, l, h, _, _, _, _, _, h1, h2, h3, _⟩ => ⟨o, l, h, h1, h2, h3⟩)
      (ListUsers_paging toyRepo ⟨-3, 0⟩)⟩

/-! ## C26: changing a user -/

/-- C26: `UpdateProfile(f, l)` changes only the first name, the last name and the update
time, `ChangeEmail(e)` changes only the email and the update time: id and creation time
are unchanged by both, the email is unchanged by `UpdateProfile` and the names are
unchanged by `ChangeEmail`; after `UpdateProfile(f, l)` the full name is `f`, one space
and `l`. -/
theorem User_changes (now : Nat) (usr : User) (f l : String) (e : Email) :
    usr.UpdateProfile now f l = ⟨usr.id, usr.email, f, l, usr.createdAt, now⟩ ∧
    (usr.UpdateProfile now f l).id = usr.id ∧
    (usr.UpdateProfile now f l).createdAt = usr.createdAt ∧
    (usr.UpdateProfile now f l).email = usr.email ∧
    (usr.UpdateProfile now f l).firstName = f ∧
    (usr.UpdateProfile now f l).lastName = l ∧
    usr.ChangeEmail now e = ⟨usr.id, e, usr.firstName, usr.lastName, usr.createdAt, now⟩ ∧
    (usr.ChangeEmail now e).id = usr.id ∧
    (usr.ChangeEmail now e).createdAt = usr.createdAt ∧
    (usr.ChangeEmail now e).firstName = usr.firstName ∧
    (usr.ChangeEmail now e).lastName = usr.lastName ∧
    (usr.ChangeEmail now e).email = e ∧
    (usr.UpdateProfile now f l).FullName = f ++ " " ++ l ∧
    usr.FullName = usr.firstName ++ " " ++ usr.lastName :=
  ⟨rfl, rfl, rfl, rfl, rfl, rfl, rfl, rfl, rfl, rfl, rfl, rfl, rfl, rfl⟩

/-! ## C25: creating a user -/

/-- The six ways a call of `CreateUser` can go. -/
theorem CreateUser_cases (u : Char → Char) (repo : UserRepository) (newID : ID) (now : Nat)
    (cmd : CreateUserCommand) :
    ((NewEmail u cmd.Email).2 ≠ none ∧
      CreateUser u repo newID now cmd =
        ⟨none, some (.invalidEmail .ErrInvalidEmail), []⟩) ∨
    ((NewEmail u cmd.Email).2 = none ∧
      ∃ b e, repo.ExistsByEmail (TrimSpace (ToLower u cmd.Email)) = (b, some e) ∧
        CreateUser u repo newID now cmd =
          ⟨none, some (.checkEmailFailed e),
            [.ExistsByEmail (TrimSpace (ToLower u cmd.Email))]⟩) ∨
    ((NewEmail u cmd.Email).2 = none ∧
      repo.ExistsByEmail (TrimSpace (ToLower u cmd.Email)) = (true, none) ∧
      CreateUser u repo newID now cmd =
        ⟨none, some .ErrEmailAlreadyExists,
          [.ExistsByEmail (TrimSpace (ToLower u cmd.Email))]⟩) ∨
    ((NewEmail u cmd.Email).2 = none ∧
      repo.ExistsByEmail (TrimSpace (ToLower u cmd.Email)) = (false, none) ∧
      (cmd.FirstName = "" ∨ cmd.LastName = "") ∧
      CreateUser u repo newID now cmd =
        ⟨none, some .ErrInvalidInput,
          [.ExistsByEmail (TrimSpace (ToLower u cmd.Email))]⟩) ∨
    ((NewEmail u cmd.Email).2 = none ∧
      repo.ExistsByEmail (TrimSpace (ToLower u cmd.Email)) = (false, none) ∧
      cmd.FirstName ≠ "" ∧ cmd.LastName ≠ "" ∧
      ∃ e, repo.Save (NewUser newID now ⟨TrimSpace (ToLower u cmd.Email)⟩ cmd.FirstName
          cmd.LastName) = some e ∧
        CreateUser u repo newID now cmd =
          ⟨none, some (.saveFailed e),
            [.ExistsByEmail (TrimSpace (ToLower u cmd.Email)),
              .Save (NewUser newID now ⟨TrimSpace (ToLower u cmd.Email)⟩ cmd.FirstName
                cmd.LastName)]⟩) ∨
    ((NewEmail u cmd.Email).2 = none ∧
      repo.ExistsByEmail (TrimSpace (ToLower u cmd.Email)) = (false, none) ∧
      cmd.FirstName ≠ "" ∧ cmd.LastName ≠ "" ∧
      repo.Save (NewUser newID now ⟨TrimSpace (ToLower u cmd.Email)⟩ cmd.FirstName
        cmd.LastName) = none ∧
      CreateUser u repo newID now cmd =
        ⟨some (NewUser newID now ⟨TrimSpace (ToLower u cmd.Email)⟩ cmd.FirstName
            cmd.LastName), none,
          [.ExistsByEmail (TrimSpace (ToLower u cmd.Email)),
            .Save (NewUser newID now ⟨TrimSpace (ToLower u cmd.Email)⟩ cmd.FirstName
              cmd.LastName)]⟩) := by
  by_cases hm : MatchString emailRegex (TrimSpace (ToLower u cmd.Email)) = true
  · have hok : (NewEmail u cmd.Email).2 = none := (NewEmail_ok_iff u cmd.Email).2 hm
    have hne : NewEmail u cmd.Email = (⟨TrimSpace (ToLower u cmd.Email)⟩, none) := by
      rw [NewEmail_eq, if_pos hm]
    right
    unfold CreateUser
    rw [hne]
    simp only [Email.String]
    rcases hex : repo.ExistsByEmail (TrimSpace (ToLower u cmd.Email)) with ⟨b, e⟩
    cases e with
    | some e => exact Or.inl ⟨trivial, b, e, rfl, rfl⟩
    | none =>
      right
      cases b with
      | true => exact Or.inl ⟨trivial, rfl, rfl⟩
      | false =>
        right
        by_cases hn : cmd.FirstName = "" ∨ cmd.LastName = ""
        · exact Or.inl ⟨trivial, rfl, hn, by simp [hn]⟩
        · right
          have hn2 := not_or.1 hn
          rcases hs : repo.Save (NewUser newID now ⟨TrimSpace (ToLower u cmd.Email)⟩
            cmd.FirstName cmd.LastName) with _ | e
          · exact Or.inr ⟨trivial, rfl, hn2.1, hn2.2, rfl, by simp [hn, hs]⟩
          · exact Or.inl ⟨trivial, rfl, hn2.1, hn2.2, e, rfl, by simp [hn, hs]⟩
  · left
    have herr : (NewEmail u cmd.Email).2 ≠ none := fun h => hm ((NewEmail_ok_iff u cmd.Email).1 h)
    have hne : NewEmail u cmd.Email = (⟨""⟩, some .ErrInvalidEmail) := by
      rw [NewEmail_eq, if_neg hm]
    refine ⟨herr, ?_⟩
    unfold CreateUser
    rw [hne]

/-- C25: `CreateUser` calls `Save` exactly when the email validates, the repository
reports that no user with the normalized email exists, and both names are non-empty;
when `Save` is not called it returns a nil user and an error without saving anything:
the wrapped `ErrInvalidEmail` for a bad email, `ErrEmailAlreadyExists` for a taken email
whatever the names are, `ErrInvalidInput` for an empty name; on success the returned
user carries the normalized email and the names of the command, and it is the user that
was saved. -/
theorem CreateUser_spec (u : Char → Char) (repo : UserRepository) (newID : ID) (now : Nat)
    (cmd : CreateUserCommand) (r : Outcome User) (hr : r = CreateUser u repo newID now cmd) :
    ((∃ usr, RepoCall.Save usr ∈ r.calls) ↔
      ((NewEmail u cmd.Email).2 = none ∧
        repo.ExistsByEmail (TrimSpace (ToLower u cmd.Email)) = (false, none) ∧
        cmd.FirstName ≠ "" ∧ cmd.LastName ≠ "")) ∧
    ((¬ ∃ usr, RepoCall.Save usr ∈ r.calls) → r.value = none ∧ r.err ≠ none) ∧
    ((NewEmail u cmd.Email).2 ≠ none →
      r.err = some (.invalidEmail .ErrInvalidEmail) ∧ r.value = none ∧ r.calls = []) ∧
    ((NewEmail u cmd.Email).2 = none →
      repo.ExistsByEmail (TrimSpace (ToLower u cmd.Email)) = (true, none) →
      r.err = some .ErrEmailAlreadyExists ∧ r.value = none ∧
        r.calls = [.ExistsByEmail (TrimSpace (ToLower u cmd.Email))]) ∧
    ((NewEmail u cmd.Email).2 = none →
      repo.ExistsByEmail (TrimSpace (ToLower u cmd.Email)) = (false, none) →
      (cmd.FirstName = "" ∨ cmd.LastName = "") →
      r.err = some .ErrInvalidInput ∧ r.value = none ∧
        r.calls = [.ExistsByEmail (TrimSpace (ToLower u cmd.Email))]) ∧
    (r.err = none →
      ∃ usr, r.value = some usr ∧ usr.email.String = TrimSpace (ToLower u cmd.Email) ∧
        usr.firstName = cmd.FirstName ∧ usr.lastName = cmd.LastName ∧
        r.calls = [.ExistsByEmail (TrimSpace (ToLower u cmd.Email)), .Save usr]) ∧
    (r.err ≠ none → r.value = none) := by
  rcases CreateUser_cases u repo newID now cmd with
    ⟨h1, h⟩ | ⟨h1, b, e, h2, h⟩ | ⟨h1, h2, h⟩ | ⟨h1, h2, h3, h⟩ | ⟨h1, h2, h3, h4, e, h5, h⟩ |
    ⟨h1, h2, h3, h4, h5, h⟩
  · rw [h] at hr; subst hr
    simp [h1]
  · rw [h] at hr; subst hr
    simp [h1, h2]
  · rw [h] at hr; subst hr
    simp [h1, h2]
  · rw [h] at hr; subst hr
    have h3' : ¬ (cmd.FirstName ≠ "" ∧ cmd.LastName ≠ "") := by
      rintro ⟨a, b⟩
      rcases h3 with h3 | h3
      · exact a h3
      · exact b h3
    simp [h1, h2, h3, h3']
  · rw [h] at hr; subst hr
    simp [h1, h2, h3, h4]
  · rw [h] at hr; subst hr
    simp [h1, h2, h3, h4, NewUser, Email.String]

/-- Witness for C25: a new user is saved with the normalized email; a taken email is
reported even when the names are empty. -/
theorem CreateUser_spec_witness :
    (CreateUser id toyRepo ⟨7⟩ 5 ⟨" Ada@Example.ORG", "Ada", "Lovelace"⟩).value =
      some ⟨⟨7⟩, ⟨"ada@example.org"⟩, "Ada", "Lovelace", 5, 5⟩ ∧
    (∃ usr, RepoCall.Save usr ∈
      (CreateUser id toyRepo ⟨7⟩ 5 ⟨" Ada@Example.ORG", "Ada", "Lovelace"⟩).calls) ∧
    (CreateUser id toyRepo ⟨7⟩ 5 ⟨"Taken@example.com", "", ""⟩).err =
      some .ErrEmailAlreadyExists ∧
    (CreateUser id toyRepo ⟨7⟩ 5 ⟨"ada@example.org", "Ada", ""⟩).err =
      some .ErrInvalidInput ∧
    (CreateUser id toyRepo ⟨7⟩ 5 ⟨"not an email", "Ada", "Lovelace"⟩).calls = [] :=
  ⟨by decide,
    ((CreateUser_spec id toyRepo ⟨7⟩ 5 ⟨" Ada@Example.ORG", "Ada", "Lovelace"⟩ _ rfl).1).2
      ⟨by decide, by decide, by decide, by decide⟩,
    ((CreateUser_spec id toyRepo ⟨7⟩ 5 ⟨"Taken@example.com", "", ""⟩ _ rfl).2.2.2.1
      (by decide) (by decide)).1,
    ((CreateUser_spec id toyRepo ⟨7⟩ 5 ⟨"ada@example.org", "Ada", ""⟩ _ rfl).2.2.2.2.1
      (by decide) (by decide) (Or.inr rfl)).1,
    ((CreateUser_spec id toyRepo ⟨7⟩ 5 ⟨"not an email", "Ada", "Lovelace"⟩ _ rfl).2.2.1
      (by decide)).2.2⟩

/-! ## C27: an email read back from storage -/

/-- C27: for every input accepted by `NewEmail` with result `e`, `NewEmail(e.String())`
succeeds and returns `e` again, so a user whose email came from `NewEmail` and whose id
the UUID library parses back is read back unchanged through `toDomain` after `toModel`;
no email returned without error satisfies `IsEmpty()`.  The lower-case table of Unicode
enters through one property: it never yields an ASCII capital letter. -/
theorem NewEmail_idempotent (u : Char → Char)
    (hu : ∀ c : Char, 128 ≤ c.toNat → ¬ (65 ≤ (u c).toNat ∧ (u c).toNat ≤ 90)) (s : String)
    (h : (NewEmail u s).2 = none) :
    NewEmail u (NewEmail u s).1.String = ((NewEmail u s).1, none) ∧
    (NewEmail u (NewEmail u s).1.String).1.Equals (NewEmail u s).1 = true ∧
    (NewEmail u s).1.IsEmpty = false ∧
    (∀ (lib : UuidLib) (usr : User), usr.email = (NewEmail u s).1 →
      lib.parse (lib.str usr.id.value) = some usr.id.value →
      (toModel lib usr).Email = (NewEmail u s).1.String ∧
      toDomain u lib (toModel lib usr) = (some usr, none)) := by
  have h1 : NewEmail u (NewEmail u s).1.String = ((NewEmail u s).1, none) :=
    NewEmail_again u hu s h
  refine ⟨h1, ?_, NewEmail_not_empty u s h, ?_⟩
  · rw [h1]
    simp [Email.Equals]
  · intro lib usr he hid
    have hm : toModel lib usr =
        ⟨usr.id.value, usr.email.String, usr.firstName, usr.lastName, usr.createdAt,
          usr.updatedAt⟩ := by
      unfold toModel
      simp only [ID.String, hid]
    refine ⟨by rw [hm, he], ?_⟩
    rw [hm]
    unfold toDomain ParseID
    simp only [hid]
    rw [he, h1]
    simp only [Reconstitute]
    obtain ⟨⟨i⟩, em, f, l, c, up⟩ := usr
    simp only at he
    rw [he]

/-- Witness for C27: the email made from ` Ada@Example.ORG` is stored as `ada@example.org`
and read back unchanged. -/
theorem NewEmail_idempotent_witness :
    (NewEmail id " Ada@Example.ORG").2 = none ∧
    NewEmail id (NewEmail id " Ada@Example.ORG").1.String =
      ((NewEmail id " Ada@Example.ORG").1, none) ∧
    (NewEmail id " Ada@Example.ORG").1.IsEmpty = false ∧
    toDomain id toyUuid (toModel toyUuid
        (NewUser ⟨7⟩ 5 (NewEmail id " Ada@Example.ORG").1 "Ada" "Lovelace")) =
      (some (NewUser ⟨7⟩ 5 (NewEmail id " Ada@Example.ORG").1 "Ada" "Lovelace"), none) :=
  ⟨by decide,
    (NewEmail_idempotent id (fun c hc h => by simp only [id] at h; omega) " Ada@Example.ORG"
      (by decide)).1,
    (NewEmail_idempotent id (fun c hc h => by simp only [id] at h; omega) " Ada@Example.ORG"
      (by decide)).2.2.1,
    ((NewEmail_idempotent id (fun c hc h => by simp only [id] at h; omega) " Ada@Example.ORG"
      (by decide)).2.2.2 toyUuid
      (NewUser ⟨7⟩ 5 (NewEmail id " Ada@Example.ORG").1 "Ada" "Lovelace") rfl
      (by decide)).2⟩

end UserManagement
